import Mathlib

/-!
# TinyGrad dialect: lowering of tensor operations to affine loops and buffers

A shallow embedding of `lib/TinyGrad/LowerToAffine.cpp`.  The IR is a first-order
datatype of operations, the rewriter is a block with an insertion point and a
counter for fresh SSA values, and every pattern of the pass is a function on
that rewriter state.  Code that the C++ leaves undefined (failed assertions,
out-of-range vector accesses, dereferencing an exhausted iterator) makes the
embedded function return `none`.
-/

namespace TinyGrad

/-! ## Data model -/

/-- An SSA value (`mlir::Value`), identified by the number the builder gave it. -/
abbrev Value := Nat

/-- Element types that occur in the lowered code. -/
inductive ElementType where
  | f64
  | f32
  | i1
  | index
deriving DecidableEq, Repr

/-- The type `mlir::TensorType`: an element type and, when the tensor is ranked, its
shape (`int64_t` extents, outermost dimension first).  `shape = none` is an
unranked tensor. -/
structure TensorType where
  shape : Option (List Int)
  elementType : ElementType
deriving DecidableEq, Repr

/-- The type `mlir::MemRefType`, as built by `MemRefType::get(shape, elementType)`. -/
structure MemRefType where
  shape : List Int
  elementType : ElementType
deriving DecidableEq, Repr

/-- The types a value of the IR can have. -/
inductive Ty where
  | scalar (e : ElementType)
  | tensor (t : TensorType)
  | memref (m : MemRefType)
deriving DecidableEq, Repr

/-- An `llvm::APFloat` in IEEE-754 binary64 semantics, kept as its bit pattern. -/
structure APFloat where
  bits : Nat
deriving DecidableEq, Repr

/-- The constant attributes the pass creates: a `FloatAttr` (value and float type) or
an index-typed `IntegerAttr`. -/
inductive Attribute where
  | float (value : APFloat) (type : ElementType)
  | index (value : Int)
deriving DecidableEq, Repr

/-- The attribute `mlir::DenseElementsAttr`: its tensor type and its elements as the
flattened sequence that `getValues<FloatAttr>()` iterates over. -/
structure DenseElementsAttr where
  type : TensorType
  values : List APFloat
deriving DecidableEq, Repr

/-- Predicates of `arith.cmpf` that the pass uses. -/
inductive CmpFPredicate where
  | OEQ
  | OGT
deriving DecidableEq, Repr

/-- The scalar operation classes of the `arith` and `math` dialects that the
elementwise patterns are instantiated with (`arith::AddFOp`, `arith::SubFOp`,
`arith::MulFOp`, `arith::DivFOp`, `math::PowFOp`, `arith::CmpFOp`,
`arith::MaxFOp`, `math::ExpOp`, `math::LogOp`, `arith::NegFOp`). -/
inductive ScalarOp where
  | addf
  | subf
  | mulf
  | divf
  | powf
  | cmpf
  | maxf
  | exp
  | log
  | negf
deriving DecidableEq, Repr

/-- The operation kinds of the TinyGrad dialect. -/
inductive TinyGradKind where
  | constant
  | add
  | sub
  | mul
  | div
  | pow
  | cmpEq
  | relu
  | exp
  | log
  | neg
  | gt0
  | print
deriving DecidableEq, Repr

/-- A source location (`mlir::Location`), kept as a number. -/
abbrev Location := Nat

/-- An operation of the tensor dialect as a pattern sees it (`mlir::Operation *`):
its kind, operands, results with their types, the dense payload
(`getValue()`, meaningful for constants) and its source location
(`getLoc()`). -/
structure Operation where
  kind : TinyGradKind
  operands : List Value
  results : List (Value × Ty)
  value : DenseElementsAttr
  loc : Location := 0
deriving DecidableEq, Repr

/-- Operations that can stand in a block: `memref.alloc`, `memref.dealloc`,
`arith.constant`, `affine.load`, `affine.store`, a scalar `arith`/`math`
operation (with the comparison predicate when it is an `arith.cmpf`),
`affine.for` with constant bounds and its body, `affine.yield`, an operation of
the tensor dialect, and any other operation (such as the terminator of the
block). -/
inductive Op where
  | alloc (res : Value) (type : MemRefType)
  | dealloc (memref : Value)
  | constant (res : Value) (value : Attribute)
  | affineLoad (res : Value) (memref : Value) (indices : List Value)
  | affineStore (value : Value) (memref : Value) (indices : List Value)
  | scalar (res : Value) (op : ScalarOp) (predicate : Option CmpFPredicate)
      (operands : List Value)
  | affineFor (iv : Value) (lb ub step : Int) (body : List Op)
  | affineYield
  | tinygrad (op : Operation)
  | other (tag : Nat) (operands : List Value)
deriving Repr

/-! ## Builder state -/

/-- An `mlir::OpBuilder` / `mlir::PatternRewriter` working on one block.  The block is
`before ++ after`; the insertion point sits between the two lists, so the
operation the insertion point designates is the head of `after` (the block end
when `after` is empty).  `nextValue` numbers the next SSA value and `replaced`
records `replaceOp` (old result, replacement value). -/
structure PatternRewriter where
  before : List Op
  after : List Op
  nextValue : Nat
  replaced : List (Value × Value)
deriving Repr

namespace PatternRewriter

/-- The operations of the block, in order. -/
def block (rewriter : PatternRewriter) : List Op :=
  rewriter.before ++ rewriter.after

/-- Insert an operation without result at the insertion point
(`rewriter.create<OpTy>(...)`): it lands directly before the insertion point. -/
def insert (rewriter : PatternRewriter) (op : Op) : PatternRewriter :=
  { rewriter with before := rewriter.before ++ [op] }

/-- Create an operation with one result at the insertion point; the result is a
fresh value. -/
def create (rewriter : PatternRewriter) (mk : Value → Op) : Value × PatternRewriter :=
  (rewriter.nextValue,
   { rewriter with before := rewriter.before ++ [mk rewriter.nextValue],
                   nextValue := rewriter.nextValue + 1 })

/-- The call `created->moveBefore(&block->front())` for the operation just created at
the insertion point (the last one of `before`).  The list splice is a no-op
when the operation is itself the front of the block. -/
def moveCreatedBeforeFront (rewriter : PatternRewriter) : PatternRewriter :=
  match rewriter.before.getLast? with
  | none => rewriter
  | some created => { rewriter with before := created :: rewriter.before.dropLast }

/-- The call `created->moveBefore(&block->back())` for the operation just created at
the insertion point.  When the insertion point is the block end the created
operation is itself the back and the splice does nothing; when only one
operation follows, the created operation already stands directly before the
back and stays where it is (ahead of the insertion point). -/
def moveCreatedBeforeBack (rewriter : PatternRewriter) : PatternRewriter :=
  match rewriter.before.getLast?, rewriter.after with
  | none, _ => rewriter
  | some _, [] => rewriter
  | some _, [_] => rewriter
  | some created, a :: b :: rest =>
      { rewriter with
          before := rewriter.before.dropLast,
          after := (a :: b :: rest).dropLast ++ [created, (b :: rest).getLast (by simp)] }

/-- The call `rewriter.replaceOp(op, replacement)`: the rewritten operation (the one
at the insertion point) leaves the block and each of its results is mapped to
the replacement value. -/
def replaceOp (rewriter : PatternRewriter) (op : Operation) (replacement : Value) :
    PatternRewriter :=
  { rewriter with
      after := rewriter.after.tail,
      replaced := rewriter.replaced ++ op.results.map (fun r => (r.1, replacement)) }

end PatternRewriter

/-! ## Type conversion and buffer lifetime -/

/-- Source `convertTensorToMemRef`: asserts that the tensor type is ranked and
builds the memref type of the same shape and element type. -/
def convertTensorToMemRef (type : TensorType) : Option MemRefType :=
  match type.shape with
  | none => none
  | some shape => some { shape := shape, elementType := type.elementType }

/-- Source `insertAllocAndDealloc`: create the allocation and move it to the front of
the block, then create the deallocation and move it before the last operation
of the block.  Returns the allocated buffer. -/
def insertAllocAndDealloc (type : MemRefType) (rewriter : PatternRewriter) :
    Value × PatternRewriter :=
  let (alloc, rewriter) := rewriter.create (fun res => Op.alloc res type)
  let rewriter := rewriter.moveCreatedBeforeFront
  let rewriter := rewriter.insert (Op.dealloc alloc)
  let rewriter := rewriter.moveCreatedBeforeBack
  (alloc, rewriter)

/-! ## Constant lowering -/

/-- A counted loop `for (uint64_t i = start; i != start + count; ++i) body(i)` over a
state, stopping as soon as the body fails. -/
def forLoop {σ : Type} (body : Nat → σ → Option σ) : Nat → Nat → σ → Option σ
  | 0, _, s => some s
  | count + 1, i, s => (body i s).bind (forLoop body count (i + 1))

/-- Conversion of an `int64_t` to `uint64_t`. -/
def toUInt64 (d : Int) : Nat :=
  (d % 2 ^ 64).toNat

/-- The call `*std::max_element(begin, end)` on a non-empty range given as head and
tail. -/
def maxElement (first : Int) (rest : List Int) : Int :=
  rest.foldl max first

/-- Lines 72-82 of the source: the index constants created up-front, one
`arith::ConstantIndexOp` for each `i` of `llvm::seq<int64_t>(0, max)` when the
shape is not empty (the sequence asserts `0 <= max`), and the single constant
`0` for a tensor of rank 0. -/
def constantIndices (valueShape : List Int) (rewriter : PatternRewriter) :
    Option (List Value × PatternRewriter) :=
  match valueShape with
  | first :: rest =>
      if maxElement first rest < 0 then none
      else
        forLoop
          (fun i acc =>
            let (c, rewriter) := acc.2.create
              (fun res => Op.constant res (Attribute.index (Int.ofNat i)))
            some (acc.1 ++ [c], rewriter))
          (maxElement first rest).toNat 0 ([], rewriter)
  | [] =>
      let (c, rewriter) := rewriter.create (fun res => Op.constant res (Attribute.index 0))
      some ([c], rewriter)

/-- What the recursive functor `storeElements` captures by reference and updates:
the rewriter, the index stack `indices` and the element iterator `valueIt`
(kept as its position in the element sequence). -/
structure StoreState where
  rewriter : PatternRewriter
  indices : List Value
  valueIt : Nat
deriving Repr

/-- The base case of `storeElements` (lines 106-111): create the `arith.constant` of
`*valueIt++` and the `affine.store` of it into `alloc` at `indices`. -/
def storeElement (constantValue : DenseElementsAttr) (alloc : Value) (s : StoreState) :
    Option StoreState :=
  match constantValue.values[s.valueIt]? with
  | none => none
  | some element =>
      let (c, rewriter) := s.rewriter.create
        (fun res => Op.constant res (Attribute.float element constantValue.type.elementType))
      some { rewriter := rewriter.insert (Op.affineStore c alloc s.indices),
             indices := s.indices,
             valueIt := s.valueIt + 1 }

/-- Source `storeElements` (lines 103-120).  At `dimension == valueShape.size()` it
stores the next element; otherwise it runs `i` over the extent of
`dimension`, pushing `constantIndices[i]`, recursing on `dimension + 1` and
popping.  The recursion depth is bounded by the first argument (fuel); the rank
of the shape is always enough. -/
def storeElements (valueShape : List Int) (constantValue : DenseElementsAttr)
    (constantIndices : List Value) (alloc : Value) :
    Nat → Nat → StoreState → Option StoreState
  | 0, dimension, s =>
      if dimension = valueShape.length then storeElement constantValue alloc s else none
  | fuel + 1, dimension, s =>
      if dimension = valueShape.length then storeElement constantValue alloc s
      else
        match valueShape[dimension]? with
        | none => none
        | some extent =>
            forLoop
              (fun i s =>
                match constantIndices[i]? with
                | none => none
                | some index =>
                    (storeElements valueShape constantValue constantIndices alloc fuel
                        (dimension + 1) { s with indices := s.indices ++ [index] }).map
                      (fun s => { s with indices := s.indices.dropLast }))
              (toUInt64 extent) 0 s

/-- The call `op.getType().cast<mlir::TensorType>()`: the type of the first result,
which must be a tensor type. -/
def Operation.tensorType (op : Operation) : Option TensorType :=
  match op.results with
  | (_, Ty.tensor t) :: _ => some t
  | _ => none

/-- Source `ConstantOpLowering::matchAndRewrite`. -/
def ConstantOpLowering.matchAndRewrite (op : Operation) (rewriter : PatternRewriter) :
    Option PatternRewriter :=
  match op.tensorType with
  | none => none
  | some tensorType =>
  match convertTensorToMemRef tensorType with
  | none => none
  | some memRefType =>
  let (alloc, rewriter) := insertAllocAndDealloc memRefType rewriter
  let valueShape := memRefType.shape
  match constantIndices valueShape rewriter with
  | none => none
  | some (indexConstants, rewriter) =>
  match storeElements valueShape op.value indexConstants alloc valueShape.length 0
      { rewriter := rewriter, indices := [], valueIt := 0 } with
  | none => none
  | some s => some (s.rewriter.replaceOp op alloc)

/-! ## Reading the emitted code -/

/-- Row-major enumeration of the index tuples of `[0,d0) x ... x [0,dk-1)`: the last
dimension varies fastest.  The empty shape has the single empty tuple. -/
def rowMajor : List Nat → List (List Nat)
  | [] => [[]]
  | d :: ds => (List.range d).flatMap (fun i => (rowMajor ds).map (fun t => i :: t))

/-- Flattened position `i0*d1*...*dk-1 + i1*d2*...*dk-1 + ... + ik-1` of an index
tuple in a shape. -/
def flatPosition : List Nat → List Nat → Nat
  | _ :: ds, i :: t => i * ds.prod + flatPosition ds t
  | _, _ => 0

/-- The index tuple `t` lies in `[0,d0) x ... x [0,dk-1)`. -/
def InBox (t dims : List Nat) : Prop :=
  List.Forall₂ (fun i d => i < d) t dims

/-- The attribute of the `arith.constant` among `ops` that defines value `v`. -/
def definingConstant (ops : List Op) (v : Value) : Option Attribute :=
  ops.findSome? (fun o =>
    match o with
    | Op.constant res a => if res = v then some a else none
    | _ => none)

/-- The scalar stores into `memref` among `ops`, in order, each as the constant that
defines the stored value and the constants that define its indices, all looked
up in `ctx`. -/
def scalarStoresIn (ctx : List Op) (memref : Value) (ops : List Op) :
    List (Option Attribute × List (Option Attribute)) :=
  ops.filterMap (fun o =>
    match o with
    | Op.affineStore v m indices =>
        if m = memref then some (definingConstant ctx v, indices.map (definingConstant ctx))
        else none
    | _ => none)

/-- The scalar stores into `memref` that a straight-line piece of code performs. -/
def scalarStores (ops : List Op) (memref : Value) :
    List (Option Attribute × List (Option Attribute)) :=
  scalarStoresIn ops memref ops

/-- How an index tuple reads in `scalarStores`: each coordinate is an index
constant. -/
def indexTuple (t : List Nat) : List (Option Attribute) :=
  t.map (fun i => some (Attribute.index (Int.ofNat i)))

/-- How a store of element `v` at index tuple `t` reads in `scalarStores`. -/
def storeOf (elementType : ElementType) (v : APFloat) (t : List Nat) :
    Option Attribute × List (Option Attribute) :=
  (some (Attribute.float v elementType), indexTuple t)

/-- Whether an operation is an `affine.store`. -/
def Op.isAffineStore : Op → Bool
  | Op.affineStore _ _ _ => true
  | _ => false

/-- The code `storeElements` produces for a list of elements and index tuples: for
each pair the constant (numbered from `c`) and its store at the tuple, the
coordinate `i` being the value `indexOf i`, behind the indices `base` already on
the stack. -/
def emitStores (elementType : ElementType) (alloc : Value) (indexOf : Nat → Value)
    (base : List Value) : List APFloat → List (List Nat) → Value → List Op
  | v :: vs, t :: ts, c =>
      Op.constant c (Attribute.float v elementType) ::
        Op.affineStore c alloc (base ++ t.map indexOf) ::
          emitStores elementType alloc indexOf base vs ts (c + 1)
  | _, _, _ => []

/-- The state `storeElements` leaves behind: `ops` appended at the insertion point
and `n` elements consumed, each with one fresh value; the index stack is as
before. -/
def StoreState.advance (s : StoreState) (ops : List Op) (n : Nat) : StoreState :=
  { rewriter := { s.rewriter with
                    before := s.rewriter.before ++ ops, nextValue := s.rewriter.nextValue + n },
    indices := s.indices,
    valueIt := s.valueIt + n }

/-- Number of index constants created up-front for a shape. -/
def indexCount : List Nat → Nat
  | [] => 1
  | d :: ds => ds.foldl max d

/-- The index constants created up-front, numbered from `first`. -/
def emitIndices (first : Value) (count : Nat) : List Op :=
  (List.range count).map (fun j => Op.constant (first + j) (Attribute.index (Int.ofNat j)))

/-- The code between the allocation and the rest of the block after lowering a
constant: the index constants and then the element stores. -/
def constantCode (elementType : ElementType) (values : List APFloat) (dims : List Nat)
    (alloc : Nat) : List Op :=
  emitIndices (alloc + 1) (indexCount dims) ++
    emitStores elementType alloc (fun i => alloc + 1 + i) [] values (rowMajor dims)
      (alloc + 1 + indexCount dims)

/-! ## Elementwise lowering -/

/-- The callback type `LoopIterationFn`: given the builder, the memref operands and
the loop induction variables it emits the scalar computation and returns the
value to store. -/
abbrev LoopIterationFn :=
  PatternRewriter → List Value → List Value → Option (Value × PatternRewriter)

/-- The loops of `buildAffineLoopNest` for non-empty bounds.  Each loop is an
`affine.for` whose induction variable is a fresh value; the body of the
innermost loop is what `bodyBuilderFn` creates in it, and every loop body
ends in `affine.yield`.  A non-positive step fails the assertion of the
`affine.for` builder. -/
def buildLoops (bodyBuilderFn : PatternRewriter → List Value → Option PatternRewriter) :
    List Int → List Int → List Int → List Value → PatternRewriter →
      Option (Op × PatternRewriter)
  | [lb], [ub], [step], ivs, builder =>
      if step ≤ 0 then none
      else
        match bodyBuilderFn
            { builder with before := [], after := [], nextValue := builder.nextValue + 1 }
            (ivs ++ [builder.nextValue]) with
        | none => none
        | some nested =>
            some (Op.affineFor builder.nextValue lb ub step (nested.block ++ [Op.affineYield]),
                  { nested with before := builder.before, after := builder.after })
  | lb :: lbs, ub :: ubs, step :: steps, ivs, builder =>
      if step ≤ 0 then none
      else
        match buildLoops bodyBuilderFn lbs ubs steps (ivs ++ [builder.nextValue])
            { builder with nextValue := builder.nextValue + 1 } with
        | none => none
        | some (inner, builder') =>
            some (Op.affineFor builder.nextValue lb ub step [inner, Op.affineYield], builder')
  | _, _, _, _, _ => none

/-- The MLIR routine `buildAffineLoopNest(builder, loc, lbs, ubs, steps, bodyBuilderFn)`
for constant bounds, a library routine this file only calls: it asserts that
the three lists have the same length, builds the body directly at the
insertion point when there is no loop to construct, and otherwise inserts one
perfect nest of `affine.for` loops, outermost first, at the insertion point. -/
def buildAffineLoopNest (builder : PatternRewriter) (lbs ubs steps : List Int)
    (bodyBuilderFn : PatternRewriter → List Value → Option PatternRewriter) :
    Option PatternRewriter :=
  if lbs.length ≠ ubs.length ∨ lbs.length ≠ steps.length then none
  else
    match lbs with
    | [] => bodyBuilderFn builder []
    | _ :: _ =>
        match buildLoops bodyBuilderFn lbs ubs steps [] builder with
        | none => none
        | some (loop, builder') =>
            some { builder' with before := builder'.before ++ [loop] }

/-- The body builder `lowerOpToLoops` passes to `buildAffineLoopNest` (lines 166-172):
call `processIteration` and store the value it returns into `alloc` at the
induction variables. -/
def storeIteration (processIteration : LoopIterationFn) (operands : List Value)
    (alloc : Value) (nestedBuilder : PatternRewriter) (ivs : List Value) :
    Option PatternRewriter :=
  match processIteration nestedBuilder operands ivs with
  | none => none
  | some (valueToStore, nestedBuilder) =>
      some (nestedBuilder.insert (Op.affineStore valueToStore alloc ivs))

/-- Source `lowerOpToLoops`: allocate the result buffer, build the loop nest over the
shape of the result with lower bounds 0 and steps 1, whose body stores what
`processIteration` returns; then replace the operation by the buffer. -/
def lowerOpToLoops (op : Operation) (operands : List Value) (rewriter : PatternRewriter)
    (processIteration : LoopIterationFn) : Option PatternRewriter :=
  match op.tensorType with
  | none => none
  | some tensorType =>
  match convertTensorToMemRef tensorType, tensorType.shape with
  | some memRefType, some shape =>
      let (alloc, rewriter) := insertAllocAndDealloc memRefType rewriter
      let lowerBounds : List Int := List.replicate shape.length 0
      let steps : List Int := List.replicate shape.length 1
      match buildAffineLoopNest rewriter lowerBounds shape steps
          (storeIteration processIteration operands alloc) with
      | none => none
      | some rewriter => some (rewriter.replaceOp op alloc)
  | _, _ => none

/-- The zero `llvm::APFloat(dzero)` with `double dzero = 0.0f`. -/
def apzero : APFloat :=
  { bits := 0 }

/-- Source `buildLoweredBinaryOp<LoweredBinaryOp>`: the primary template creates the
operation on `(lhs, rhs)`; the specialization for `arith::CmpFOp` creates the
comparison with predicate `OEQ`. -/
def buildLoweredBinaryOp (LoweredBinaryOp : ScalarOp) (builder : PatternRewriter)
    (lhs rhs : Value) : Value × PatternRewriter :=
  match LoweredBinaryOp with
  | ScalarOp.cmpf =>
      builder.create (fun res => Op.scalar res ScalarOp.cmpf (some CmpFPredicate.OEQ) [lhs, rhs])
  | _ => builder.create (fun res => Op.scalar res LoweredBinaryOp none [lhs, rhs])

/-- Source `buildLoweredUnaryOp<LoweredUnaryOp>`: the primary template creates the
operation on the operand; the specialization for `arith::MaxFOp` creates an
f64 constant zero and `maxf(operand, zero)`, the one for `arith::CmpFOp` an f64
constant zero and the comparison `operand OGT zero`. -/
def buildLoweredUnaryOp (LoweredUnaryOp : ScalarOp) (builder : PatternRewriter)
    (operand : Value) : Value × PatternRewriter :=
  match LoweredUnaryOp with
  | ScalarOp.maxf =>
      let (zeroConstant, builder) := builder.create
        (fun res => Op.constant res (Attribute.float apzero ElementType.f64))
      builder.create (fun res => Op.scalar res ScalarOp.maxf none [operand, zeroConstant])
  | ScalarOp.cmpf =>
      let (zeroConstant, builder) := builder.create
        (fun res => Op.constant res (Attribute.float apzero ElementType.f64))
      builder.create
        (fun res => Op.scalar res ScalarOp.cmpf (some CmpFPredicate.OGT) [operand, zeroConstant])
  | _ => builder.create (fun res => Op.scalar res LoweredUnaryOp none [operand])

/-- The body callback of `BinaryOpLowering::matchAndRewrite`: the adaptor names the
first memref operand `lhs` and the second `rhs`; both are loaded at the
induction variables and combined. -/
def binaryIteration (LoweredBinaryOp : ScalarOp) : LoopIterationFn :=
  fun builder memRefOperands loopIvs =>
    match memRefOperands with
    | lhs :: rhs :: _ =>
        let (loadedLhs, builder) := builder.create (fun res => Op.affineLoad res lhs loopIvs)
        let (loadedRhs, builder) := builder.create (fun res => Op.affineLoad res rhs loopIvs)
        some (buildLoweredBinaryOp LoweredBinaryOp builder loadedLhs loadedRhs)
    | _ => none

/-- The body callback of `UnaryOpLowering::matchAndRewrite`: the operand is loaded at
the induction variables and passed to `buildLoweredUnaryOp`. -/
def unaryIteration (LoweredUnaryOp : ScalarOp) : LoopIterationFn :=
  fun builder memRefOperands loopIvs =>
    match memRefOperands with
    | operand :: _ =>
        let (loadedOperand, builder) :=
          builder.create (fun res => Op.affineLoad res operand loopIvs)
        some (buildLoweredUnaryOp LoweredUnaryOp builder loadedOperand)
    | _ => none

/-- Source `BinaryOpLowering<BinaryOp, LoweredBinaryOp>::matchAndRewrite`. -/
def BinaryOpLowering.matchAndRewrite (LoweredBinaryOp : ScalarOp) (op : Operation)
    (operands : List Value) (rewriter : PatternRewriter) : Option PatternRewriter :=
  lowerOpToLoops op operands rewriter (binaryIteration LoweredBinaryOp)

/-- Source `UnaryOpLowering<UnaryOp, LoweredUnaryOp>::matchAndRewrite`. -/
def UnaryOpLowering.matchAndRewrite (LoweredUnaryOp : ScalarOp) (op : Operation)
    (operands : List Value) (rewriter : PatternRewriter) : Option PatternRewriter :=
  lowerOpToLoops op operands rewriter (unaryIteration LoweredUnaryOp)

/-- The aliases of lines 267-272: the scalar operation class each binary kind is
lowered with. -/
def binaryLowering : TinyGradKind → Option ScalarOp
  | TinyGradKind.add => some ScalarOp.addf
  | TinyGradKind.sub => some ScalarOp.subf
  | TinyGradKind.mul => some ScalarOp.mulf
  | TinyGradKind.div => some ScalarOp.divf
  | TinyGradKind.pow => some ScalarOp.powf
  | TinyGradKind.cmpEq => some ScalarOp.cmpf
  | _ => none

/-- The aliases of lines 275-279: the scalar operation class each unary kind is
lowered with. -/
def unaryLowering : TinyGradKind → Option ScalarOp
  | TinyGradKind.relu => some ScalarOp.maxf
  | TinyGradKind.exp => some ScalarOp.exp
  | TinyGradKind.log => some ScalarOp.log
  | TinyGradKind.neg => some ScalarOp.negf
  | TinyGradKind.gt0 => some ScalarOp.cmpf
  | _ => none

/-! ## Executing the lowered code -/

/-- A value at run time: an index, or a scalar with its element type and its value
in the element domain `V`. -/
inductive RtValue (V : Type) where
  | index (i : Int)
  | scalar (type : ElementType) (v : V)

/-- A buffer at run time: its shape, its element type and its contents by index
tuple. -/
structure Buffer (V : Type) where
  shape : List Int
  elementType : ElementType
  data : List Int → V

/-- A memory access made by the executed code. -/
inductive Access where
  | load (memref : Value) (indices : List Int)
  | store (memref : Value) (indices : List Int)
deriving DecidableEq, Repr

/-- The meaning of the scalar operations on the element domain `V`: what a constant
attribute denotes, what an operation class (with its comparison predicate)
computes from its operands, and the content of fresh memory. -/
structure ScalarSem (V : Type) where
  constant : Attribute → V
  apply : ScalarOp → Option CmpFPredicate → List V → V
  undef : V

/-- The machine state: SSA environment, buffers, and the accesses made so far. -/
structure Machine (V : Type) where
  env : Value → Option (RtValue V)
  mem : Value → Option (Buffer V)
  trace : List Access

/-- Bind an SSA value. -/
def Machine.bind {V : Type} (m : Machine V) (v : Value) (x : RtValue V) : Machine V :=
  { m with env := fun w => if w = v then some x else m.env w }

/-- The index an SSA value holds. -/
def lookupIndex {V : Type} (env : Value → Option (RtValue V)) (v : Value) : Option Int :=
  match env v with
  | some (RtValue.index i) => some i
  | _ => none

/-- The scalar an SSA value holds, with its element type. -/
def lookupScalar {V : Type} (env : Value → Option (RtValue V)) (v : Value) :
    Option (ElementType × V) :=
  match env v with
  | some (RtValue.scalar type x) => some (type, x)
  | _ => none

/-- The index tuple a list of SSA values holds. -/
def lookupIndices {V : Type} (env : Value → Option (RtValue V)) : List Value → Option (List Int)
  | [] => some []
  | v :: vs =>
      match lookupIndex env v, lookupIndices env vs with
      | some i, some rest => some (i :: rest)
      | _, _ => none

/-- The scalars a list of SSA values holds, each with its element type. -/
def lookupScalars {V : Type} (env : Value → Option (RtValue V)) :
    List Value → Option (List (ElementType × V))
  | [] => some []
  | v :: vs =>
      match lookupScalar env v, lookupScalars env vs with
      | some x, some rest => some (x :: rest)
      | _, _ => none

/-- The index tuple addresses an element of a buffer of the given shape. -/
def inBounds : List Int → List Int → Bool
  | [], [] => true
  | i :: rest, d :: ds => decide (0 ≤ i) && decide (i < d) && inBounds rest ds
  | _, _ => false

/-- Run `f` on `count` successive values of the induction variable. -/
def iterate {σ : Type} (f : Int → σ → Option σ) : Nat → Int → Int → σ → Option σ
  | 0, _, _, s => some s
  | count + 1, i, step, s => (f i s).bind (iterate f count (i + step) step)

/-- Number of iterations of `affine.for` from `lb` to `ub` by a positive `step`. -/
def tripCount (lb ub step : Int) : Nat :=
  ((ub - lb + step - 1) / step).toNat

/-- The element type of the result of a scalar operation: `arith.cmpf` yields `i1`,
every other class the type of its operands. -/
def ScalarOp.resultType (op : ScalarOp) (operandTypes : List (Option ElementType)) :
    Option ElementType :=
  match op with
  | ScalarOp.cmpf => some ElementType.i1
  | _ => operandTypes.head?.bind id

/-- The floating-point element types. -/
def ElementType.isFloat : ElementType → Bool
  | ElementType.f64 => true
  | ElementType.f32 => true
  | _ => false

/-- The element type of the result of a scalar operation executed on operands of the
given element types.  Every operation class is a floating-point operation of
arith or math: it has at least one operand, its operands have one and the same
floating-point element type, and the result has the type `ScalarOp.resultType`
gives. -/
def ScalarOp.checkedResultType (op : ScalarOp) (operandTypes : List ElementType) :
    Option ElementType :=
  match operandTypes with
  | [] => none
  | type :: rest =>
      if type.isFloat && rest.all (fun t => decide (t = type)) then
        op.resultType (operandTypes.map some)
      else none

mutual
/-- Execution of one operation.  Loads and stores fail outside the buffer, and a
store fails when the element type of the stored value is not the element type of
the buffer (`affine.store` takes a value of the element type of its memref); a
scalar operation fails when its operands do not have one floating-point element
type, and its result has the element type of the operation class (`i1` for
`arith.cmpf`); the operations of the tensor dialect and unknown operations do
not execute. -/
def execOp {V : Type} (sem : ScalarSem V) : Op → Machine V → Option (Machine V)
  | Op.alloc res type, m =>
      some { m with mem := fun w =>
        if w = res then some ⟨type.shape, type.elementType, fun _ => sem.undef⟩ else m.mem w }
  | Op.dealloc memref, m =>
      match m.mem memref with
      | none => none
      | some _ => some { m with mem := fun w => if w = memref then none else m.mem w }
  | Op.constant res value, m =>
      match value with
      | Attribute.index i => some (m.bind res (RtValue.index i))
      | Attribute.float _ type => some (m.bind res (RtValue.scalar type (sem.constant value)))
  | Op.affineLoad res memref indices, m =>
      match m.mem memref, lookupIndices m.env indices with
      | some buffer, some tuple =>
          if inBounds tuple buffer.shape then
            some { env := (m.bind res (RtValue.scalar buffer.elementType (buffer.data tuple))).env,
                   mem := m.mem,
                   trace := m.trace ++ [Access.load memref tuple] }
          else none
      | _, _ => none
  | Op.affineStore value memref indices, m =>
      match lookupScalar m.env value, m.mem memref, lookupIndices m.env indices with
      | some (type, x), some buffer, some tuple =>
          if type = buffer.elementType then
            if inBounds tuple buffer.shape then
              some { env := m.env,
                     mem := fun w =>
                       if w = memref then
                         some { shape := buffer.shape,
                                elementType := buffer.elementType,
                                data := fun u => if u = tuple then x else buffer.data u }
                       else m.mem w,
                     trace := m.trace ++ [Access.store memref tuple] }
            else none
          else none
      | _, _, _ => none
  | Op.scalar res op predicate operands, m =>
      match lookupScalars m.env operands with
      | some xs =>
          match op.checkedResultType (xs.map Prod.fst) with
          | some type =>
              some (m.bind res (RtValue.scalar type (sem.apply op predicate (xs.map Prod.snd))))
          | none => none
      | none => none
  | Op.affineFor iv lb ub step body, m =>
      if step ≤ 0 then none
      else
        iterate (fun i m => execOps sem body (m.bind iv (RtValue.index i)))
          (tripCount lb ub step) lb step m
  | Op.affineYield, m => some m
  | Op.tinygrad _, _ => none
  | Op.other _ _, _ => none
/-- Execution of a sequence of operations. -/
def execOps {V : Type} (sem : ScalarSem V) : List Op → Machine V → Option (Machine V)
  | [], m => some m
  | o :: os, m => (execOp sem o m).bind (execOps sem os)
end

/-- The scalar compute step of a binary pattern instantiated with `LoweredBinaryOp`,
as a function of the two loaded elements. -/
def binaryStep {V : Type} (sem : ScalarSem V) (LoweredBinaryOp : ScalarOp) (x y : V) : V :=
  match LoweredBinaryOp with
  | ScalarOp.cmpf => sem.apply ScalarOp.cmpf (some CmpFPredicate.OEQ) [x, y]
  | _ => sem.apply LoweredBinaryOp none [x, y]

/-- The scalar compute step of a unary pattern instantiated with `LoweredUnaryOp`,
as a function of the loaded element. -/
def unaryStep {V : Type} (sem : ScalarSem V) (LoweredUnaryOp : ScalarOp) (x : V) : V :=
  match LoweredUnaryOp with
  | ScalarOp.maxf =>
      sem.apply ScalarOp.maxf none [x, sem.constant (Attribute.float apzero ElementType.f64)]
  | ScalarOp.cmpf =>
      sem.apply ScalarOp.cmpf (some CmpFPredicate.OGT)
        [x, sem.constant (Attribute.float apzero ElementType.f64)]
  | _ => sem.apply LoweredUnaryOp none [x]

/-- Number of values the body of a unary pattern defines. -/
def unaryValues : ScalarOp → Nat
  | ScalarOp.maxf => 3
  | ScalarOp.cmpf => 3
  | _ => 2

/-- A perfect nest of `affine.for` loops over the extents `dims`, each with lower
bound 0 and step 1, whose induction variables are numbered from `n`, around
the code `body ivs next` (the induction variables outermost first and the first
value free for the body).  With no extent the nest is the body itself. -/
def loopNest (body : List Value → Nat → List Op) : List Int → List Value → Nat → List Op
  | [], ivs, n => body ivs n
  | d :: ds, ivs, n =>
      [Op.affineFor n 0 d 1 (loopNest body ds (ivs ++ [n]) (n + 1) ++ [Op.affineYield])]

/-- The run-time index tuples `p ++ t` for `t` running over the box of `dims` in
row-major order. -/
def tuplesAt (p : List Int) (dims : List Nat) : List (List Int) :=
  (rowMajor dims).map (fun t => p ++ t.map Int.ofNat)

/-- The body a binary pattern builds: the two loads, the scalar operation and the
store of its result. -/
def binaryBody (LoweredBinaryOp : ScalarOp) (lhs rhs alloc : Value) (ivs : List Value)
    (n : Nat) : List Op :=
  [Op.affineLoad n lhs ivs,
   Op.affineLoad (n + 1) rhs ivs,
   Op.scalar (n + 2) LoweredBinaryOp
     (if LoweredBinaryOp = ScalarOp.cmpf then some CmpFPredicate.OEQ else none) [n, n + 1],
   Op.affineStore (n + 2) alloc ivs]

/-- The body a unary pattern builds: the load, for `maxf` and `cmpf` the zero
constant, the scalar operation and the store of its result. -/
def unaryBody (LoweredUnaryOp : ScalarOp) (operand alloc : Value) (ivs : List Value)
    (n : Nat) : List Op :=
  match LoweredUnaryOp with
  | ScalarOp.maxf =>
      [Op.affineLoad n operand ivs,
       Op.constant (n + 1) (Attribute.float apzero ElementType.f64),
       Op.scalar (n + 2) ScalarOp.maxf none [n, n + 1],
       Op.affineStore (n + 2) alloc ivs]
  | ScalarOp.cmpf =>
      [Op.affineLoad n operand ivs,
       Op.constant (n + 1) (Attribute.float apzero ElementType.f64),
       Op.scalar (n + 2) ScalarOp.cmpf (some CmpFPredicate.OGT) [n, n + 1],
       Op.affineStore (n + 2) alloc ivs]
  | _ =>
      [Op.affineLoad n operand ivs,
       Op.scalar (n + 1) LoweredUnaryOp none [n],
       Op.affineStore (n + 1) alloc ivs]

/-- The effect of executing the stores of an elementwise pattern at the index tuples
`us`: the trace grows by the reads and the store of each tuple in order, only
buffer `r` changes, it keeps its shape and element type, and it holds `val u` at
each `u` of `us`. -/
def Effect {V : Type} (r : Nat) (val : List Int → V) (reads : List Int → List Access)
    (us : List (List Int)) (m m' : Machine V) : Prop :=
  m'.trace = m.trace ++ us.flatMap (fun u => reads u ++ [Access.store r u]) ∧
  (∀ w, w ≠ r → m'.mem w = m.mem w) ∧
  ∃ R R', m.mem r = some R ∧ m'.mem r = some R' ∧ R'.shape = R.shape ∧
    R'.elementType = R.elementType ∧
    ∀ x, R'.data x = if x ∈ us then val x else R.data x

/-- The operand buffers satisfy `G` and the result buffer `r` has the shape and the
element type. -/
def Ready {V : Type} (G : (Nat → Option (Buffer V)) → Prop) (r : Nat) (shape : List Int)
    (elementType : ElementType) (m : Machine V) : Prop :=
  G m.mem ∧ ∃ R, m.mem r = some R ∧ R.shape = shape ∧ R.elementType = elementType

/-! ## Looking into emitted loop nests -/

mutual
/-- The (lower bound, upper bound, step) of the loops met when going down from an
operation through the first operation of each loop body. -/
def Op.nestBounds : Op → List (Int × Int × Int)
  | Op.affineFor _ lb ub step body => (lb, ub, step) :: nestBoundsOf body
  | _ => []
/-- The loop bounds of the nest a piece of code starts with, outermost first. -/
def nestBoundsOf : List Op → List (Int × Int × Int)
  | [] => []
  | o :: _ => o.nestBounds
end

mutual
/-- Number of operations satisfying `p` in an operation, loop bodies included. -/
def Op.count (p : Op → Bool) : Op → Nat
  | Op.affineFor iv lb ub step body =>
      (if p (Op.affineFor iv lb ub step body) then 1 else 0) + countOps p body
  | o => if p o then 1 else 0
/-- Number of operations satisfying `p` in a piece of code, loop bodies included. -/
def countOps (p : Op → Bool) : List Op → Nat
  | [] => 0
  | o :: os => o.count p + countOps p os
end

/-- Whether an operation is an `affine.for`. -/
def Op.isAffineFor : Op → Bool
  | Op.affineFor _ _ _ _ _ => true
  | _ => false

/-- Whether an operation is the f64 constant zero that the rectify and
positivity-test patterns synthesize. -/
def Op.isZeroConstant : Op → Bool
  | Op.constant _ (Attribute.float value ElementType.f64) => decide (value = apzero)
  | _ => false

/-- The buffer an operation allocates. -/
def Op.allocated : Op → Option Value
  | Op.alloc res _ => some res
  | _ => none

/-- The buffer an operation deallocates. -/
def Op.freed : Op → Option Value
  | Op.dealloc memref => some memref
  | _ => none

/-- The allocations of the introduced buffers as they stand at the front of the
block: the latest first. -/
def allocsOf (buffers : List (Value × MemRefType)) : List Op :=
  buffers.reverse.map (fun b => Op.alloc b.1 b.2)

/-- The deallocations of the introduced buffers as they stand before the terminator:
the earliest first. -/
def deallocsOf (buffers : List (Value × MemRefType)) : List Op :=
  buffers.map (fun b => Op.dealloc b.1)

/-! ## Sample inputs -/

/-- The doubles 1.0 to 6.0 as bit patterns. -/
def oneToSix : List APFloat :=
  [{ bits := 0x3FF0000000000000 }, { bits := 0x4000000000000000 },
   { bits := 0x4008000000000000 }, { bits := 0x4010000000000000 },
   { bits := 0x4014000000000000 }, { bits := 0x4018000000000000 }]

/-- A constant of shape (2,3) with the values 1 to 6. -/
def exampleConstant : Operation :=
  { kind := TinyGradKind.constant,
    operands := [],
    results := [(0, Ty.tensor { shape := some [2, 3], elementType := ElementType.f64 })],
    value := { type := { shape := some [2, 3], elementType := ElementType.f64 },
               values := oneToSix } }

/-- A block holding the constant and a terminator, the insertion point before the
constant. -/
def exampleRewriter : PatternRewriter :=
  { before := [], after := [Op.tinygrad exampleConstant, Op.other 0 []], nextValue := 1,
    replaced := [] }

/-- An addition of two tensors of shape (2,3) whose operands are the buffers 0 and 1. -/
def exampleAdd : Operation :=
  { kind := TinyGradKind.add,
    operands := [0, 1],
    results := [(2, Ty.tensor { shape := some [2, 3], elementType := ElementType.f64 })],
    value := { type := { shape := none, elementType := ElementType.f64 }, values := [] } }

/-- A block holding the addition and a terminator, the insertion point before the
addition. -/
def exampleAddRewriter : PatternRewriter :=
  { before := [], after := [Op.tinygrad exampleAdd, Op.other 0 []], nextValue := 3,
    replaced := [] }

/-- A scalar semantics over the integers, for running sample code. -/
def exampleSem : ScalarSem Int :=
  { constant := fun a =>
      match a with
      | Attribute.float v _ => Int.ofNat v.bits
      | Attribute.index i => i,
    apply := fun op _ xs =>
      match op, xs with
      | ScalarOp.addf, [x, y] => x + y
      | ScalarOp.maxf, [x, y] => max x y
      | ScalarOp.negf, [x] => -x
      | _, _ => 0,
    undef := 0 }

/-- The first operand buffer of the sample run: the element at a tuple is the sum
of its coordinates. -/
def exampleBufferA : Buffer Int :=
  { shape := [2, 3], elementType := ElementType.f64, data := fun u => u.sum }

/-- The second operand buffer of the sample run: every element is 10. -/
def exampleBufferB : Buffer Int :=
  { shape := [2, 3], elementType := ElementType.f64, data := fun _ => 10 }

/-- A machine holding the two operand buffers as values 0 and 1. -/
def exampleMachine : Machine Int :=
  { env := fun _ => none,
    mem := fun w =>
      if w = 0 then some exampleBufferA else if w = 1 then some exampleBufferB else none,
    trace := [] }

/-- A rectify operation on a tensor of shape (2) whose operand is the buffer 0. -/
def exampleRelu : Operation :=
  { kind := TinyGradKind.relu,
    operands := [0],
    results := [(1, Ty.tensor { shape := some [2], elementType := ElementType.f64 })],
    value := { type := { shape := none, elementType := ElementType.f64 }, values := [] } }

/-- A block holding the rectify operation and a terminator. -/
def exampleReluRewriter : PatternRewriter :=
  { before := [], after := [Op.tinygrad exampleRelu, Op.other 0 []], nextValue := 2, replaced := [] }

/-- A rank-0 constant 1.0. -/
def exampleScalarA : Operation :=
  { kind := TinyGradKind.constant,
    operands := [],
    results := [(0, Ty.tensor { shape := some [], elementType := ElementType.f64 })],
    value := { type := { shape := some [], elementType := ElementType.f64 },
               values := [{ bits := 0x3FF0000000000000 }] } }

/-- A rank-0 constant 2.0. -/
def exampleScalarB : Operation :=
  { kind := TinyGradKind.constant,
    operands := [],
    results := [(1, Ty.tensor { shape := some [], elementType := ElementType.f64 })],
    value := { type := { shape := some [], elementType := ElementType.f64 },
               values := [{ bits := 0x4000000000000000 }] } }

/-- A block holding the two rank-0 constants and a terminator. -/
def exampleTwoConstants : PatternRewriter :=
  { before := [],
    after := [Op.tinygrad exampleScalarA, Op.tinygrad exampleScalarB, Op.other 0 []],
    nextValue := 2,
    replaced := [] }

/-- The block after lowering the two rank-0 constants one after the other. -/
def exampleTwoConstantsLowered : List Op :=
  [Op.alloc 5 { shape := [], elementType := ElementType.f64 },
   Op.alloc 2 { shape := [], elementType := ElementType.f64 },
   Op.constant 3 (Attribute.index 0),
   Op.constant 4 (Attribute.float { bits := 0x3FF0000000000000 } ElementType.f64),
   Op.affineStore 4 2 [],
   Op.constant 6 (Attribute.index 0),
   Op.constant 7 (Attribute.float { bits := 0x4000000000000000 } ElementType.f64),
   Op.affineStore 7 5 [],
   Op.dealloc 2,
   Op.dealloc 5,
   Op.other 0 []]

/-! ## The conversion target -/

/-- The dialects the pass names: the tensor dialect it lowers and the six dialects
it declares legal. -/
inductive Dialect where
  | tinygrad
  | affine
  | builtin
  | func
  | arith
  | math
  | memref
deriving DecidableEq, Repr

/-- The dialect of a scalar operation class: `math::PowFOp`, `math::ExpOp` and
`math::LogOp` are operations of the math dialect, the other classes are
operations of the arith dialect. -/
def ScalarOp.dialect : ScalarOp → Dialect
  | ScalarOp.powf => Dialect.math
  | ScalarOp.exp => Dialect.math
  | ScalarOp.log => Dialect.math
  | _ => Dialect.arith

/-- The dialect an operation of a block belongs to.  An operation that is not
modelled in detail is the `func.return` terminator when its tag is 0 and an
operation of the builtin dialect otherwise. -/
def Op.dialect : Op → Dialect
  | Op.alloc _ _ => Dialect.memref
  | Op.dealloc _ => Dialect.memref
  | Op.constant _ _ => Dialect.arith
  | Op.affineLoad _ _ _ => Dialect.affine
  | Op.affineStore _ _ _ => Dialect.affine
  | Op.scalar _ op _ _ => op.dialect
  | Op.affineFor _ _ _ _ _ => Dialect.affine
  | Op.affineYield => Dialect.affine
  | Op.tinygrad _ => Dialect.tinygrad
  | Op.other tag _ => if tag = 0 then Dialect.func else Dialect.builtin

/-- The operands of an operation (`op->getOperands()`). -/
def Op.operands : Op → List Value
  | Op.alloc _ _ => []
  | Op.dealloc memref => [memref]
  | Op.constant _ _ => []
  | Op.affineLoad _ memref indices => memref :: indices
  | Op.affineStore value memref indices => value :: memref :: indices
  | Op.scalar _ _ _ operands => operands
  | Op.affineFor _ _ _ _ _ => []
  | Op.affineYield => []
  | Op.tinygrad op => op.operands
  | Op.other _ operands => operands

/-- The source location of an operation (`op->getLoc()`); only operations of the
tensor dialect carry one in this model. -/
def Op.loc : Op → Location
  | Op.tinygrad op => op.loc
  | _ => 0

/-- The type check `type.isa<mlir::TensorType>()`. -/
def Ty.isTensor : Ty → Bool
  | Ty.tensor _ => true
  | _ => false

/-- The buffer type a block allocates for a value, when the value is the result of
a `memref.alloc` of the block. -/
def allocatedType (block : List Op) (v : Value) : Option MemRefType :=
  block.findSome? (fun o =>
    match o with
    | Op.alloc res type => if res = v then some type else none
    | _ => none)

/-- The type of a value (`value.getType()`): a buffer allocated in the block has its
memref type, any other value the type the table `types` of the body gives
it. -/
def valueType (types : Value → Ty) (block : List Op) (v : Value) : Ty :=
  match allocatedType block v with
  | some type => Ty.memref type
  | none => types v

/-- The three `ConversionTarget::LegalizationAction`s. -/
inductive LegalizationAction where
  | Legal
  | Dynamic
  | Illegal
deriving DecidableEq, Repr

/-- The class `mlir::ConversionTarget` as far as the pass uses it: the actions set for
single operations (here keyed by the kind of a tensor operation, each with
its dynamic legality callback on the operand types) and the actions set for
whole dialects.  The entry set last stands first. -/
structure ConversionTarget where
  legalOperations : List (TinyGradKind × LegalizationAction × (List Ty → Bool))
  legalDialects : List (Dialect × LegalizationAction)

namespace ConversionTarget

/-- The call `target.addIllegalDialect<D>()`. -/
def addIllegalDialect (target : ConversionTarget) (dialect : Dialect) : ConversionTarget :=
  { target with legalDialects := (dialect, LegalizationAction.Illegal) :: target.legalDialects }

/-- The call `target.addLegalDialect<D1, D2, ...>()`. -/
def addLegalDialect (target : ConversionTarget) (dialects : List Dialect) :
    ConversionTarget :=
  { target with
      legalDialects :=
        dialects.map (fun d => (d, LegalizationAction.Legal)) ++ target.legalDialects }

/-- The call `target.addDynamicallyLegalOp<OpT>(callback)`. -/
def addDynamicallyLegalOp (target : ConversionTarget) (kind : TinyGradKind)
    (callback : List Ty → Bool) : ConversionTarget :=
  { target with
      legalOperations :=
        (kind, LegalizationAction.Dynamic, callback) :: target.legalOperations }

/-- The lookup `ConversionTarget::getOpInfo`: the action set for the operation itself
when there is one, otherwise the action set for its dialect. -/
def getOpInfo (target : ConversionTarget) (o : Op) :
    Option (LegalizationAction × Option (List Ty → Bool)) :=
  let specific : Option (TinyGradKind × LegalizationAction × (List Ty → Bool)) :=
    match o with
    | Op.tinygrad op => target.legalOperations.find? (fun e => decide (e.1 = op.kind))
    | _ => none
  match specific with
  | some (_, action, callback) => some (action, some callback)
  | none =>
      match target.legalDialects.find?
          (fun (e : Dialect × LegalizationAction) => decide (e.1 = o.dialect)) with
      | some (_, action) => some (action, none)
      | none => none

/-- The query `ConversionTarget::isLegal`: a dynamically legal operation is legal when
its callback says so on its operand types, any other one when its action is
`Legal`.  No answer when the target knows nothing about the operation. -/
def isLegal (target : ConversionTarget) (types : Value → Ty) (block : List Op) (o : Op) :
    Option Bool :=
  match target.getOpInfo o with
  | none => none
  | some (LegalizationAction.Dynamic, some callback) =>
      some (callback (o.operands.map (valueType types block)))
  | some (action, _) => some (decide (action = LegalizationAction.Legal))

/-- The query `ConversionTarget::isIllegal`: a dynamically legal operation is illegal
when its callback rejects it, any other one when its action is `Illegal`. -/
def isIllegal (target : ConversionTarget) (types : Value → Ty) (block : List Op) (o : Op) :
    Bool :=
  match target.getOpInfo o with
  | none => false
  | some (LegalizationAction.Dynamic, some callback) =>
      !callback (o.operands.map (valueType types block))
  | some (action, _) => decide (action = LegalizationAction.Illegal)

end ConversionTarget

/-- The legality callback the pass gives for the print operation (lines 300-303):
`llvm::none_of(op->getOperandTypes(), isa<TensorType>)`. -/
def printIsLegal (operandTypes : List Ty) : Bool :=
  !operandTypes.any Ty.isTensor

/-- The conversion target `runOnOperation` builds (lines 295-303): the tensor dialect
is illegal, six dialects are legal, and the print operation is dynamically
legal. -/
def target : ConversionTarget :=
  ((({ legalOperations := [], legalDialects := [] } : ConversionTarget).addIllegalDialect
        Dialect.tinygrad).addLegalDialect
      [Dialect.affine, Dialect.builtin, Dialect.func, Dialect.arith, Dialect.math,
       Dialect.memref]).addDynamicallyLegalOp TinyGradKind.print printIsLegal

/-! ## The print pattern and the pattern registry -/

/-- The operands a conversion pattern receives (`adaptor.getOperands()`): each operand
of the operation, or the value that replaced it when the operation that
defined it has been replaced. -/
def remapValues (replaced : List (Value × Value)) (operands : List Value) : List Value :=
  operands.map (fun v =>
    match replaced.find? (fun (e : Value × Value) => decide (e.1 = v)) with
    | some e => e.2
    | none => v)

/-- The call `rewriter.updateRootInPlace(op, callback)`: the operation at the insertion
point becomes `updated` where it stands; nothing is created or erased. -/
def PatternRewriter.updateRootInPlace (rewriter : PatternRewriter) (updated : Op) :
    PatternRewriter :=
  match rewriter.after with
  | [] => rewriter
  | _ :: rest => { rewriter with after := updated :: rest }

/-- Source `PrintOpLowering::matchAndRewrite`: the operands of the print operation are
set to the operands of the adaptor, in place. -/
def PrintOpLowering.matchAndRewrite (op : Operation) (operands : List Value)
    (rewriter : PatternRewriter) : Option PatternRewriter :=
  some (rewriter.updateRootInPlace (Op.tinygrad { op with operands := operands }))

/-- A rewrite pattern of the pass: the constant lowering, an instance of
`BinaryOpLowering<BinaryOp, LoweredBinaryOp>`, an instance of
`UnaryOpLowering<UnaryOp, LoweredUnaryOp>`, or the print lowering. -/
inductive Pattern where
  | constant
  | binary (BinaryOp : TinyGradKind) (LoweredBinaryOp : ScalarOp)
  | unary (UnaryOp : TinyGradKind) (LoweredUnaryOp : ScalarOp)
  | print
deriving DecidableEq, Repr

namespace Pattern

/-- The kind of operation a pattern is registered for (its root). -/
def rootKind : Pattern → TinyGradKind
  | constant => TinyGradKind.constant
  | binary BinaryOp _ => BinaryOp
  | unary UnaryOp _ => UnaryOp
  | print => TinyGradKind.print

/-- The method `matchAndRewrite` of a pattern. -/
def matchAndRewrite (pattern : Pattern) (op : Operation) (operands : List Value)
    (rewriter : PatternRewriter) : Option PatternRewriter :=
  match pattern with
  | constant => ConstantOpLowering.matchAndRewrite op rewriter
  | binary _ LoweredBinaryOp =>
      BinaryOpLowering.matchAndRewrite LoweredBinaryOp op operands rewriter
  | unary _ LoweredUnaryOp =>
      UnaryOpLowering.matchAndRewrite LoweredUnaryOp op operands rewriter
  | print => PrintOpLowering.matchAndRewrite op operands rewriter

/-- Whether a pattern changes its root in place instead of replacing it. -/
def updatesRoot : Pattern → Bool
  | print => true
  | _ => false

end Pattern

/-- Alias of line 267. -/
def AddOpLowering : Pattern := Pattern.binary TinyGradKind.add ScalarOp.addf
/-- Alias of line 268. -/
def SubOpLowering : Pattern := Pattern.binary TinyGradKind.sub ScalarOp.subf
/-- Alias of line 269. -/
def MulOpLowering : Pattern := Pattern.binary TinyGradKind.mul ScalarOp.mulf
/-- Alias of line 270. -/
def DivOpLowering : Pattern := Pattern.binary TinyGradKind.div ScalarOp.divf
/-- Alias of line 271. -/
def PowOpLowering : Pattern := Pattern.binary TinyGradKind.pow ScalarOp.powf
/-- Alias of line 272. -/
def CmpEqLowering : Pattern := Pattern.binary TinyGradKind.cmpEq ScalarOp.cmpf
/-- Alias of line 275. -/
def ReluOpLowering : Pattern := Pattern.unary TinyGradKind.relu ScalarOp.maxf
/-- Alias of line 276. -/
def ExpOpLowering : Pattern := Pattern.unary TinyGradKind.exp ScalarOp.exp
/-- Alias of line 277. -/
def LogOpLowering : Pattern := Pattern.unary TinyGradKind.log ScalarOp.log
/-- Alias of line 278. -/
def NegOpLowering : Pattern := Pattern.unary TinyGradKind.neg ScalarOp.negf
/-- Alias of line 279. -/
def Gt0OpLowering : Pattern := Pattern.unary TinyGradKind.gt0 ScalarOp.cmpf

/-- The pattern set `runOnOperation` fills (lines 305-324). -/
def patterns : List Pattern :=
  [Pattern.constant,
   AddOpLowering, SubOpLowering, MulOpLowering, DivOpLowering, PowOpLowering, CmpEqLowering,
   ReluOpLowering, ExpOpLowering, LogOpLowering, NegOpLowering, Gt0OpLowering,
   Pattern.print]

/-! ## The conversion driver -/

/-- What one round of the driver does: nothing when no operation of the block is
illegal, a rewrite, a failure reported at a location, or an abort when a
pattern ran into one of its assertions. -/
inductive StepResult where
  | legal
  | rewritten (rewriter : PatternRewriter)
  | failure (loc : Location)
  | aborted
deriving Repr

/-- Modelled from the spec: what the conversion driver of section 4.1 does with an
illegal operation `op` standing at the insertion point.  The driver is the
MLIR routine `applyPartialConversion` and not part of the sources.  The pattern
registered for the kind of the operation is looked up; without one the
conversion fails with the location of the operation.  Otherwise the pattern
is applied, with the operands redirected to the replacements made so far; a
pattern that changes its root in place must leave it legal, or the
conversion fails. -/
def legalizeRoot (types : Value → Ty) (target : ConversionTarget) (patterns : List Pattern)
    (rewriter : PatternRewriter) (op : Operation) : StepResult :=
  match patterns.find? (fun pattern => decide (pattern.rootKind = op.kind)) with
  | none => StepResult.failure op.loc
  | some pattern =>
      match pattern.matchAndRewrite op (remapValues rewriter.replaced op.operands) rewriter with
      | none => StepResult.aborted
      | some rewritten =>
          if pattern.updatesRoot then
            match rewritten.after with
            | [] => StepResult.rewritten rewritten
            | root :: _ =>
                if target.isIllegal types rewritten.block root then StepResult.failure op.loc
                else StepResult.rewritten rewritten
          else StepResult.rewritten rewritten

/-- Modelled from the spec: one round of the conversion driver of section 4.1.  The
operation taken is the first one of the block that is illegal under the
target; legal operations are left alone.  The insertion point is set before
it and `legalizeRoot` deals with it.  Only operations of the tensor dialect
have patterns. -/
def legalizeStep (types : Value → Ty) (target : ConversionTarget) (patterns : List Pattern)
    (rewriter : PatternRewriter) : StepResult :=
  let legal := fun o => !target.isIllegal types rewriter.block o
  match rewriter.block.dropWhile legal with
  | [] => StepResult.legal
  | Op.tinygrad op :: rest =>
      legalizeRoot types target patterns
        { rewriter with
            before := rewriter.block.takeWhile legal,
            after := Op.tinygrad op :: rest } op
  | root :: _ => StepResult.failure root.loc

/-- The outcome of the conversion: the converted body, a failure reported at a
location, an abort when a pattern ran into one of its assertions, or the
bound on the number of rounds reached. -/
inductive ConversionResult where
  | success (rewriter : PatternRewriter)
  | failure (loc : Location)
  | aborted
  | outOfFuel
deriving Repr

/-- Modelled from the spec: the conversion driver of section 4.1 (the MLIR routine
`applyPartialConversion`), as rounds of `legalizeStep` until no operation of the
block is illegal.  The first argument bounds the number of rounds. -/
def applyPartialConversion (types : Value → Ty) (target : ConversionTarget)
    (patterns : List Pattern) : Nat → PatternRewriter → ConversionResult
  | 0, _ => ConversionResult.outOfFuel
  | fuel + 1, rewriter =>
      match legalizeStep types target patterns rewriter with
      | StepResult.legal => ConversionResult.success rewriter
      | StepResult.rewritten rewritten =>
          applyPartialConversion types target patterns fuel rewritten
      | StepResult.failure loc => ConversionResult.failure loc
      | StepResult.aborted => ConversionResult.aborted

/-- Source `TinyGradToAffineLowerPass::runOnOperation` on a body: the partial
conversion with the target and the patterns of the pass; a failure of the
conversion is the failure of the pass.  Every round takes one operation of
the body, so one round more than the body has operations is enough. -/
def runOnOperation (types : Value → Ty) (rewriter : PatternRewriter) : ConversionResult :=
  applyPartialConversion types target patterns (rewriter.block.length + 1) rewriter

/-- Whether an operation is an operation of the tensor dialect. -/
def Op.isTinygrad : Op → Bool
  | Op.tinygrad _ => true
  | _ => false

/-- The type table of the sample bodies: every value that is not an allocated buffer
is a tensor of shape (2,3). -/
def exampleTypes : Value → Ty :=
  fun _ => Ty.tensor { shape := some [2, 3], elementType := ElementType.f64 }

/-- A print of the tensor 0, at location 7. -/
def examplePrint : Operation :=
  { kind := TinyGradKind.print,
    operands := [0],
    results := [],
    value := { type := { shape := none, elementType := ElementType.f64 }, values := [] },
    loc := 7 }

/-- A block in which the operation defining the tensor 0 has been replaced by the
buffer 1; the insertion point is before the print of the tensor 0. -/
def examplePrintRewriter : PatternRewriter :=
  { before := [Op.alloc 1 { shape := [2, 3], elementType := ElementType.f64 }],
    after := [Op.tinygrad examplePrint, Op.dealloc 1, Op.other 0 []],
    nextValue := 2,
    replaced := [(0, 1)] }

/-! ## Reading the state after a pattern -/

/-- What `insertAllocAndDealloc` leaves at the insertion point: the deallocation
itself when at most one operation follows the insertion point (the move
before the last operation of the block then does nothing), and nothing
otherwise. -/
def deallocAtPoint (dealloc : Op) (after : List Op) : List Op :=
  match after with
  | _ :: _ :: _ => []
  | _ => [dealloc]

/-- The operations from the insertion point on after `insertAllocAndDealloc`: when
at least two operations follow the insertion point the deallocation stands
directly before the last of them. -/
def deallocBeforeBack (dealloc : Op) (after : List Op) : List Op :=
  match after with
  | a :: b :: rest => (a :: b :: rest).dropLast ++ [dealloc, (b :: rest).getLast (by simp)]
  | _ => after

/-- The result and the value of an operation that is an index constant. -/
def Op.indexConstant : Op → Option (Value × Int)
  | Op.constant res (Attribute.index i) => some (res, i)
  | _ => none

/-- The index values the stores of a straight-line piece of code use. -/
def storeIndices (code : List Op) : List Value :=
  code.flatMap (fun o =>
    match o with
    | Op.affineStore _ _ indices => indices
    | _ => [])

/-- A block holding a rank-0 constant and a terminator, the insertion point before
the constant. -/
def exampleScalarRewriter : PatternRewriter :=
  { before := [], after := [Op.tinygrad exampleScalarA, Op.other 0 []], nextValue := 1,
    replaced := [] }

/-- The block after lowering the rank-0 constant. -/
def exampleScalarLowered : List Op :=
  [Op.alloc 1 { shape := [], elementType := ElementType.f64 },
   Op.constant 2 (Attribute.index 0),
   Op.constant 3 (Attribute.float { bits := 0x3FF0000000000000 } ElementType.f64),
   Op.affineStore 3 1 [],
   Op.dealloc 1,
   Op.other 0 []]

/-! ## The index stack of `storeElements` -/

/-- The function `storeElements` with one more check at every entry: the call for
`dimension` fails unless the index stack holds exactly `dimension` entries.
Everything else is as in `storeElements`, where a lookup `constantIndices[i]`
out of range and a read of the element iterator past the last element fail
already. -/
def storeElementsChecked (valueShape : List Int) (constantValue : DenseElementsAttr)
    (constantIndices : List Value) (alloc : Value) :
    Nat → Nat → StoreState → Option StoreState
  | 0, dimension, s =>
      if s.indices.length ≠ dimension then none
      else if dimension = valueShape.length then storeElement constantValue alloc s
      else none
  | fuel + 1, dimension, s =>
      if s.indices.length ≠ dimension then none
      else if dimension = valueShape.length then storeElement constantValue alloc s
      else
        match valueShape[dimension]? with
        | none => none
        | some extent =>
            forLoop
              (fun i s =>
                match constantIndices[i]? with
                | none => none
                | some index =>
                    (storeElementsChecked valueShape constantValue constantIndices alloc fuel
                        (dimension + 1) { s with indices := s.indices ++ [index] }).map
                      (fun s => { s with indices := s.indices.dropLast }))
              (toUInt64 extent) 0 s

/-! ## Successive buffers -/

/-- The call `rewriter.setInsertionPoint(op)` for the operation at position `position`
of the block. -/
def PatternRewriter.setInsertionPoint (rewriter : PatternRewriter) (position : Nat) :
    PatternRewriter :=
  { rewriter with
      before := rewriter.block.take position,
      after := rewriter.block.drop position }

/-- Successive calls of `insertAllocAndDealloc`, one for each entry of the list: the
buffer type and the position, among the original operations of the block,
of the operation the insertion point is set before.  The allocations made so
far (`introduced` many) stand in front of the original operations.  Returns
the buffers with their types, in the order of introduction. -/
def introduceBuffers :
    List (MemRefType × Nat) → Nat → PatternRewriter → List (Value × MemRefType) × PatternRewriter
  | [], _, rewriter => ([], rewriter)
  | (type, position) :: rest, introduced, rewriter =>
      let (alloc, rewriter) :=
        insertAllocAndDealloc type (rewriter.setInsertionPoint (introduced + position))
      let (buffers, rewriter) := introduceBuffers rest (introduced + 1) rewriter
      ((alloc, type) :: buffers, rewriter)

/-! ## Element types of the stored values -/

mutual
/-- The stores of an operation, loop bodies included, each as the element type of
the stored value and the element type of the buffer stored into; `known`
holds the element types of the scalar values defined so far and is returned
extended by the result of the operation.  `buffers` gives the types of the
buffers. -/
def Op.storeTypes (buffers : Value → Option MemRefType) :
    Op → List (Value × ElementType) →
      List (Value × ElementType) × List (Option ElementType × Option ElementType)
  | Op.constant res (Attribute.float _ type), known => ((res, type) :: known, [])
  | Op.constant res (Attribute.index _), known => ((res, ElementType.index) :: known, [])
  | Op.affineLoad res memref _, known =>
      (match buffers memref with
       | some type => (res, type.elementType) :: known
       | none => known, [])
  | Op.scalar res op _ operands, known =>
      (match op.resultType (operands.map (fun v => List.lookup v known)) with
       | some type => (res, type) :: known
       | none => known, [])
  | Op.affineStore value memref _, known =>
      (known, [(List.lookup value known, (buffers memref).map (fun type => type.elementType))])
  | Op.affineFor iv _ _ _ body, known =>
      (known, storeTypesOf buffers body ((iv, ElementType.index) :: known))
  | _, known => (known, [])
/-- The stores of a piece of code, loop bodies included, each as the element type of
the stored value and the element type of the buffer stored into. -/
def storeTypesOf (buffers : Value → Option MemRefType) :
    List Op → List (Value × ElementType) → List (Option ElementType × Option ElementType)
  | [], _ => []
  | o :: os, known =>
      (o.storeTypes buffers known).2 ++ storeTypesOf buffers os (o.storeTypes buffers known).1
end

/-- An equality comparison of two tensors of shape (2,3) whose operands are the
buffers 0 and 1. -/
def exampleCmpEq : Operation :=
  { kind := TinyGradKind.cmpEq,
    operands := [0, 1],
    results := [(2, Ty.tensor { shape := some [2, 3], elementType := ElementType.f64 })],
    value := { type := { shape := none, elementType := ElementType.f64 }, values := [] } }

/-- A block holding the comparison and a terminator, the insertion point before the
comparison. -/
def exampleCmpEqRewriter : PatternRewriter :=
  { before := [], after := [Op.tinygrad exampleCmpEq, Op.other 0 []], nextValue := 3,
    replaced := [] }

/-- A positivity test of a tensor of shape (2) whose operand is the buffer 0. -/
def exampleGt0 : Operation :=
  { kind := TinyGradKind.gt0,
    operands := [0],
    results := [(1, Ty.tensor { shape := some [2], elementType := ElementType.f64 })],
    value := { type := { shape := none, elementType := ElementType.f64 }, values := [] } }

/-- A block holding the positivity test and a terminator. -/
def exampleGt0Rewriter : PatternRewriter :=
  { before := [], after := [Op.tinygrad exampleGt0, Op.other 0 []], nextValue := 2,
    replaced := [] }

/-- The buffer types of the sample blocks: the operand buffers 0 and 1 hold f64
elements, any other buffer has the type its allocation in the block gives
it. -/
def exampleBufferTypes (block : List Op) : Value → Option MemRefType :=
  fun v =>
    if v < 2 then some { shape := [2, 3], elementType := ElementType.f64 }
    else allocatedType block v

/-- The block after lowering the sample comparison. -/
def exampleCmpEqLowered : List Op :=
  [Op.alloc 3 { shape := [2, 3], elementType := ElementType.f64 },
   Op.affineFor 4 0 2 1
     [Op.affineFor 5 0 3 1
        [Op.affineLoad 6 0 [4, 5],
         Op.affineLoad 7 1 [4, 5],
         Op.scalar 8 ScalarOp.cmpf (some CmpFPredicate.OEQ) [6, 7],
         Op.affineStore 8 3 [4, 5],
         Op.affineYield],
      Op.affineYield],
   Op.dealloc 3,
   Op.other 0 []]

/-- The block after lowering the sample positivity test. -/
def exampleGt0Lowered : List Op :=
  [Op.alloc 2 { shape := [2], elementType := ElementType.f64 },
   Op.affineFor 3 0 2 1
     [Op.affineLoad 4 0 [3],
      Op.constant 5 (Attribute.float apzero ElementType.f64),
      Op.scalar 6 ScalarOp.cmpf (some CmpFPredicate.OGT) [4, 5],
      Op.affineStore 6 2 [3],
      Op.affineYield],
   Op.dealloc 2,
   Op.other 0 []]

/-- An operand buffer of shape (2) with f64 elements: the element at a tuple is its
coordinate minus 1. -/
def exampleVector : Buffer Int :=
  { shape := [2], elementType := ElementType.f64, data := fun u => u.sum - 1 }

/-- A machine holding the operand buffer of shape (2) as value 0. -/
def exampleVectorMachine : Machine Int :=
  { env := fun _ => none,
    mem := fun w => if w = 0 then some exampleVector else none,
    trace := [] }

/-! ## What a pattern leaves behind -/

/-- Whether an operation belongs to one of the four dialects the patterns build
their code from: memref, arith, math and affine. -/
def Op.isLowered (o : Op) : Bool :=
  match o.dialect with
  | Dialect.memref => true
  | Dialect.arith => true
  | Dialect.math => true
  | Dialect.affine => true
  | _ => false

/-- The builder state `b'` is the state `b` with code appended at the insertion
point; the code holds, at any depth, only operations of the memref, arith,
math and affine dialects. -/
def Grows (b b' : PatternRewriter) : Prop :=
  ∃ code,
    b'.before = b.before ++ code ∧
    b'.after = b.after ∧
    b'.replaced = b.replaced ∧
    b.nextValue ≤ b'.nextValue ∧
    countOps (fun o => !o.isLowered) code = 0

/-- The state `rewritten` is the state `rewriter` after the operation `op` at the
insertion point has been replaced by a buffer: the allocation stands at the
front of the block and the deallocation where `insertAllocAndDealloc` puts it,
`code` stands where the operation stood, the operation is gone and its
results are mapped to the buffer.  The code holds, at any depth, only
operations of the memref, arith, math and affine dialects. -/
def FullReplacement (op : Operation) (rewriter rewritten : PatternRewriter) : Prop :=
  ∃ type code,
    rewritten.before =
      Op.alloc rewriter.nextValue type :: rewriter.before ++
        (deallocAtPoint (Op.dealloc rewriter.nextValue) rewriter.after ++ code) ∧
    rewritten.after = (deallocBeforeBack (Op.dealloc rewriter.nextValue) rewriter.after).tail ∧
    rewritten.replaced =
      rewriter.replaced ++ op.results.map (fun r => (r.1, rewriter.nextValue)) ∧
    rewriter.nextValue < rewritten.nextValue ∧
    countOps (fun o => !o.isLowered) code = 0

/-- The blocks of the data model are straight-line: no operation of the tensor
dialect stands inside another operation of the block (in a loop body). -/
def StraightLine (block : List Op) : Prop :=
  ∀ o ∈ block, o.isTinygrad = false → o.count Op.isTinygrad = 0

/-- A body holding a rank-0 constant, the print of its result and a terminator. -/
def exampleBody : PatternRewriter :=
  { before := [],
    after := [Op.tinygrad exampleScalarA, Op.tinygrad examplePrint, Op.other 0 []],
    nextValue := 1,
    replaced := [] }

/-- The body after the lowering pass: the constant is replaced by the buffer 1 and
the print takes the buffer. -/
def exampleBodyLowered : PatternRewriter :=
  { before := [Op.alloc 1 { shape := [], elementType := ElementType.f64 },
               Op.constant 2 (Attribute.index 0),
               Op.constant 3 (Attribute.float { bits := 0x3FF0000000000000 } ElementType.f64),
               Op.affineStore 3 1 []],
    after := [Op.tinygrad { examplePrint with operands := [1] }, Op.dealloc 1, Op.other 0 []],
    nextValue := 4,
    replaced := [(0, 1)] }

/-! ## Bodies the pass converts -/

/-- The arity and shape preconditions of the pattern for an operation.  A constant
has a ranked type with extents from 0 up to the largest `int64_t` and as many
elements as the product of the extents; an elementwise operation has a ranked
result type and at least two operands (binary kinds) or one (unary kinds);
the print pattern asks for nothing. -/
def Operation.preconditions (op : Operation) : Bool :=
  match op.kind with
  | TinyGradKind.print => true
  | TinyGradKind.constant =>
      match op.tensorType with
      | some { shape := some shape, elementType := _ } =>
          shape.all (fun d => decide (0 ≤ d ∧ d < 2 ^ 63)) &&
            decide (op.value.values.length = (shape.map Int.toNat).prod)
      | _ => false
  | kind =>
      match op.tensorType with
      | some { shape := some _, elementType := _ } =>
          decide ((if (binaryLowering kind).isSome then 2 else 1) ≤ op.operands.length)
      | _ => false

/-- Whether the operations of the tensor dialect in a piece of a body can all be
converted, given the values `converted` that operations in front of the
piece have defined and that have been replaced by buffers: every operation
meets the preconditions of its pattern, and each of its operands is one of
the converted values or is not of tensor type.  The results of every
operation other than a print are converted values for the operations behind
it. -/
def convertible (types : Value → Ty) : List Value → List Op → Bool
  | _, [] => true
  | converted, Op.tinygrad op :: rest =>
      op.preconditions &&
      op.operands.all (fun v => decide (v ∈ converted) || !(types v).isTensor) &&
      convertible types
        (if op.kind = TinyGradKind.print then converted
         else converted ++ op.results.map Prod.fst) rest
  | converted, _ :: rest => convertible types converted rest

/-- A body holding only the print of a tensor that no operation of the body defines,
and a terminator. -/
def examplePrintOnly : PatternRewriter :=
  { before := [], after := [Op.tinygrad examplePrint, Op.other 0 []], nextValue := 1,
    replaced := [] }

/-! ## Row-major enumeration -/

theorem rowMajor_cons (d : Nat) (ds : List Nat) :
    rowMajor (d :: ds) = (List.range' 0 d).flatMap (fun i => (rowMajor ds).map (fun t => i :: t)) := by
  simp [rowMajor, List.range_eq_range']

theorem length_flatMap_range' (f : Nat → List (List Nat)) (p : Nat) (hf : ∀ i, (f i).length = p) :
    ∀ n a, ((List.range' a n).flatMap f).length = n * p := by
  intro n
  induction n with
  | zero => intro a; simp
  | succ n ih =>
    intro a
    rw [List.range'_succ, List.flatMap_cons, List.length_append, ih, hf]
    ring

theorem length_rowMajor : ∀ dims : List Nat, (rowMajor dims).length = dims.prod
  | [] => rfl
  | d :: ds => by
    rw [rowMajor_cons, length_flatMap_range' _ (rowMajor ds).length (by intro i; simp), length_rowMajor ds,
      List.prod_cons]

theorem mem_rowMajor : ∀ (dims t : List Nat), t ∈ rowMajor dims ↔ InBox t dims
  | [], t => by
    simp [rowMajor, InBox]
  | d :: ds, t => by
    simp only [rowMajor, List.mem_flatMap, List.mem_range, List.mem_map, InBox]
    constructor
    · rintro ⟨i, hi, u, hu, rfl⟩
      exact List.Forall₂.cons hi ((mem_rowMajor ds u).1 hu)
    · intro h
      cases h with
      | cons hi hu => exact ⟨_, hi, _, (mem_rowMajor ds _).2 hu, rfl⟩

theorem nodup_rowMajor : ∀ dims : List Nat, (rowMajor dims).Nodup
  | [] => by simp [rowMajor]
  | d :: ds => by
    simp only [rowMajor]
    rw [List.nodup_flatMap]
    refine ⟨fun i _ => (nodup_rowMajor ds).map (fun a b h => by simpa using h), ?_⟩
    refine (List.nodup_range d).pairwise_of_forall_ne ?_
    intro i _ j _ hij
    simp only [Function.onFun]
    rw [List.disjoint_left]
    intro t hi hj
    simp only [List.mem_map] at hi hj
    obtain ⟨u, _, rfl⟩ := hi
    obtain ⟨w, _, hw⟩ := hj
    exact hij (by simpa using (List.cons.inj hw).1.symm)

theorem getElem?_flatMap_range' (f : Nat → List (List Nat)) (p : Nat) (hf : ∀ i, (f i).length = p) :
    ∀ n a i q, i < n → q < p → ((List.range' a n).flatMap f)[i * p + q]? = (f (a + i))[q]? := by
  intro n
  induction n with
  | zero => intro a i q hi; omega
  | succ n ih =>
    intro a i q hi hq
    rw [List.range'_succ, List.flatMap_cons]
    cases i with
    | zero =>
      simp only [Nat.zero_mul, Nat.zero_add, Nat.add_zero]
      rw [List.getElem?_append_left (by rw [hf]; exact hq)]
    | succ i =>
      rw [List.getElem?_append_right (by rw [hf]; nlinarith)]
      rw [hf]
      have : (i + 1) * p + q - p = i * p + q := by
        rw [Nat.succ_mul]; omega
      rw [this, ih (a + 1) i q (by omega) hq]
      congr 2
      omega

theorem flatPosition_lt : ∀ (dims t : List Nat), InBox t dims → flatPosition dims t < dims.prod
  | [], t, h => by cases h; simp [flatPosition]
  | d :: ds, t, h => by
    cases h with
    | cons hi hu =>
      rename_i i u
      have := flatPosition_lt ds u hu
      simp only [flatPosition, List.prod_cons]
      calc i * ds.prod + flatPosition ds u < i * ds.prod + ds.prod := by omega
        _ = (i + 1) * ds.prod := by ring
        _ ≤ d * ds.prod := Nat.mul_le_mul_right _ hi

theorem getElem?_rowMajor : ∀ (dims t : List Nat), InBox t dims →
    (rowMajor dims)[flatPosition dims t]? = some t
  | [], t, h => by cases h; simp [rowMajor, flatPosition]
  | d :: ds, t, h => by
    cases h with
    | cons hi hu =>
      rename_i i u
      rw [rowMajor_cons, flatPosition, ← length_rowMajor ds,
        getElem?_flatMap_range' _ (rowMajor ds).length (by intro i; simp) d 0 i _ hi
          (by rw [length_rowMajor]; exact flatPosition_lt ds u hu)]
      rw [List.getElem?_map, getElem?_rowMajor ds u hu]
      simp

/-! ## The index constants -/

theorem maxElement_cast (d : Nat) (ds : List Nat) :
    maxElement (d : Int) (ds.map Int.ofNat) = ((ds.foldl max d : Nat) : Int) := by
  unfold maxElement
  induction ds generalizing d with
  | nil => rfl
  | cons e es ih =>
    simp only [List.map_cons, List.foldl_cons]
    have : max (d : Int) (Int.ofNat e) = ((max d e : Nat) : Int) := by
      simp [Nat.cast_max]
    rw [this, ih]

theorem le_foldl_max (ds : List Nat) : ∀ d : Nat, d ≤ ds.foldl max d ∧ ∀ e ∈ ds, e ≤ ds.foldl max d := by
  induction ds with
  | nil => intro d; simp
  | cons x xs ih =>
    intro d
    simp only [List.foldl_cons, List.mem_cons]
    obtain ⟨h1, h2⟩ := ih (max d x)
    refine ⟨le_trans (le_max_left d x) h1, ?_⟩
    rintro e (rfl | he)
    · exact le_trans (le_max_right d e) h1
    · exact h2 e he

theorem le_indexCount (dims : List Nat) : ∀ d ∈ dims, d ≤ indexCount dims := by
  cases dims with
  | nil => simp
  | cons x xs =>
    intro d hd
    simp only [indexCount]
    rcases List.mem_cons.1 hd with rfl | h
    · exact (le_foldl_max xs d).1
    · exact (le_foldl_max xs x).2 d h

theorem emitIndices_succ (first count : Nat) :
    emitIndices first (count + 1) =
      emitIndices first count ++ [Op.constant (first + count) (Attribute.index count)] := by
  simp [emitIndices, List.range_succ]

theorem forLoop_constantIndices (rewriter : PatternRewriter)
    (body : Nat → List Value × PatternRewriter → Option (List Value × PatternRewriter))
    (hbody : ∀ i acc, body i acc = some (acc.1 ++ [acc.2.nextValue],
      { before := acc.2.before ++ [Op.constant acc.2.nextValue (Attribute.index i)],
        after := acc.2.after, nextValue := acc.2.nextValue + 1, replaced := acc.2.replaced })) :
    ∀ (count i : Nat) (cs : List Value) (ops : List Op),
      forLoop body count i
          (cs, { rewriter with
                   before := rewriter.before ++ ops, nextValue := rewriter.nextValue + i }) =
      some (cs ++ (List.range' i count).map (fun j => rewriter.nextValue + j),
        { rewriter with
            before := rewriter.before ++ ops ++
              (List.range' i count).map (fun j => Op.constant (rewriter.nextValue + j) (Attribute.index j)),
            nextValue := rewriter.nextValue + (i + count) }) := by
  intro count
  induction count with
  | zero => intro i cs ops; simp [forLoop]
  | succ n ih =>
    intro i cs ops
    simp only [forLoop, hbody, Option.some_bind]
    have := ih (i + 1) (cs ++ [rewriter.nextValue + i])
      (ops ++ [Op.constant (rewriter.nextValue + i) (Attribute.index i)])
    simp only [← List.append_assoc, Nat.add_assoc] at this ⊢
    rw [this]
    simp [List.range'_succ, Nat.add_assoc, Nat.add_comm 1 n]

theorem constantIndices_eq (dims : List Nat) (rewriter : PatternRewriter) :
    constantIndices (dims.map Int.ofNat) rewriter =
      some ((List.range (indexCount dims)).map (fun j => rewriter.nextValue + j),
        { rewriter with
            before := rewriter.before ++ emitIndices rewriter.nextValue (indexCount dims),
            nextValue := rewriter.nextValue + indexCount dims }) := by
  cases dims with
  | nil => simp [constantIndices, indexCount, emitIndices, PatternRewriter.create, List.range_succ]
  | cons d ds =>
    simp only [constantIndices, List.map_cons, indexCount, emitIndices]
    have hd : Int.ofNat d = (d : Int) := rfl
    rw [hd, maxElement_cast]
    rw [if_neg (by omega)]
    have := forLoop_constantIndices rewriter _ (fun i acc => rfl) (List.foldl max d ds) 0 [] []
    simp only [List.append_nil, Nat.add_zero, List.nil_append, Nat.zero_add] at this
    simp only [Int.toNat_ofNat]
    rw [← List.range_eq_range'] at this
    exact this

/-! ## The recursion of `storeElements` -/

theorem toUInt64_cast (d : Nat) (h : d < 2 ^ 63) : toUInt64 (Int.ofNat d) = d := by
  unfold toUInt64
  have h1 : (Int.ofNat d) % 2 ^ 64 = (d : Int) := by
    apply Int.emod_eq_of_lt
    · exact Int.ofNat_nonneg d
    · have : (d : Int) < 2 ^ 63 := by exact_mod_cast h
      exact lt_trans this (by norm_num)
  rw [h1]; rfl

theorem emitStores_append (elementType : ElementType) (alloc : Value) (indexOf : Nat → Value)
    (base : List Value) (ts2 : List (List Nat)) :
    ∀ (ts1 : List (List Nat)) (vs : List APFloat) (c : Value), ts1.length ≤ vs.length →
      emitStores elementType alloc indexOf base vs (ts1 ++ ts2) c =
        emitStores elementType alloc indexOf base vs ts1 c ++
          emitStores elementType alloc indexOf base (vs.drop ts1.length) ts2 (c + ts1.length) := by
  intro ts1
  induction ts1 with
  | nil => intro vs c _; simp [emitStores]
  | cons t ts ih =>
    intro vs c h
    cases vs with
    | nil => simp at h
    | cons v vs =>
      simp only [List.cons_append, emitStores, List.length_cons, List.drop_succ_cons, List.append_eq]
      rw [ih vs (c + 1) (by simpa using h)]
      simp [Nat.add_assoc, Nat.add_comm 1]

theorem emitStores_map_cons (elementType : ElementType) (alloc : Value) (indexOf : Nat → Value)
    (base : List Value) (i : Nat) :
    ∀ (ts : List (List Nat)) (vs : List APFloat) (c : Value),
      emitStores elementType alloc indexOf base vs (ts.map (fun t => i :: t)) c =
        emitStores elementType alloc indexOf (base ++ [indexOf i]) vs ts c := by
  intro ts
  induction ts with
  | nil => intro vs c; cases vs <;> simp [emitStores]
  | cons t ts ih =>
    intro vs c
    cases vs with
    | nil => simp [emitStores]
    | cons v vs => simp [emitStores, ih]

theorem StoreState.advance_advance (s : StoreState) (e1 e2 : List Op) (n1 n2 : Nat) :
    (s.advance e1 n1).advance e2 n2 = s.advance (e1 ++ e2) (n1 + n2) := by
  simp [StoreState.advance, Nat.add_assoc]

theorem forLoop_storeElements (elementType : ElementType) (alloc : Value) (indexOf : Nat → Value)
    (values : List APFloat) (tuples : List (List Nat)) (d : Nat)
    (body : Nat → StoreState → Option StoreState)
    (hbody : ∀ i s, i < d → s.valueIt + tuples.length ≤ values.length →
      body i s = some (s.advance
        (emitStores elementType alloc indexOf (s.indices ++ [indexOf i]) (values.drop s.valueIt)
          tuples s.rewriter.nextValue) tuples.length)) :
    ∀ (n i : Nat) (s : StoreState), i + n ≤ d → s.valueIt + n * tuples.length ≤ values.length →
      forLoop body n i s = some (s.advance
        (emitStores elementType alloc indexOf s.indices (values.drop s.valueIt)
          ((List.range' i n).flatMap (fun i => tuples.map (fun t => i :: t)))
          s.rewriter.nextValue) (n * tuples.length)) := by
  intro n
  induction n with
  | zero =>
    intro i s _ _
    cases s
    simp [forLoop, emitStores, StoreState.advance]
  | succ n ih =>
    intro i s hi hv
    have hv1 : s.valueIt + tuples.length ≤ values.length := by
      have : (n + 1) * tuples.length = n * tuples.length + tuples.length := Nat.succ_mul _ _
      omega
    rw [forLoop, hbody i s (by omega) hv1, Option.some_bind]
    have hv2 : (s.advance
        (emitStores elementType alloc indexOf (s.indices ++ [indexOf i]) (values.drop s.valueIt)
          tuples s.rewriter.nextValue) tuples.length).valueIt + n * tuples.length ≤ values.length := by
      have : (n + 1) * tuples.length = n * tuples.length + tuples.length := Nat.succ_mul _ _
      simp only [StoreState.advance]
      omega
    rw [ih (i + 1) _ (by omega) hv2, StoreState.advance_advance]
    rw [List.range'_succ, List.flatMap_cons,
      emitStores_append _ _ _ _ _ _ _ _ (by simp; omega), emitStores_map_cons]
    simp only [StoreState.advance, List.length_map, List.drop_drop]
    have : (n + 1) * tuples.length = tuples.length + n * tuples.length := by
      rw [Nat.succ_mul]; omega
    rw [this]

theorem storeElements_eq (dims : List Nat) (hdims : ∀ d ∈ dims, d < 2 ^ 63)
    (constantValue : DenseElementsAttr) (cs : List Value) (alloc : Value) (indexOf : Nat → Value)
    (hcs : ∀ d ∈ dims, ∀ i < d, cs[i]? = some (indexOf i)) :
    ∀ (m fuel k : Nat) (s : StoreState), k + m = dims.length → m ≤ fuel →
      s.valueIt + (dims.drop k).prod ≤ constantValue.values.length →
      storeElements (dims.map Int.ofNat) constantValue cs alloc fuel k s =
        some (s.advance
          (emitStores constantValue.type.elementType alloc indexOf s.indices
            (constantValue.values.drop s.valueIt) (rowMajor (dims.drop k)) s.rewriter.nextValue)
          (dims.drop k).prod) := by
  intro m
  induction m with
  | zero =>
    intro fuel k s hk _ hv
    have hk' : k = dims.length := by omega
    subst hk'
    have hbase : storeElements (dims.map Int.ofNat) constantValue cs alloc fuel dims.length s =
        storeElement constantValue alloc s := by
      cases fuel <;> simp [storeElements]
    rw [hbase, storeElement]
    simp only [List.drop_length, List.prod_nil] at hv ⊢
    have hlt : s.valueIt < constantValue.values.length := by omega
    rw [List.getElem?_eq_getElem hlt]
    simp only [rowMajor, PatternRewriter.create, PatternRewriter.insert, StoreState.advance]
    rw [List.drop_eq_getElem_cons hlt]
    simp [emitStores]
  | succ m ih =>
    intro fuel k s hk hfuel hv
    have hklt : k < dims.length := by omega
    obtain ⟨fuel, rfl⟩ : ∃ f, fuel = f + 1 := ⟨fuel - 1, by omega⟩
    rw [storeElements]
    simp only [List.length_map]
    rw [if_neg (by omega)]
    simp only [List.getElem?_map, List.getElem?_eq_getElem hklt, Option.map_some']
    have hdrop : dims.drop k = dims[k] :: dims.drop (k + 1) := List.drop_eq_getElem_cons hklt
    have hmem : dims[k] ∈ dims := List.getElem_mem _
    rw [toUInt64_cast _ (hdims _ hmem)]
    rw [hdrop] at hv ⊢
    rw [List.prod_cons] at hv ⊢
    rw [rowMajor_cons, ← length_rowMajor (dims.drop (k + 1))] at *
    refine forLoop_storeElements constantValue.type.elementType alloc indexOf constantValue.values
      (rowMajor (dims.drop (k + 1))) dims[k] _ ?_ dims[k] 0 s (by omega) hv
    intro i s' hi hv'
    simp only [hcs _ hmem i hi]
    rw [ih fuel (k + 1) _ (by omega) (by omega) (by rw [← length_rowMajor]; exact hv')]
    simp only [Option.map_some', StoreState.advance, List.dropLast_concat, ← length_rowMajor]

/-! ## Reading constants and stores out of the emitted code -/

theorem definingConstant_append (l1 l2 : List Op) (v : Nat) :
    definingConstant (l1 ++ l2) v = (definingConstant l1 v).or (definingConstant l2 v) := by
  simp [definingConstant, List.findSome?_append]

theorem definingConstant_emitIndices (first : Nat) (v : Nat) :
    ∀ count : Nat, definingConstant (emitIndices first count) v =
      if first ≤ v ∧ v < first + count then some (Attribute.index (Int.ofNat (v - first))) else none := by
  intro count
  induction count with
  | zero => rw [if_neg (by omega)]; rfl
  | succ n ih =>
    rw [emitIndices_succ, definingConstant_append, ih]
    by_cases h : first ≤ v ∧ v < first + n
    · rw [if_pos h, if_pos ⟨h.1, by omega⟩]; rfl
    · rw [if_neg h]
      by_cases h2 : first + n = v
      · subst h2
        simp [definingConstant]
      · rw [if_neg (by omega)]
        simp [definingConstant, h2]

theorem definingConstant_emitStores_lt (elementType : ElementType) (alloc : Nat)
    (indexOf : Nat → Nat) (base : List Value) (v : Nat) :
    ∀ (ts : List (List Nat)) (vs : List APFloat) (c : Nat), v < c →
      definingConstant (emitStores elementType alloc indexOf base vs ts c) v = none := by
  intro ts
  induction ts with
  | nil => intro vs c _; cases vs <;> simp [emitStores, definingConstant]
  | cons t ts ih =>
    intro vs c h
    cases vs with
    | nil => simp [emitStores, definingConstant]
    | cons x vs =>
      have := ih vs (c + 1) (by omega)
      simp only [definingConstant, emitStores, List.findSome?_cons] at this ⊢
      rw [if_neg (show ¬ c = v by omega)]
      exact this

theorem definingConstant_emitStores (elementType : ElementType) (alloc : Nat)
    (indexOf : Nat → Nat) (base : List Value) :
    ∀ (ts : List (List Nat)) (vs : List APFloat) (c : Nat) (j : Nat) (x : APFloat),
      vs[j]? = some x → j < ts.length →
      definingConstant (emitStores elementType alloc indexOf base vs ts c) (c + j) =
        some (Attribute.float x elementType) := by
  intro ts
  induction ts with
  | nil => intro vs c j x _ h; simp at h
  | cons t ts ih =>
    intro vs c j x hx hj
    cases vs with
    | nil => simp at hx
    | cons y vs =>
      cases j with
      | zero =>
        simp only [List.getElem?_cons_zero, Option.some.injEq] at hx
        subst hx
        simp [definingConstant, emitStores]
      | succ j =>
        have := ih vs (c + 1) j x (by simpa using hx) (by simpa using hj)
        simp only [definingConstant, emitStores, List.findSome?_cons] at this ⊢
        rw [if_neg (show ¬ c = c + (j + 1) by omega)]
        rw [show c + (j + 1) = c + 1 + j by omega]
        exact this

theorem scalarStoresIn_append (ctx : List Op) (memref : Nat) (l1 l2 : List Op) :
    scalarStoresIn ctx memref (l1 ++ l2) = scalarStoresIn ctx memref l1 ++ scalarStoresIn ctx memref l2 := by
  simp [scalarStoresIn, List.filterMap_append]

theorem scalarStoresIn_emitIndices (ctx : List Op) (memref : Nat) (first count : Nat) :
    scalarStoresIn ctx memref (emitIndices first count) = [] := by
  simp [scalarStoresIn, emitIndices, List.filterMap_eq_nil_iff]

theorem scalarStoresIn_emitStores (ctx : List Op) (elementType : ElementType) (alloc : Nat)
    (indexOf : Nat → Nat) :
    ∀ (ts : List (List Nat)) (vs : List APFloat) (c : Nat),
      (∀ j x, vs[j]? = some x → j < ts.length →
        definingConstant ctx (c + j) = some (Attribute.float x elementType)) →
      (∀ t ∈ ts, ∀ i ∈ t, definingConstant ctx (indexOf i) = some (Attribute.index (Int.ofNat i))) →
      scalarStoresIn ctx alloc (emitStores elementType alloc indexOf [] vs ts c) =
        (List.zip vs ts).map (fun p => storeOf elementType p.1 p.2) := by
  intro ts
  induction ts with
  | nil => intro vs c _ _; cases vs <;> simp [emitStores, scalarStoresIn]
  | cons t ts ih =>
    intro vs c hc hi
    cases vs with
    | nil => simp [emitStores, scalarStoresIn]
    | cons x vs =>
      have htail := ih vs (c + 1)
        (fun j y hy hj => by
          have := hc (j + 1) y (by simpa using hy) (by simpa using hj)
          rwa [show c + (j + 1) = c + 1 + j by omega] at this)
        (fun u hu i hiu => hi u (List.mem_cons_of_mem _ hu) i hiu)
      have hhead := hc 0 x (by simp) (by simp)
      simp only [Nat.add_zero] at hhead
      simp only [scalarStoresIn, emitStores, List.filterMap_cons, List.zip_cons_cons, List.map_cons,
        if_true, List.nil_append] at htail ⊢
      rw [htail, hhead]
      simp only [storeOf, List.map_map, List.cons.injEq, Prod.mk.injEq, true_and, and_true]
      apply List.map_congr_left
      intro i hit
      exact hi t (List.mem_cons_self _ _) i hit

/-! ## Buffer lifetime and the constant pattern -/

theorem insertAllocAndDealloc_fst (type : MemRefType) (rewriter : PatternRewriter) :
    (insertAllocAndDealloc type rewriter).1 = rewriter.nextValue := rfl

theorem moveCreatedBeforeFront_concat (before after : List Op) (n : Nat) (r : List (Value × Value))
    (x : Op) :
    PatternRewriter.moveCreatedBeforeFront
        { before := before ++ [x], after := after, nextValue := n, replaced := r } =
      { before := x :: before, after := after, nextValue := n, replaced := r } := by
  simp [PatternRewriter.moveCreatedBeforeFront]

theorem moveCreatedBeforeBack_inner (before mid : List Op) (n : Nat) (r : List (Value × Value))
    (x a last : Op) :
    PatternRewriter.moveCreatedBeforeBack
        { before := before ++ [x], after := a :: mid ++ [last], nextValue := n, replaced := r } =
      { before := before, after := a :: mid ++ [x, last], nextValue := n, replaced := r } := by
  unfold PatternRewriter.moveCreatedBeforeBack
  simp only [List.getLast?_concat, List.dropLast_concat]
  cases mid with
  | nil => simp
  | cons b rest =>
    simp [List.dropLast_append_of_ne_nil, List.dropLast_cons_of_ne_nil]

theorem moveCreatedBeforeBack_short (before after : List Op) (n : Nat) (r : List (Value × Value))
    (x : Op) (hafter : after.length ≤ 1) :
    PatternRewriter.moveCreatedBeforeBack
        { before := before ++ [x], after := after, nextValue := n, replaced := r } =
      { before := before ++ [x], after := after, nextValue := n, replaced := r } := by
  unfold PatternRewriter.moveCreatedBeforeBack
  simp only [List.getLast?_concat]
  match after, hafter with
  | [], _ => rfl
  | [_], _ => rfl

/-- The split of `insertAllocAndDealloc` when at least two operations follow the
insertion point. -/
theorem insertAllocAndDealloc_inner (type : MemRefType) (rewriter : PatternRewriter)
    (mid : List Op) (a last : Op) (hafter : rewriter.after = a :: mid ++ [last]) :
    insertAllocAndDealloc type rewriter =
      (rewriter.nextValue,
       { before := Op.alloc rewriter.nextValue type :: rewriter.before,
         after := a :: mid ++ [Op.dealloc rewriter.nextValue, last],
         nextValue := rewriter.nextValue + 1,
         replaced := rewriter.replaced }) := by
  unfold insertAllocAndDealloc PatternRewriter.create PatternRewriter.insert
  simp only [moveCreatedBeforeFront_concat, hafter]
  rw [moveCreatedBeforeBack_inner]

theorem insertAllocAndDealloc_short (type : MemRefType) (rewriter : PatternRewriter)
    (hafter : rewriter.after.length ≤ 1) :
    insertAllocAndDealloc type rewriter =
      (rewriter.nextValue,
       { before := Op.alloc rewriter.nextValue type :: rewriter.before ++ [Op.dealloc rewriter.nextValue],
         after := rewriter.after,
         nextValue := rewriter.nextValue + 1,
         replaced := rewriter.replaced }) := by
  unfold insertAllocAndDealloc PatternRewriter.create PatternRewriter.insert
  simp only [moveCreatedBeforeFront_concat]
  rw [moveCreatedBeforeBack_short _ _ _ _ _ hafter]

theorem exists_cons_concat (l : List Op) (h : 2 ≤ l.length) :
    ∃ a mid last, l = a :: mid ++ [last] := by
  match l, h with
  | a :: b :: rest, _ =>
    refine ⟨a, (b :: rest).dropLast, (b :: rest).getLast (by simp), ?_⟩
    rw [List.cons_append, List.dropLast_append_getLast]

/-- The general shape of the state after `insertAllocAndDealloc`. -/
theorem insertAllocAndDealloc_shape (type : MemRefType) (rewriter : PatternRewriter) :
    ∃ pre post, (pre = [] ∨ pre = [Op.dealloc rewriter.nextValue]) ∧
      insertAllocAndDealloc type rewriter =
        (rewriter.nextValue,
         { before := Op.alloc rewriter.nextValue type :: rewriter.before ++ pre,
           after := post,
           nextValue := rewriter.nextValue + 1,
           replaced := rewriter.replaced }) := by
  by_cases h : rewriter.after.length ≤ 1
  · exact ⟨_, _, Or.inr rfl, insertAllocAndDealloc_short type rewriter h⟩
  · obtain ⟨a, mid, last, hl⟩ := exists_cons_concat rewriter.after (by omega)
    refine ⟨[], a :: mid ++ [Op.dealloc rewriter.nextValue, last], Or.inl rfl, ?_⟩
    rw [insertAllocAndDealloc_inner type rewriter mid a last hl]
    simp

theorem ConstantOpLowering_matchAndRewrite_eq (op : Operation) (rewriter : PatternRewriter)
    (dims : List Nat) (elementType : ElementType)
    (htype : op.tensorType = some { shape := some (dims.map Int.ofNat), elementType := elementType })
    (hdims : ∀ d ∈ dims, d < 2 ^ 63)
    (hvalues : op.value.values.length = dims.prod) :
    ∃ pre post, (pre = [] ∨ pre = [Op.dealloc rewriter.nextValue]) ∧
      ConstantOpLowering.matchAndRewrite op rewriter =
        some { before := Op.alloc rewriter.nextValue ⟨dims.map Int.ofNat, elementType⟩ ::
                 rewriter.before ++
                   (pre ++ constantCode op.value.type.elementType op.value.values dims rewriter.nextValue),
               after := post,
               nextValue := rewriter.nextValue + 1 + indexCount dims + dims.prod,
               replaced := rewriter.replaced ++ op.results.map (fun r => (r.1, rewriter.nextValue)) } := by
  obtain ⟨pre, post, hpre, hins⟩ :=
    insertAllocAndDealloc_shape ⟨dims.map Int.ofNat, elementType⟩ rewriter
  refine ⟨pre, post.tail, hpre, ?_⟩
  unfold ConstantOpLowering.matchAndRewrite
  rw [htype]
  simp only [convertTensorToMemRef]
  rw [hins]
  simp only [constantIndices_eq]
  have hcs : ∀ d ∈ dims, ∀ i < d,
      ((List.range (indexCount dims)).map (fun j => rewriter.nextValue + 1 + j))[i]? =
        some ((fun i => rewriter.nextValue + 1 + i) i) := by
    intro d hd i hi
    have := le_indexCount dims d hd
    rw [List.getElem?_map, List.getElem?_range (by omega)]
    rfl
  have hstore := storeElements_eq dims hdims op.value _ rewriter.nextValue
    (fun i => rewriter.nextValue + 1 + i) hcs dims.length dims.length 0
    { rewriter := { before := Op.alloc rewriter.nextValue ⟨dims.map Int.ofNat, elementType⟩ ::
                      rewriter.before ++ pre ++ emitIndices (rewriter.nextValue + 1) (indexCount dims),
                    after := post,
                    nextValue := rewriter.nextValue + 1 + indexCount dims,
                    replaced := rewriter.replaced },
      indices := [], valueIt := 0 } (by simp) (le_refl _) (by simp [hvalues])
  simp only [List.length_map, List.cons_append, List.append_assoc] at hstore ⊢
  rw [hstore]
  simp [StoreState.advance, PatternRewriter.replaceOp, constantCode]


theorem InBox.lt_of_mem {t dims : List Nat} (h : InBox t dims) : ∀ i ∈ t, ∃ d ∈ dims, i < d := by
  induction h with
  | nil => intro i hi; simp at hi
  | cons hid _ ih =>
    intro i hi
    rcases List.mem_cons.1 hi with rfl | hi
    · exact ⟨_, List.mem_cons_self _ _, hid⟩
    · obtain ⟨d, hd, hlt⟩ := ih i hi
      exact ⟨d, List.mem_cons_of_mem _ hd, hlt⟩

theorem definingConstant_pre (pre : List Op) (alloc : Nat)
    (hpre : pre = [] ∨ pre = [Op.dealloc alloc]) (v : Nat) : definingConstant pre v = none := by
  rcases hpre with rfl | rfl <;> rfl

theorem scalarStoresIn_pre (ctx pre : List Op) (alloc : Nat)
    (hpre : pre = [] ∨ pre = [Op.dealloc alloc]) (memref : Nat) :
    scalarStoresIn ctx memref pre = [] := by
  rcases hpre with rfl | rfl <;> rfl

theorem scalarStores_constantCode (elementType : ElementType) (values : List APFloat)
    (dims : List Nat) (alloc : Nat) (pre : List Op)
    (hpre : pre = [] ∨ pre = [Op.dealloc alloc]) :
    scalarStores (pre ++ constantCode elementType values dims alloc) alloc =
      (List.zip values (rowMajor dims)).map (fun p => storeOf elementType p.1 p.2) := by
  unfold scalarStores
  have key : ∀ ctx, ctx = pre ++ constantCode elementType values dims alloc →
      scalarStoresIn ctx alloc (pre ++ constantCode elementType values dims alloc) =
        (List.zip values (rowMajor dims)).map (fun p => storeOf elementType p.1 p.2) := by
    intro ctx hctx
    rw [scalarStoresIn_append, scalarStoresIn_pre ctx pre alloc hpre, constantCode,
      scalarStoresIn_append, scalarStoresIn_emitIndices, List.nil_append, List.nil_append]
    apply scalarStoresIn_emitStores
    · intro j x hx hj
      rw [hctx, definingConstant_append, definingConstant_pre pre alloc hpre, constantCode,
        definingConstant_append, definingConstant_emitIndices,
        if_neg (show ¬ (alloc + 1 ≤ alloc + 1 + indexCount dims + j ∧
          alloc + 1 + indexCount dims + j < alloc + 1 + indexCount dims) by omega)]
      exact definingConstant_emitStores _ _ _ _ _ _ _ _ _ hx hj
    · intro t ht i hi
      obtain ⟨d, hd, hlt⟩ := ((mem_rowMajor dims t).1 ht).lt_of_mem i hi
      have hle := le_indexCount dims d hd
      rw [hctx, definingConstant_append, definingConstant_pre pre alloc hpre, constantCode,
        definingConstant_append, definingConstant_emitIndices,
        if_pos (show alloc + 1 ≤ alloc + 1 + i ∧ alloc + 1 + i < alloc + 1 + indexCount dims by omega)]
      simp
  exact key _ rfl

theorem countP_emitStores (elementType : ElementType) (alloc : Nat) (indexOf : Nat → Nat)
    (base : List Nat) :
    ∀ (ts : List (List Nat)) (vs : List APFloat) (c : Nat),
      (emitStores elementType alloc indexOf base vs ts c).countP Op.isAffineStore =
        min vs.length ts.length := by
  intro ts
  induction ts with
  | nil => intro vs c; cases vs <;> simp [emitStores]
  | cons t ts ih =>
    intro vs c
    cases vs with
    | nil => simp [emitStores]
    | cons v vs =>
      simp [emitStores, Op.isAffineStore, ih, Nat.succ_min_succ]

theorem countP_constantCode (elementType : ElementType) (values : List APFloat)
    (dims : List Nat) (alloc : Nat) (pre : List Op)
    (hpre : pre = [] ∨ pre = [Op.dealloc alloc]) :
    (pre ++ constantCode elementType values dims alloc).countP Op.isAffineStore =
      min values.length dims.prod := by
  have h1 : pre.countP Op.isAffineStore = 0 := by
    rcases hpre with rfl | rfl <;> rfl
  have h2 : (emitIndices (alloc + 1) (indexCount dims)).countP Op.isAffineStore = 0 := by
    simp [emitIndices, List.countP_eq_zero, Op.isAffineStore]
  rw [List.countP_append, constantCode, List.countP_append, h1, h2, countP_emitStores,
    length_rowMajor]
  simp

theorem indexTuple_injective : Function.Injective indexTuple := by
  intro a b h
  unfold indexTuple at h
  refine List.map_injective_iff.2 ?_ h
  intro x y hxy
  simpa using hxy

/-- C1: lowering a dense constant of shape `dims` with `dims.prod` elements succeeds,
and among the code it inserts (behind the allocation that now heads the
block) the scalar stores into the new buffer are, in emission order, the
elements of the flattened sequence paired with the index tuples of the
row-major enumeration: the i-th element goes to the i-th tuple, so the tuple
`t` receives the element at flattened position `flatPosition dims t`. -/
theorem constant_stores_follow_row_major (op : Operation) (rewriter : PatternRewriter)
    (dims : List Nat) (elementType : ElementType)
    (htype : op.tensorType =
      some { shape := some (dims.map Int.ofNat), elementType := elementType })
    (hdims : ∀ d ∈ dims, d < 2 ^ 63)
    (hvalues : op.value.values.length = dims.prod) :
    ∃ rewriter' emitted,
      ConstantOpLowering.matchAndRewrite op rewriter = some rewriter' ∧
      rewriter'.before =
        Op.alloc rewriter.nextValue ⟨dims.map Int.ofNat, elementType⟩ ::
          rewriter.before ++ emitted ∧
      scalarStores emitted rewriter.nextValue =
        (List.zip op.value.values (rowMajor dims)).map
          (fun p => storeOf op.value.type.elementType p.1 p.2) ∧
      ∀ t, InBox t dims →
        ∃ v, op.value.values[flatPosition dims t]? = some v ∧
          (scalarStores emitted rewriter.nextValue)[flatPosition dims t]? =
            some (storeOf op.value.type.elementType v t) := by
  obtain ⟨pre, post, hpre, heq⟩ :=
    ConstantOpLowering_matchAndRewrite_eq op rewriter dims elementType htype hdims hvalues
  have hstores := scalarStores_constantCode op.value.type.elementType op.value.values dims
    rewriter.nextValue pre hpre
  refine ⟨_, _, heq, rfl, hstores, ?_⟩
  intro t ht
  have hlt := flatPosition_lt dims t ht
  have hv : flatPosition dims t < op.value.values.length := by rw [hvalues]; exact hlt
  refine ⟨op.value.values[flatPosition dims t], List.getElem?_eq_getElem hv, ?_⟩
  rw [hstores, List.getElem?_map, List.zip_eq_zipWith, List.getElem?_zipWith,
    List.getElem?_eq_getElem hv, getElem?_rowMajor dims t ht]
  rfl

/-- C2: lowering a constant of shape `dims` emits exactly `dims.prod` scalar stores
(one, at the empty tuple, for rank 0; none when an extent is 0); their index
tuples are pairwise distinct and are exactly the tuples of the box, each
receiving one store. -/
theorem constant_store_count_and_coverage (op : Operation) (rewriter : PatternRewriter)
    (dims : List Nat) (elementType : ElementType)
    (htype : op.tensorType =
      some { shape := some (dims.map Int.ofNat), elementType := elementType })
    (hdims : ∀ d ∈ dims, d < 2 ^ 63)
    (hvalues : op.value.values.length = dims.prod) :
    ∃ rewriter' emitted,
      ConstantOpLowering.matchAndRewrite op rewriter = some rewriter' ∧
      rewriter'.before =
        Op.alloc rewriter.nextValue ⟨dims.map Int.ofNat, elementType⟩ ::
          rewriter.before ++ emitted ∧
      emitted.countP Op.isAffineStore = dims.prod ∧
      (scalarStores emitted rewriter.nextValue).length = dims.prod ∧
      (dims = [] → (scalarStores emitted rewriter.nextValue).map Prod.snd = [[]]) ∧
      (0 ∈ dims → emitted.countP Op.isAffineStore = 0) ∧
      ((scalarStores emitted rewriter.nextValue).map Prod.snd).Nodup ∧
      (∀ u ∈ (scalarStores emitted rewriter.nextValue).map Prod.snd,
        ∃ t, InBox t dims ∧ u = indexTuple t) ∧
      ∀ t, InBox t dims →
        ((scalarStores emitted rewriter.nextValue).map Prod.snd).countP
          (fun u => decide (u = indexTuple t)) = 1 := by
  obtain ⟨pre, post, hpre, heq⟩ :=
    ConstantOpLowering_matchAndRewrite_eq op rewriter dims elementType htype hdims hvalues
  have hstores := scalarStores_constantCode op.value.type.elementType op.value.values dims
    rewriter.nextValue pre hpre
  have hcount := countP_constantCode op.value.type.elementType op.value.values dims
    rewriter.nextValue pre hpre
  rw [hvalues, Nat.min_self] at hcount
  have htuples : (scalarStores (pre ++ constantCode op.value.type.elementType op.value.values
      dims rewriter.nextValue) rewriter.nextValue).map Prod.snd = (rowMajor dims).map indexTuple := by
    rw [hstores, List.map_map]
    have : (Prod.snd ∘ fun p : APFloat × List Nat => storeOf op.value.type.elementType p.1 p.2) =
        indexTuple ∘ Prod.snd := by
      funext p; rfl
    rw [this, ← List.map_map, List.map_snd_zip]
    rw [hvalues, length_rowMajor]
  have hnodup : ((rowMajor dims).map indexTuple).Nodup :=
    (nodup_rowMajor dims).map indexTuple_injective
  refine ⟨_, _, heq, rfl, hcount, ?_, ?_, ?_, ?_, ?_, ?_⟩
  · rw [← List.length_map _ Prod.snd, htuples, List.length_map, length_rowMajor]
  · intro h
    rw [htuples, h]
    rfl
  · intro h
    rw [hcount]
    exact List.prod_eq_zero h
  · rw [htuples]; exact hnodup
  · intro u hu
    rw [htuples, List.mem_map] at hu
    obtain ⟨t, ht, rfl⟩ := hu
    exact ⟨t, (mem_rowMajor dims t).1 ht, rfl⟩
  · intro t ht
    rw [htuples]
    exact List.count_eq_one_of_mem hnodup (List.mem_map_of_mem _ ((mem_rowMajor dims t).2 ht))

/-! ## The code of the elementwise patterns -/

theorem buildLoops_eq (fn : PatternRewriter → List Value → Option PatternRewriter)
    (bodyOps : List Value → Nat → List Op) (c : Nat)
    (hfn : ∀ (b : PatternRewriter) (ivs : List Value), fn b ivs =
      some { before := b.before ++ bodyOps ivs b.nextValue, after := b.after,
             nextValue := b.nextValue + c, replaced := b.replaced }) :
    ∀ (ds : List Int) (d : Int) (ivs : List Value) (builder : PatternRewriter),
      buildLoops fn (List.replicate (ds.length + 1) 0) (d :: ds)
          (List.replicate (ds.length + 1) 1) ivs builder =
        some (Op.affineFor builder.nextValue 0 d 1
                (loopNest bodyOps ds (ivs ++ [builder.nextValue]) (builder.nextValue + 1) ++
                  [Op.affineYield]),
              { builder with nextValue := builder.nextValue + (ds.length + 1) + c }) := by
  intro ds
  induction ds with
  | nil =>
    intro d ivs builder
    simp [buildLoops, hfn, loopNest, PatternRewriter.block, Nat.add_assoc]
  | cons e es ih =>
    intro d ivs builder
    have h := ih e (ivs ++ [builder.nextValue]) { builder with nextValue := builder.nextValue + 1 }
    simp only [List.length_cons, List.replicate_succ] at h ⊢
    rw [buildLoops]
    · rw [if_neg (by decide), h]
      simp only [loopNest, List.singleton_append]
      congr 3
      omega
    · intro _ h2 _
      simp at h2

theorem buildAffineLoopNest_eq (fn : PatternRewriter → List Value → Option PatternRewriter)
    (bodyOps : List Value → Nat → List Op) (c : Nat)
    (hfn : ∀ (b : PatternRewriter) (ivs : List Value), fn b ivs =
      some { before := b.before ++ bodyOps ivs b.nextValue, after := b.after,
             nextValue := b.nextValue + c, replaced := b.replaced })
    (shape : List Int) (builder : PatternRewriter) :
    buildAffineLoopNest builder (List.replicate shape.length 0) shape
        (List.replicate shape.length 1) fn =
      some { before := builder.before ++ loopNest bodyOps shape [] builder.nextValue,
             after := builder.after,
             nextValue := builder.nextValue + shape.length + c,
             replaced := builder.replaced } := by
  unfold buildAffineLoopNest
  rw [if_neg (by simp)]
  cases shape with
  | nil => simp [hfn, loopNest]
  | cons d ds =>
    simp only [List.length_cons, List.replicate_succ]
    have h := buildLoops_eq fn bodyOps c hfn ds d [] builder
    simp only [List.replicate_succ, List.nil_append] at h
    rw [h]
    simp [loopNest]

theorem lowerOpToLoops_eq (op : Operation) (operands : List Value) (rewriter : PatternRewriter)
    (processIteration : LoopIterationFn) (shape : List Int) (elementType : ElementType)
    (body : Value → List Value → Nat → List Op) (c : Nat)
    (htype : op.tensorType = some { shape := some shape, elementType := elementType })
    (hfn : ∀ (alloc : Value) (b : PatternRewriter) (ivs : List Value),
      storeIteration processIteration operands alloc b ivs =
      some { before := b.before ++ body alloc ivs b.nextValue, after := b.after,
             nextValue := b.nextValue + c, replaced := b.replaced }) :
    ∃ pre post, (pre = [] ∨ pre = [Op.dealloc rewriter.nextValue]) ∧
      (2 ≤ rewriter.after.length → pre = []) ∧
      lowerOpToLoops op operands rewriter processIteration =
        some { before := Op.alloc rewriter.nextValue ⟨shape, elementType⟩ :: rewriter.before ++
                 (pre ++ loopNest (body rewriter.nextValue) shape [] (rewriter.nextValue + 1)),
               after := post,
               nextValue := rewriter.nextValue + 1 + shape.length + c,
               replaced := rewriter.replaced ++ op.results.map (fun r => (r.1, rewriter.nextValue)) } := by
  obtain ⟨pre, post, hpre, hpre2, hins⟩ : ∃ pre post, (pre = [] ∨ pre = [Op.dealloc rewriter.nextValue]) ∧
      (2 ≤ rewriter.after.length → pre = []) ∧
      insertAllocAndDealloc ⟨shape, elementType⟩ rewriter =
        (rewriter.nextValue,
         { before := Op.alloc rewriter.nextValue ⟨shape, elementType⟩ :: rewriter.before ++ pre,
           after := post,
           nextValue := rewriter.nextValue + 1,
           replaced := rewriter.replaced }) := by
    by_cases h : rewriter.after.length ≤ 1
    · exact ⟨_, _, Or.inr rfl, fun h2 => absurd h2 (by omega), insertAllocAndDealloc_short _ rewriter h⟩
    · obtain ⟨a, mid, last, hl⟩ := exists_cons_concat rewriter.after (by omega)
      refine ⟨[], a :: mid ++ [Op.dealloc rewriter.nextValue, last], Or.inl rfl, fun _ => rfl, ?_⟩
      rw [insertAllocAndDealloc_inner _ rewriter mid a last hl]
      simp
  refine ⟨pre, post.tail, hpre, hpre2, ?_⟩
  unfold lowerOpToLoops
  rw [htype]
  simp only [convertTensorToMemRef]
  rw [hins]
  simp only []
  rw [buildAffineLoopNest_eq _ (body rewriter.nextValue) c (hfn rewriter.nextValue)]
  simp [PatternRewriter.replaceOp]

theorem binaryIteration_eq (LoweredBinaryOp : ScalarOp) (lhs rhs : Value) (rest : List Value)
    (alloc : Value) (b : PatternRewriter) (ivs : List Value) :
    storeIteration (binaryIteration LoweredBinaryOp) (lhs :: rhs :: rest) alloc b ivs =
    some { before := b.before ++ binaryBody LoweredBinaryOp lhs rhs alloc ivs b.nextValue,
           after := b.after, nextValue := b.nextValue + 3, replaced := b.replaced } := by
  cases LoweredBinaryOp <;>
    simp [storeIteration, binaryIteration, buildLoweredBinaryOp, PatternRewriter.create, PatternRewriter.insert,
      binaryBody]

theorem unaryIteration_eq (LoweredUnaryOp : ScalarOp) (operand : Value) (rest : List Value)
    (alloc : Value) (b : PatternRewriter) (ivs : List Value) :
    storeIteration (unaryIteration LoweredUnaryOp) (operand :: rest) alloc b ivs =
    some { before := b.before ++ unaryBody LoweredUnaryOp operand alloc ivs b.nextValue,
           after := b.after, nextValue := b.nextValue + unaryValues LoweredUnaryOp,
           replaced := b.replaced } := by
  cases LoweredUnaryOp <;>
    simp [storeIteration, unaryIteration, buildLoweredUnaryOp, PatternRewriter.create, PatternRewriter.insert,
      unaryBody, unaryValues]

/-! ## Execution of loop nests -/

theorem execOps_append {V : Type} (sem : ScalarSem V) (l1 l2 : List Op) (m : Machine V) :
    execOps sem (l1 ++ l2) m = (execOps sem l1 m).bind (execOps sem l2) := by
  induction l1 generalizing m with
  | nil => simp [execOps]
  | cons o os ih =>
    simp only [List.cons_append, execOps]
    cases execOp sem o m with
    | none => rfl
    | some m1 => simp [ih]

theorem lookupIndices_congr {V : Type} (env env' : Value → Option (RtValue V)) (ivs : List Value)
    (h : ∀ v ∈ ivs, env' v = env v) : lookupIndices env' ivs = lookupIndices env ivs := by
  induction ivs with
  | nil => rfl
  | cons v vs ih =>
    simp only [lookupIndices, lookupIndex]
    rw [h v (List.mem_cons_self _ _), ih (fun w hw => h w (List.mem_cons_of_mem _ hw))]

theorem lookupIndices_concat {V : Type} (env : Value → Option (RtValue V)) (ivs : List Value)
    (p : List Int) (v : Value) (i : Int) (hivs : lookupIndices env ivs = some p)
    (hv : env v = some (RtValue.index i)) :
    lookupIndices env (ivs ++ [v]) = some (p ++ [i]) := by
  induction ivs generalizing p with
  | nil =>
    simp only [lookupIndices] at hivs
    cases hivs
    simp [lookupIndices, lookupIndex, hv]
  | cons w ws ih =>
    simp only [lookupIndices, List.cons_append] at hivs ⊢
    cases hw : lookupIndex env w with
    | none => simp [hw] at hivs
    | some j =>
      cases hws : lookupIndices env ws with
      | none => simp [hw, hws] at hivs
      | some q =>
        simp only [hw, hws, Option.some.injEq] at hivs
        subst hivs
        simp [ih q hws]

theorem tuplesAt_nil (p : List Int) : tuplesAt p [] = [p] := by
  simp [tuplesAt, rowMajor]

theorem tuplesAt_cons (p : List Int) (d : Nat) (ds : List Nat) :
    tuplesAt p (d :: ds) =
      (List.range' 0 d).flatMap (fun i => tuplesAt (p ++ [Int.ofNat i]) ds) := by
  simp only [tuplesAt, rowMajor_cons, List.map_flatMap, List.map_map]
  congr 1
  funext i
  apply List.map_congr_left
  intro t _
  simp

theorem tripCount_zero_one (d : Nat) : tripCount 0 (Int.ofNat d) 1 = d := by
  simp [tripCount]


theorem Effect.nil {V : Type} (r : Nat) (val : List Int → V) (reads : List Int → List Access)
    (m : Machine V) (R : Buffer V) (h : m.mem r = some R) : Effect r val reads [] m m := by
  refine ⟨by simp, fun _ _ => rfl, R, R, h, h, rfl, rfl, ?_⟩
  intro x; simp

theorem Effect.append {V : Type} {r : Nat} {val : List Int → V} {reads : List Int → List Access}
    {us1 us2 : List (List Int)} {m m1 m2 : Machine V}
    (h1 : Effect r val reads us1 m m1) (h2 : Effect r val reads us2 m1 m2) :
    Effect r val reads (us1 ++ us2) m m2 := by
  obtain ⟨ht1, hm1, R, R1, hR, hR1, hs1, he1, hd1⟩ := h1
  obtain ⟨ht2, hm2, R1', R2, hR1', hR2, hs2, he2, hd2⟩ := h2
  rw [hR1] at hR1'
  cases hR1'
  refine ⟨?_, fun w hw => (hm2 w hw).trans (hm1 w hw), R, R2, hR, hR2, hs2.trans hs1,
    he2.trans he1, ?_⟩
  · rw [ht2, ht1, List.flatMap_append, List.append_assoc]
  · intro x
    rw [hd2 x, hd1 x]
    by_cases hx2 : x ∈ us2
    · simp [hx2]
    · simp [hx2]

theorem Ready.of_effect {V : Type} {G : (Nat → Option (Buffer V)) → Prop} {r : Nat}
    {shape : List Int} {elementType : ElementType} {val : List Int → V}
    {reads : List Int → List Access} {us : List (List Int)} {m m' : Machine V}
    (hG : ∀ mem mem' : Nat → Option (Buffer V), (∀ w, w ≠ r → mem' w = mem w) → G mem → G mem')
    (hr : Ready G r shape elementType m) (he : Effect r val reads us m m') :
    Ready G r shape elementType m' := by
  obtain ⟨hg, R0, hR0, hs0, he0⟩ := hr
  obtain ⟨_, hm, R, R', hR, hR', hs, hel, _⟩ := he
  rw [hR0] at hR
  cases hR
  exact ⟨hG _ _ hm hg, R', hR', hs.trans hs0, hel.trans he0⟩

theorem exec_loopNest {V : Type} (sem : ScalarSem V) (G : (Nat → Option (Buffer V)) → Prop)
    (r : Nat) (shape : List Int) (elementType : ElementType) (val : List Int → V)
    (reads : List Int → List Access) (body : List Value → Nat → List Op) (n0 : Nat)
    (hG : ∀ mem mem' : Nat → Option (Buffer V), (∀ w, w ≠ r → mem' w = mem w) → G mem → G mem')
    (hbody : ∀ (ivs : List Nat) (n : Nat) (m : Machine V) (u : List Int), n0 ≤ n →
      (∀ iv ∈ ivs, iv < n) → lookupIndices m.env ivs = some u → inBounds u shape = true →
      Ready G r shape elementType m →
      ∃ m', execOps sem (body ivs n) m = some m' ∧ Effect r val reads [u] m m' ∧
        ∀ w, w < n → m'.env w = m.env w) :
    ∀ (ds : List Nat) (ivs : List Nat) (p : List Int) (n : Nat) (m : Machine V), n0 ≤ n →
      (∀ iv ∈ ivs, iv < n) → lookupIndices m.env ivs = some p →
      (∀ u ∈ tuplesAt p ds, inBounds u shape = true) → Ready G r shape elementType m →
      ∃ m', execOps sem (loopNest body (ds.map Int.ofNat) ivs n) m = some m' ∧
        Effect r val reads (tuplesAt p ds) m m' ∧ ∀ w, w < n → m'.env w = m.env w := by
  intro ds
  induction ds with
  | nil =>
    intro ivs p n m hn hivs hp hb hr
    rw [tuplesAt_nil] at hb ⊢
    exact hbody ivs n m p hn hivs hp (hb p (List.mem_singleton_self p)) hr
  | cons d ds ih =>
    intro ivs p n m hn hivs hp hb hr
    rw [tuplesAt_cons] at hb ⊢
    have hloop : ∀ (c i : Nat) (m : Machine V), i + c ≤ d → lookupIndices m.env ivs = some p →
        Ready G r shape elementType m →
        ∃ m', iterate (fun i m => execOps sem
            (loopNest body (ds.map Int.ofNat) (ivs ++ [n]) (n + 1) ++ [Op.affineYield])
            (m.bind n (RtValue.index i))) c (Int.ofNat i) 1 m = some m' ∧
          Effect r val reads ((List.range' i c).flatMap (fun i => tuplesAt (p ++ [Int.ofNat i]) ds))
            m m' ∧ ∀ w, w < n → m'.env w = m.env w := by
      intro c
      induction c with
      | zero =>
        intro i m _ _ hr
        obtain ⟨_, R, hR, _⟩ := hr
        exact ⟨m, rfl, Effect.nil r val reads m R hR, fun _ _ => rfl⟩
      | succ c ihc =>
        intro i m hic hp hr
        have henv : ∀ v ∈ ivs, (m.bind n (RtValue.index (Int.ofNat i))).env v = m.env v := by
          intro v hv
          have := hivs v hv
          simp only [Machine.bind]
          rw [if_neg (show ¬ v = n by omega)]
        have hp1 : lookupIndices (m.bind n (RtValue.index (Int.ofNat i))).env (ivs ++ [n]) =
            some (p ++ [Int.ofNat i]) := by
          apply lookupIndices_concat
          · rw [lookupIndices_congr _ _ _ henv]; exact hp
          · simp [Machine.bind]
        have hivs1 : ∀ iv ∈ ivs ++ [n], iv < n + 1 := by
          intro iv hiv
          rcases List.mem_append.1 hiv with h | h
          · have := hivs iv h; omega
          · simp at h; omega
        have hb1 : ∀ u ∈ tuplesAt (p ++ [Int.ofNat i]) ds, inBounds u shape = true := by
          intro u hu
          apply hb u
          rw [List.mem_flatMap]
          exact ⟨i, by simp [List.mem_range']; omega, hu⟩
        obtain ⟨m1, hm1, he1, henv1⟩ := ih (ivs ++ [n]) (p ++ [Int.ofNat i]) (n + 1)
          (m.bind n (RtValue.index (Int.ofNat i))) (by omega) hivs1 hp1 hb1 hr
        have hr1 : Ready G r shape elementType m1 := hr.of_effect hG he1
        have hpm1 : lookupIndices m1.env ivs = some p := by
          rw [lookupIndices_congr m.env m1.env ivs]
          · exact hp
          · intro v hv
            have := hivs v hv
            rw [henv1 v (by omega)]
            exact henv v hv
        obtain ⟨m2, hm2, he2, henv2⟩ := ihc (i + 1) m1 (by omega) hpm1 hr1
        refine ⟨m2, ?_, ?_, ?_⟩
        · simp only [iterate]
          rw [execOps_append, hm1]
          simp only [Option.some_bind, execOps, execOp]
          have : Int.ofNat i + 1 = Int.ofNat (i + 1) := rfl
          rw [this]
          exact hm2
        · rw [List.range'_succ, List.flatMap_cons]
          exact Effect.append he1 he2
        · intro w hw
          rw [henv2 w hw, henv1 w (by omega)]
          simp only [Machine.bind]
          rw [if_neg (show ¬ w = n by omega)]
    obtain ⟨m', hm', he, henv⟩ := hloop d 0 m (by omega) hp hr
    refine ⟨m', ?_, he, henv⟩
    simp only [List.map_cons, loopNest, execOps, execOp]
    rw [if_neg (by decide), tripCount_zero_one]
    simpa using hm'

/-! ## Execution of the loop bodies -/

theorem lookupIndices_of_agree {V : Type} (env env' : Nat → Option (RtValue V)) (ivs : List Nat)
    (n : Nat) (u : List Int) (hivs : ∀ iv ∈ ivs, iv < n) (hu : lookupIndices env ivs = some u)
    (h : ∀ v, v < n → env' v = env v) : lookupIndices env' ivs = some u := by
  rw [lookupIndices_congr env env' ivs (fun v hv => h v (hivs v hv))]
  exact hu

theorem binaryStep_eq {V : Type} (sem : ScalarSem V) (T : ScalarOp) (x y : V) :
    binaryStep sem T x y =
      sem.apply T (if T = ScalarOp.cmpf then some CmpFPredicate.OEQ else none) [x, y] := by
  cases T <;> rfl

theorem ScalarOp.checkedResultType_same (op : ScalarOp) (hop : op ≠ ScalarOp.cmpf)
    (type : ElementType) (rest : List ElementType) (hfloat : type.isFloat = true)
    (h : ∀ t ∈ rest, t = type) :
    op.checkedResultType (type :: rest) = some type := by
  have hall : rest.all (fun t => decide (t = type)) = true := by
    rw [List.all_eq_true]
    intro t ht
    exact decide_eq_true (h t ht)
  simp only [ScalarOp.checkedResultType, hfloat, hall, Bool.and_self, if_true]
  cases op <;> first | exact absurd rfl hop | rfl

theorem exec_load {V : Type} (sem : ScalarSem V) (m : Machine V) (res memref : Nat)
    (ivs : List Nat) (buffer : Buffer V) (u : List Int) (hmem : m.mem memref = some buffer)
    (hu : lookupIndices m.env ivs = some u) (hin : inBounds u buffer.shape = true) :
    execOp sem (Op.affineLoad res memref ivs) m =
      some { env := fun w =>
               if w = res then some (RtValue.scalar buffer.elementType (buffer.data u))
               else m.env w,
             mem := m.mem,
             trace := m.trace ++ [Access.load memref u] } := by
  simp [execOp, hmem, hu, hin, Machine.bind]

theorem exec_store {V : Type} (sem : ScalarSem V) (m : Machine V) (value memref : Nat)
    (ivs : List Nat) (buffer : Buffer V) (u : List Int) (type : ElementType) (x : V)
    (hx : m.env value = some (RtValue.scalar type x)) (hmem : m.mem memref = some buffer)
    (htype : type = buffer.elementType)
    (hu : lookupIndices m.env ivs = some u) (hin : inBounds u buffer.shape = true) :
    execOp sem (Op.affineStore value memref ivs) m =
      some { env := m.env,
             mem := fun w =>
               if w = memref then
                 some { shape := buffer.shape,
                        elementType := buffer.elementType,
                        data := fun t => if t = u then x else buffer.data t }
               else m.mem w,
             trace := m.trace ++ [Access.store memref u] } := by
  simp [execOp, lookupScalar, hx, hmem, hu, hin, htype]

theorem exec_scalar {V : Type} (sem : ScalarSem V) (m : Machine V) (res : Nat) (op : ScalarOp)
    (predicate : Option CmpFPredicate) (operands : List Nat) (xs : List (ElementType × V))
    (type : ElementType) (hxs : lookupScalars m.env operands = some xs)
    (htype : op.checkedResultType (xs.map Prod.fst) = some type) :
    execOp sem (Op.scalar res op predicate operands) m =
      some { env := fun w =>
               if w = res then
                 some (RtValue.scalar type (sem.apply op predicate (xs.map Prod.snd)))
               else m.env w,
             mem := m.mem,
             trace := m.trace } := by
  simp [execOp, hxs, htype, Machine.bind]

theorem exec_constant_float {V : Type} (sem : ScalarSem V) (m : Machine V) (res : Nat)
    (x : APFloat) (e : ElementType) :
    execOp sem (Op.constant res (Attribute.float x e)) m =
      some { env := fun w =>
               if w = res then some (RtValue.scalar e (sem.constant (Attribute.float x e)))
               else m.env w,
             mem := m.mem,
             trace := m.trace } := by
  simp [execOp, Machine.bind]

theorem effect_store {V : Type} (r : Nat) (val : List Int → V) (reads : List Int → List Access)
    (u : List Int) (m : Machine V) (R : Buffer V) (env' : Nat → Option (RtValue V))
    (hR : m.mem r = some R) :
    Effect r val reads [u] m
      { env := env',
        mem := fun w =>
          if w = r then
            some { shape := R.shape, elementType := R.elementType,
                   data := fun t => if t = u then val u else R.data t }
          else m.mem w,
        trace := m.trace ++ reads u ++ [Access.store r u] } := by
  refine ⟨by simp, ?_, R,
    { shape := R.shape, elementType := R.elementType,
      data := fun t => if t = u then val u else R.data t },
    hR, by simp, rfl, rfl, ?_⟩
  · intro w hw
    simp [hw]
  · intro x
    by_cases hx : x = u
    · subst hx; simp
    · simp [hx]

theorem exec_binaryBody {V : Type} (sem : ScalarSem V) (T : ScalarOp) (a b r : Nat)
    (A B : Buffer V) (shape : List Int) (E : ElementType) (hT : T ≠ ScalarOp.cmpf)
    (hE : E.isFloat = true) (hA : A.shape = shape) (hB : B.shape = shape)
    (hAe : A.elementType = E) (hBe : B.elementType = E) (n0 : Nat)
    (ivs : List Nat) (n : Nat) (m : Machine V) (u : List Int) (_hn : n0 ≤ n)
    (hivs : ∀ iv ∈ ivs, iv < n) (hu : lookupIndices m.env ivs = some u)
    (hin : inBounds u shape = true)
    (hr : Ready (fun mem => mem a = some A ∧ mem b = some B) r shape E m) :
    ∃ m', execOps sem (binaryBody T a b r ivs n) m = some m' ∧
      Effect r (fun u => binaryStep sem T (A.data u) (B.data u))
        (fun u => [Access.load a u, Access.load b u]) [u] m m' ∧
      ∀ w, w < n → m'.env w = m.env w := by
  obtain ⟨⟨hma, hmb⟩, R, hR, hRs, hRe⟩ := hr
  have hinA : inBounds u A.shape = true := by rw [hA]; exact hin
  have hinB : inBounds u B.shape = true := by rw [hB]; exact hin
  have hinR : inBounds u R.shape = true := by rw [hRs]; exact hin
  have e1 := exec_load sem m n a ivs A u hma hu hinA
  rw [hAe] at e1
  have e2 := exec_load sem
    { env := fun w => if w = n then some (RtValue.scalar E (A.data u)) else m.env w,
      mem := m.mem, trace := m.trace ++ [Access.load a u] }
    (n + 1) b ivs B u hmb
    (lookupIndices_of_agree m.env _ ivs n u hivs hu
      (fun v hv => by simp only []; rw [if_neg (show ¬ v = n by omega)])) hinB
  rw [hBe] at e2
  have e3 := exec_scalar sem
    { env := fun w => if w = n + 1 then some (RtValue.scalar E (B.data u))
        else if w = n then some (RtValue.scalar E (A.data u)) else m.env w,
      mem := m.mem, trace := m.trace ++ [Access.load a u] ++ [Access.load b u] }
    (n + 2) T (if T = ScalarOp.cmpf then some CmpFPredicate.OEQ else none) [n, n + 1]
    [(E, A.data u), (E, B.data u)] E (by simp [lookupScalars, lookupScalar])
    (ScalarOp.checkedResultType_same T hT E [E] hE (by simp))
  simp only [List.map_cons, List.map_nil] at e3
  have e4 := exec_store sem
    { env := fun w =>
        if w = n + 2 then some (RtValue.scalar E (sem.apply T
          (if T = ScalarOp.cmpf then some CmpFPredicate.OEQ else none) [A.data u, B.data u]))
        else if w = n + 1 then some (RtValue.scalar E (B.data u))
        else if w = n then some (RtValue.scalar E (A.data u)) else m.env w,
      mem := m.mem, trace := m.trace ++ [Access.load a u] ++ [Access.load b u] }
    (n + 2) r ivs R u E (sem.apply T
          (if T = ScalarOp.cmpf then some CmpFPredicate.OEQ else none) [A.data u, B.data u])
    (by simp) hR hRe.symm
    (lookupIndices_of_agree m.env _ ivs n u hivs hu
      (fun v hv => by
        simp only []
        rw [if_neg (show ¬ v = n + 2 by omega), if_neg (show ¬ v = n + 1 by omega),
          if_neg (show ¬ v = n by omega)])) hinR
  refine ⟨{
      env := fun w =>
        if w = n + 2 then some (RtValue.scalar E (sem.apply T
          (if T = ScalarOp.cmpf then some CmpFPredicate.OEQ else none) [A.data u, B.data u]))
        else if w = n + 1 then some (RtValue.scalar E (B.data u))
        else if w = n then some (RtValue.scalar E (A.data u)) else m.env w,
      mem := fun w =>
        if w = r then
          some { shape := R.shape, elementType := R.elementType,
                 data := fun t => if t = u then sem.apply T
                   (if T = ScalarOp.cmpf then some CmpFPredicate.OEQ else none)
                   [A.data u, B.data u] else R.data t }
        else m.mem w,
      trace := m.trace ++ [Access.load a u] ++ [Access.load b u] ++ [Access.store r u] },
    ?_, ?_, ?_⟩
  · simp only [binaryBody, execOps, e1, Option.some_bind, e2, e3, e4]
  · have := effect_store r (fun u => binaryStep sem T (A.data u) (B.data u))
      (fun u => [Access.load a u, Access.load b u]) u m R
      (fun w =>
        if w = n + 2 then some (RtValue.scalar E (sem.apply T
          (if T = ScalarOp.cmpf then some CmpFPredicate.OEQ else none) [A.data u, B.data u]))
        else if w = n + 1 then some (RtValue.scalar E (B.data u))
        else if w = n then some (RtValue.scalar E (A.data u)) else m.env w) hR
    simp only [binaryStep_eq, List.append_assoc, List.cons_append, List.nil_append] at this ⊢
    exact this
  · intro w hw
    simp only []
    rw [if_neg (show ¬ w = n + 2 by omega), if_neg (show ¬ w = n + 1 by omega),
      if_neg (show ¬ w = n by omega)]


theorem exec_unary_plain {V : Type} (sem : ScalarSem V) (T : ScalarOp) (a r : Nat)
    (A : Buffer V) (shape : List Int) (E : ElementType) (hT : T ≠ ScalarOp.cmpf)
    (hE : E.isFloat = true) (hA : A.shape = shape) (hAe : A.elementType = E)
    (ivs : List Nat) (n : Nat) (m : Machine V) (u : List Int)
    (hivs : ∀ iv ∈ ivs, iv < n) (hu : lookupIndices m.env ivs = some u)
    (hin : inBounds u shape = true)
    (hr : Ready (fun mem => mem a = some A) r shape E m) :
    ∃ m', execOps sem
        [Op.affineLoad n a ivs, Op.scalar (n + 1) T none [n], Op.affineStore (n + 1) r ivs] m =
          some m' ∧
      Effect r (fun u => sem.apply T none [A.data u]) (fun u => [Access.load a u]) [u] m m' ∧
      ∀ w, w < n → m'.env w = m.env w := by
  obtain ⟨hma, R, hR, hRs, hRe⟩ := hr
  have hinA : inBounds u A.shape = true := by rw [hA]; exact hin
  have hinR : inBounds u R.shape = true := by rw [hRs]; exact hin
  have e1 := exec_load sem m n a ivs A u hma hu hinA
  rw [hAe] at e1
  have e3 := exec_scalar sem
    { env := fun w => if w = n then some (RtValue.scalar E (A.data u)) else m.env w,
      mem := m.mem, trace := m.trace ++ [Access.load a u] }
    (n + 1) T none [n] [(E, A.data u)] E (by simp [lookupScalars, lookupScalar])
    (ScalarOp.checkedResultType_same T hT E [] hE (by simp))
  simp only [List.map_cons, List.map_nil] at e3
  have e4 := exec_store sem
    { env := fun w =>
        if w = n + 1 then some (RtValue.scalar E (sem.apply T none [A.data u]))
        else if w = n then some (RtValue.scalar E (A.data u)) else m.env w,
      mem := m.mem, trace := m.trace ++ [Access.load a u] }
    (n + 1) r ivs R u E (sem.apply T none [A.data u]) (by simp) hR hRe.symm
    (lookupIndices_of_agree m.env _ ivs n u hivs hu
      (fun v hv => by
        simp only []
        rw [if_neg (show ¬ v = n + 1 by omega), if_neg (show ¬ v = n by omega)])) hinR
  refine ⟨{
      env := fun w =>
        if w = n + 1 then some (RtValue.scalar E (sem.apply T none [A.data u]))
        else if w = n then some (RtValue.scalar E (A.data u)) else m.env w,
      mem := fun w =>
        if w = r then
          some { shape := R.shape, elementType := R.elementType,
                 data := fun t => if t = u then sem.apply T none [A.data u] else R.data t }
        else m.mem w,
      trace := m.trace ++ [Access.load a u] ++ [Access.store r u] },
    ?_, ?_, ?_⟩
  · simp only [execOps, e1, Option.some_bind, e3, e4]
  · exact effect_store r (fun u => sem.apply T none [A.data u]) (fun u => [Access.load a u]) u m R
      _ hR
  · intro w hw
    simp only []
    rw [if_neg (show ¬ w = n + 1 by omega), if_neg (show ¬ w = n by omega)]

theorem exec_unary_zero {V : Type} (sem : ScalarSem V) (T : ScalarOp)
    (predicate : Option CmpFPredicate) (a r : Nat)
    (A : Buffer V) (shape : List Int) (hT : T ≠ ScalarOp.cmpf)
    (hA : A.shape = shape) (hAe : A.elementType = ElementType.f64)
    (ivs : List Nat) (n : Nat) (m : Machine V) (u : List Int)
    (hivs : ∀ iv ∈ ivs, iv < n) (hu : lookupIndices m.env ivs = some u)
    (hin : inBounds u shape = true)
    (hr : Ready (fun mem => mem a = some A) r shape ElementType.f64 m) :
    ∃ m', execOps sem
        [Op.affineLoad n a ivs, Op.constant (n + 1) (Attribute.float apzero ElementType.f64),
         Op.scalar (n + 2) T predicate [n, n + 1], Op.affineStore (n + 2) r ivs] m = some m' ∧
      Effect r
        (fun u => sem.apply T predicate
          [A.data u, sem.constant (Attribute.float apzero ElementType.f64)])
        (fun u => [Access.load a u]) [u] m m' ∧
      ∀ w, w < n → m'.env w = m.env w := by
  obtain ⟨hma, R, hR, hRs, hRe⟩ := hr
  have hinA : inBounds u A.shape = true := by rw [hA]; exact hin
  have hinR : inBounds u R.shape = true := by rw [hRs]; exact hin
  have e1 := exec_load sem m n a ivs A u hma hu hinA
  rw [hAe] at e1
  have e2 := exec_constant_float sem
    { env := fun w => if w = n then some (RtValue.scalar ElementType.f64 (A.data u)) else m.env w,
      mem := m.mem, trace := m.trace ++ [Access.load a u] }
    (n + 1) apzero ElementType.f64
  have e3 := exec_scalar sem
    { env := fun w =>
        if w = n + 1 then
          some (RtValue.scalar ElementType.f64 (sem.constant (Attribute.float apzero ElementType.f64)))
        else if w = n then some (RtValue.scalar ElementType.f64 (A.data u)) else m.env w,
      mem := m.mem, trace := m.trace ++ [Access.load a u] }
    (n + 2) T predicate [n, n + 1]
    [(ElementType.f64, A.data u),
     (ElementType.f64, sem.constant (Attribute.float apzero ElementType.f64))]
    ElementType.f64 (by simp [lookupScalars, lookupScalar])
    (ScalarOp.checkedResultType_same T hT ElementType.f64 [ElementType.f64] rfl (by simp))
  simp only [List.map_cons, List.map_nil] at e3
  have e4 := exec_store sem
    { env := fun w =>
        if w = n + 2 then some (RtValue.scalar ElementType.f64 (sem.apply T predicate
          [A.data u, sem.constant (Attribute.float apzero ElementType.f64)]))
        else if w = n + 1 then
          some (RtValue.scalar ElementType.f64 (sem.constant (Attribute.float apzero ElementType.f64)))
        else if w = n then some (RtValue.scalar ElementType.f64 (A.data u)) else m.env w,
      mem := m.mem, trace := m.trace ++ [Access.load a u] }
    (n + 2) r ivs R u ElementType.f64 (sem.apply T predicate
          [A.data u, sem.constant (Attribute.float apzero ElementType.f64)]) (by simp) hR
    hRe.symm
    (lookupIndices_of_agree m.env _ ivs n u hivs hu
      (fun v hv => by
        simp only []
        rw [if_neg (show ¬ v = n + 2 by omega), if_neg (show ¬ v = n + 1 by omega),
          if_neg (show ¬ v = n by omega)])) hinR
  refine ⟨{
      env := fun w =>
        if w = n + 2 then some (RtValue.scalar ElementType.f64 (sem.apply T predicate
          [A.data u, sem.constant (Attribute.float apzero ElementType.f64)]))
        else if w = n + 1 then
          some (RtValue.scalar ElementType.f64 (sem.constant (Attribute.float apzero ElementType.f64)))
        else if w = n then some (RtValue.scalar ElementType.f64 (A.data u)) else m.env w,
      mem := fun w =>
        if w = r then
          some { shape := R.shape, elementType := R.elementType,
                 data := fun t => if t = u then sem.apply T predicate
                   [A.data u, sem.constant (Attribute.float apzero ElementType.f64)]
                   else R.data t }
        else m.mem w,
      trace := m.trace ++ [Access.load a u] ++ [Access.store r u] },
    ?_, ?_, ?_⟩
  · simp only [execOps, e1, Option.some_bind, e2, e3, e4]
  · exact effect_store r (fun u => sem.apply T predicate
      [A.data u, sem.constant (Attribute.float apzero ElementType.f64)])
      (fun u => [Access.load a u]) u m R _ hR
  · intro w hw
    simp only []
    rw [if_neg (show ¬ w = n + 2 by omega), if_neg (show ¬ w = n + 1 by omega),
      if_neg (show ¬ w = n by omega)]

theorem exec_unaryBody {V : Type} (sem : ScalarSem V) (T : ScalarOp) (a r : Nat)
    (A : Buffer V) (shape : List Int) (hT : T ≠ ScalarOp.cmpf)
    (hA : A.shape = shape) (hAe : A.elementType = ElementType.f64) (n0 : Nat)
    (ivs : List Nat) (n : Nat) (m : Machine V) (u : List Int) (_hn : n0 ≤ n)
    (hivs : ∀ iv ∈ ivs, iv < n) (hu : lookupIndices m.env ivs = some u)
    (hin : inBounds u shape = true)
    (hr : Ready (fun mem => mem a = some A) r shape ElementType.f64 m) :
    ∃ m', execOps sem (unaryBody T a r ivs n) m = some m' ∧
      Effect r (fun u => unaryStep sem T (A.data u)) (fun u => [Access.load a u]) [u] m m' ∧
      ∀ w, w < n → m'.env w = m.env w := by
  cases T
  case maxf =>
    exact exec_unary_zero sem ScalarOp.maxf none a r A shape hT hA hAe ivs n m u hivs hu hin hr
  case cmpf => exact absurd rfl hT
  all_goals
    exact exec_unary_plain sem _ a r A shape ElementType.f64 hT rfl hA hAe ivs n m u hivs hu hin hr

/-! ## Elementwise patterns compute pointwise -/

theorem inBounds_of_inBox :
    ∀ (t dims : List Nat), InBox t dims →
      inBounds (t.map Int.ofNat) (dims.map Int.ofNat) = true := by
  intro t dims h
  induction h with
  | nil => rfl
  | cons hid _ ih =>
    simp only [List.map_cons, inBounds, Bool.and_eq_true, decide_eq_true_eq]
    exact ⟨⟨Int.ofNat_nonneg _, Int.ofNat_lt.2 hid⟩, ih⟩

theorem inBounds_tuplesAt (dims : List Nat) :
    ∀ u ∈ tuplesAt [] dims, inBounds u (dims.map Int.ofNat) = true := by
  intro u hu
  simp only [tuplesAt, List.mem_map, List.nil_append] at hu
  obtain ⟨t, ht, rfl⟩ := hu
  exact inBounds_of_inBox t dims ((mem_rowMajor dims t).1 ht)

theorem exec_alloc {V : Type} (sem : ScalarSem V) (m : Machine V) (res : Nat) (type : MemRefType) :
    execOp sem (Op.alloc res type) m =
      some { env := m.env,
             mem := fun w =>
               if w = res then
                 some { shape := type.shape, elementType := type.elementType,
                        data := fun _ => sem.undef }
               else m.mem w,
             trace := m.trace } := by
  simp [execOp]

/-- The run of an allocation followed by an elementwise loop nest. -/
theorem exec_alloc_loopNest {V : Type} (sem : ScalarSem V)
    (G : (Nat → Option (Buffer V)) → Prop) (r : Nat) (dims : List Nat)
    (elementType : ElementType) (val : List Int → V)
    (reads : List Int → List Access) (body : List Value → Nat → List Op)
    (hG : ∀ mem mem' : Nat → Option (Buffer V), (∀ w, w ≠ r → mem' w = mem w) → G mem → G mem')
    (hbody : ∀ (ivs : List Nat) (n : Nat) (m : Machine V) (u : List Int), r + 1 ≤ n →
      (∀ iv ∈ ivs, iv < n) → lookupIndices m.env ivs = some u →
      inBounds u (dims.map Int.ofNat) = true →
      Ready G r (dims.map Int.ofNat) elementType m →
      ∃ m', execOps sem (body ivs n) m = some m' ∧ Effect r val reads [u] m m' ∧
        ∀ w, w < n → m'.env w = m.env w)
    (m : Machine V) (hm : G m.mem) :
    ∃ m' R, execOps sem (Op.alloc r ⟨dims.map Int.ofNat, elementType⟩ ::
        loopNest body (dims.map Int.ofNat) [] (r + 1)) m = some m' ∧
      m'.trace = m.trace ++ (tuplesAt [] dims).flatMap (fun u => reads u ++ [Access.store r u]) ∧
      (∀ w, w ≠ r → m'.mem w = m.mem w) ∧
      m'.mem r = some R ∧ R.shape = dims.map Int.ofNat ∧
      ∀ u ∈ tuplesAt [] dims, R.data u = val u := by
  have hready : Ready G r (dims.map Int.ofNat) elementType
      { env := m.env,
        mem := fun w =>
          if w = r then
            some { shape := dims.map Int.ofNat, elementType := elementType,
                   data := fun _ => sem.undef }
          else m.mem w,
        trace := m.trace } := by
    refine ⟨hG m.mem _ (fun w hw => by simp [hw]) hm,
      { shape := dims.map Int.ofNat, elementType := elementType, data := fun _ => sem.undef },
      by simp, rfl, rfl⟩
  obtain ⟨m', hm', ⟨ht, hmem, R, R', hR, hR', hs, _, hd⟩, _⟩ :=
    exec_loopNest sem G r (dims.map Int.ofNat) elementType val reads body (r + 1) hG hbody dims
      [] [] (r + 1) _ (le_refl _) (by simp) rfl (inBounds_tuplesAt dims) hready
  simp only [if_true, Option.some.injEq] at hR
  subst hR
  refine ⟨m', R', ?_, ht, ?_, hR', hs, ?_⟩
  · simp only [execOps, exec_alloc, Option.some_bind]
    exact hm'
  · intro w hw
    rw [hmem w hw]
    simp [hw]
  · intro u hu
    rw [hd u, if_pos hu]

theorem nodup_tuplesAt (dims : List Nat) : (tuplesAt [] dims).Nodup := by
  unfold tuplesAt
  refine (nodup_rowMajor dims).map ?_
  intro a b h
  simp only [List.nil_append] at h
  refine List.map_injective_iff.2 ?_ h
  intro x y hxy
  exact Int.ofNat.inj hxy

theorem mem_tuplesAt (dims : List Nat) (u : List Int) :
    u ∈ tuplesAt [] dims ↔ ∃ t, InBox t dims ∧ u = t.map Int.ofNat := by
  simp only [tuplesAt, List.mem_map, List.nil_append]
  constructor
  · rintro ⟨t, ht, rfl⟩
    exact ⟨t, (mem_rowMajor dims t).1 ht, rfl⟩
  · rintro ⟨t, ht, rfl⟩
    exact ⟨t, (mem_rowMajor dims t).2 ht, rfl⟩

/-- The code an elementwise pattern emits for a scalar operation class other than
`arith.cmpf` (the nine kinds add, sub, mul, div, pow, relu, exp, log, neg), run on
`f64` operand buffers of the shape of the `f64` result, performs for each index
tuple of the box, in row-major order and once, the loads of the operands at the
tuple and the store at the same tuple; every access is inside its buffer, and
afterwards the result buffer holds at each tuple the scalar compute step applied
to the operand elements there.  The tuples visited are those of the box, without
repetition. -/
theorem float_kinds_compute_pointwise {V : Type} (sem : ScalarSem V) (op : Operation)
    (rewriter : PatternRewriter) (dims : List Nat)
    (LoweredOp : ScalarOp) (a b : Nat) (A B : Buffer V) (m : Machine V)
    (hkind : LoweredOp ≠ ScalarOp.cmpf)
    (htype : op.tensorType =
      some { shape := some (dims.map Int.ofNat), elementType := ElementType.f64 })
    (hafter : 2 ≤ rewriter.after.length)
    (ha : a < rewriter.nextValue) (hb : b < rewriter.nextValue)
    (hA : m.mem a = some A) (hAs : A.shape = dims.map Int.ofNat)
    (hAe : A.elementType = ElementType.f64)
    (hB : m.mem b = some B) (hBs : B.shape = dims.map Int.ofNat)
    (hBe : B.elementType = ElementType.f64) :
    (∃ rewriter' code m' R,
      BinaryOpLowering.matchAndRewrite LoweredOp op [a, b] rewriter = some rewriter' ∧
      rewriter'.before =
        Op.alloc rewriter.nextValue ⟨dims.map Int.ofNat, ElementType.f64⟩ :: rewriter.before ++ code ∧
      execOps sem (Op.alloc rewriter.nextValue ⟨dims.map Int.ofNat, ElementType.f64⟩ :: code) m =
        some m' ∧
      m'.trace = m.trace ++ (tuplesAt [] dims).flatMap (fun u =>
        [Access.load a u, Access.load b u, Access.store rewriter.nextValue u]) ∧
      (∀ u ∈ tuplesAt [] dims, inBounds u A.shape = true ∧ inBounds u B.shape = true) ∧
      m'.mem rewriter.nextValue = some R ∧ R.shape = dims.map Int.ofNat ∧
      ∀ u ∈ tuplesAt [] dims, R.data u = binaryStep sem LoweredOp (A.data u) (B.data u)) ∧
    (∃ rewriter' code m' R,
      UnaryOpLowering.matchAndRewrite LoweredOp op [a] rewriter = some rewriter' ∧
      rewriter'.before =
        Op.alloc rewriter.nextValue ⟨dims.map Int.ofNat, ElementType.f64⟩ :: rewriter.before ++ code ∧
      execOps sem (Op.alloc rewriter.nextValue ⟨dims.map Int.ofNat, ElementType.f64⟩ :: code) m =
        some m' ∧
      m'.trace = m.trace ++ (tuplesAt [] dims).flatMap (fun u =>
        [Access.load a u, Access.store rewriter.nextValue u]) ∧
      (∀ u ∈ tuplesAt [] dims, inBounds u A.shape = true) ∧
      m'.mem rewriter.nextValue = some R ∧ R.shape = dims.map Int.ofNat ∧
      ∀ u ∈ tuplesAt [] dims, R.data u = unaryStep sem LoweredOp (A.data u)) ∧
    (tuplesAt [] dims).Nodup ∧
    (∀ u, u ∈ tuplesAt [] dims ↔ ∃ t, InBox t dims ∧ u = t.map Int.ofNat) := by
  refine ⟨?_, ?_, nodup_tuplesAt dims, mem_tuplesAt dims⟩
  · obtain ⟨pre, post, _, hpre, heq⟩ := lowerOpToLoops_eq op [a, b] rewriter
      (binaryIteration LoweredOp) (dims.map Int.ofNat) ElementType.f64
      (binaryBody LoweredOp a b) 3 htype (fun alloc bld ivs => binaryIteration_eq _ _ _ _ _ _ _)
    rw [hpre hafter, List.nil_append] at heq
    obtain ⟨m', R, hexec, htrace, _, hR, hRs, hdata⟩ :=
      exec_alloc_loopNest sem (fun mem => mem a = some A ∧ mem b = some B) rewriter.nextValue
        dims ElementType.f64 (fun u => binaryStep sem LoweredOp (A.data u) (B.data u))
        (fun u => [Access.load a u, Access.load b u]) (binaryBody LoweredOp a b rewriter.nextValue)
        (fun mem mem' h hg => by
          show mem' a = some A ∧ mem' b = some B
          rw [h a (by omega), h b (by omega)]; exact hg)
        (fun ivs n m u hn hivs hu hin hr =>
          exec_binaryBody sem LoweredOp a b rewriter.nextValue A B _ ElementType.f64 hkind
            rfl hAs hBs hAe hBe (rewriter.nextValue + 1) ivs n m u hn hivs hu hin hr)
        m ⟨hA, hB⟩
    refine ⟨_, _, m', R, heq, rfl, hexec, ?_, ?_, hR, hRs, hdata⟩
    · rw [htrace]; rfl
    · intro u hu
      rw [hAs, hBs]
      exact ⟨inBounds_tuplesAt dims u hu, inBounds_tuplesAt dims u hu⟩
  · obtain ⟨pre, post, _, hpre, heq⟩ := lowerOpToLoops_eq op [a] rewriter
      (unaryIteration LoweredOp) (dims.map Int.ofNat) ElementType.f64
      (unaryBody LoweredOp a) (unaryValues LoweredOp) htype
      (fun alloc bld ivs => unaryIteration_eq _ _ _ _ _ _)
    rw [hpre hafter, List.nil_append] at heq
    obtain ⟨m', R, hexec, htrace, _, hR, hRs, hdata⟩ :=
      exec_alloc_loopNest sem (fun mem => mem a = some A) rewriter.nextValue
        dims ElementType.f64 (fun u => unaryStep sem LoweredOp (A.data u))
        (fun u => [Access.load a u]) (unaryBody LoweredOp a rewriter.nextValue)
        (fun mem mem' h hg => by
          show mem' a = some A
          rw [h a (by omega)]; exact hg)
        (fun ivs n m u hn hivs hu hin hr =>
          exec_unaryBody sem LoweredOp a rewriter.nextValue A _ hkind hAs hAe
            (rewriter.nextValue + 1) ivs n m u hn hivs hu hin hr)
        m hA
    refine ⟨_, _, m', R, heq, rfl, hexec, ?_, ?_, hR, hRs, hdata⟩
    · rw [htrace]; rfl
    · intro u hu
      rw [hAs]
      exact inBounds_tuplesAt dims u hu

/-! ## Shape of the emitted loop nests; type conversion; buffer placement -/

theorem nestBoundsOf_loopNest (body : List Value → Nat → List Op)
    (hbody : ∀ ivs n, nestBoundsOf (body ivs n) = []) :
    ∀ (shape : List Int) (ivs : List Value) (n : Nat),
      nestBoundsOf (loopNest body shape ivs n) = shape.map (fun d => ((0 : Int), d, (1 : Int))) := by
  intro shape
  induction shape with
  | nil => intro ivs n; simpa [loopNest] using hbody ivs n
  | cons d ds ih =>
    intro ivs n
    cases hds : ds with
    | nil =>
      subst hds
      have h := hbody (ivs ++ [n]) (n + 1)
      cases hb : body (ivs ++ [n]) (n + 1) with
      | nil => simp [loopNest, nestBoundsOf, Op.nestBounds, hb]
      | cons o os =>
        rw [hb] at h
        simp [loopNest, nestBoundsOf, Op.nestBounds, hb] at h ⊢
        exact h
    | cons e es =>
      have h := ih (ivs ++ [n]) (n + 1)
      rw [hds] at h
      simp only [loopNest, nestBoundsOf, Op.nestBounds, List.map_cons, List.singleton_append] at h ⊢
      rw [h]

theorem countOps_append (p : Op → Bool) (l1 l2 : List Op) :
    countOps p (l1 ++ l2) = countOps p l1 + countOps p l2 := by
  induction l1 with
  | nil => simp [countOps]
  | cons o os ih => simp [countOps, ih, Nat.add_assoc]

theorem countOps_isAffineFor_loopNest (body : List Value → Nat → List Op)
    (hbody : ∀ ivs n, countOps Op.isAffineFor (body ivs n) = 0) :
    ∀ (shape : List Int) (ivs : List Value) (n : Nat),
      countOps Op.isAffineFor (loopNest body shape ivs n) = shape.length := by
  intro shape
  induction shape with
  | nil => intro ivs n; simpa [loopNest] using hbody ivs n
  | cons d ds ih =>
    intro ivs n
    simp [loopNest, countOps, Op.count, Op.isAffineFor, countOps_append, ih]
    omega

theorem countOps_loopNest (p : Op → Bool) (body : List Value → Nat → List Op) (c : Nat)
    (hfor : ∀ iv lb ub step b, p (Op.affineFor iv lb ub step b) = false)
    (hyield : p Op.affineYield = false)
    (hbody : ∀ ivs n, countOps p (body ivs n) = c) :
    ∀ (shape : List Int) (ivs : List Value) (n : Nat),
      countOps p (loopNest body shape ivs n) = c := by
  intro shape
  induction shape with
  | nil => intro ivs n; simpa [loopNest] using hbody ivs n
  | cons d ds ih =>
    intro ivs n
    simp [loopNest, countOps, Op.count, countOps_append, ih, hfor, hyield]

/-- C4: the patterns built on `lowerOpToLoops` allocate a result buffer of exactly the
shape of the result tensor and insert a perfect nest with one `affine.for` per
dimension, the d-th with lower bound 0, upper bound the d-th extent and step 1,
around the body (loads, compute, store); for rank 0 there is no loop and the
body itself stands at the insertion point. -/
theorem lowerOpToLoops_buffer_and_nest (op : Operation) (rewriter : PatternRewriter)
    (shape : List Int) (elementType : ElementType) (LoweredOp : ScalarOp)
    (lhs rhs : Value) (rest : List Value)
    (htype : op.tensorType = some { shape := some shape, elementType := elementType }) :
    (∃ rewriter' pre code,
      BinaryOpLowering.matchAndRewrite LoweredOp op (lhs :: rhs :: rest) rewriter =
        some rewriter' ∧
      (pre = [] ∨ pre = [Op.dealloc rewriter.nextValue]) ∧
      rewriter'.before =
        Op.alloc rewriter.nextValue ⟨shape, elementType⟩ :: rewriter.before ++ pre ++ code ∧
      code = loopNest (binaryBody LoweredOp lhs rhs rewriter.nextValue) shape []
        (rewriter.nextValue + 1) ∧
      nestBoundsOf code = shape.map (fun d => ((0 : Int), d, (1 : Int))) ∧
      countOps Op.isAffineFor code = shape.length ∧
      (shape = [] →
        code = binaryBody LoweredOp lhs rhs rewriter.nextValue [] (rewriter.nextValue + 1))) ∧
    (∃ rewriter' pre code,
      UnaryOpLowering.matchAndRewrite LoweredOp op (lhs :: rest) rewriter = some rewriter' ∧
      (pre = [] ∨ pre = [Op.dealloc rewriter.nextValue]) ∧
      rewriter'.before =
        Op.alloc rewriter.nextValue ⟨shape, elementType⟩ :: rewriter.before ++ pre ++ code ∧
      code = loopNest (unaryBody LoweredOp lhs rewriter.nextValue) shape []
        (rewriter.nextValue + 1) ∧
      nestBoundsOf code = shape.map (fun d => ((0 : Int), d, (1 : Int))) ∧
      countOps Op.isAffineFor code = shape.length ∧
      (shape = [] →
        code = unaryBody LoweredOp lhs rewriter.nextValue [] (rewriter.nextValue + 1))) := by
  constructor
  · obtain ⟨pre, post, hpre, _, heq⟩ := lowerOpToLoops_eq op (lhs :: rhs :: rest) rewriter
      (binaryIteration LoweredOp) shape elementType
      (binaryBody LoweredOp lhs rhs) 3 htype (fun alloc bld ivs => binaryIteration_eq _ _ _ _ _ _ _)
    refine ⟨_, pre, _, heq, hpre, by simp, rfl, ?_, ?_, ?_⟩
    · exact nestBoundsOf_loopNest (binaryBody LoweredOp lhs rhs rewriter.nextValue)
        (fun ivs n => rfl) shape [] _
    · exact countOps_isAffineFor_loopNest (binaryBody LoweredOp lhs rhs rewriter.nextValue)
        (fun ivs n => rfl) shape [] _
    · intro h; subst h; rfl
  · obtain ⟨pre, post, hpre, _, heq⟩ := lowerOpToLoops_eq op (lhs :: rest) rewriter
      (unaryIteration LoweredOp) shape elementType
      (unaryBody LoweredOp lhs) (unaryValues LoweredOp) htype
      (fun alloc bld ivs => unaryIteration_eq _ _ _ _ _ _)
    refine ⟨_, pre, _, heq, hpre, by simp, rfl, ?_, ?_, ?_⟩
    · exact nestBoundsOf_loopNest (unaryBody LoweredOp lhs rewriter.nextValue)
        (fun ivs n => by cases LoweredOp <;> rfl) shape [] _
    · exact countOps_isAffineFor_loopNest (unaryBody LoweredOp lhs rewriter.nextValue)
        (fun ivs n => by cases LoweredOp <;> rfl) shape [] _
    · intro h; subst h; rfl

/-- C5: `convertTensorToMemRef` succeeds on every ranked tensor type, of any rank, with
the memref type of the same element type and the same shape (same rank, same
extents in order), and it fails exactly on unranked tensor types. -/
theorem convertTensorToMemRef_total_on_ranked (type : TensorType) (shape : List Int)
    (elementType : ElementType) :
    convertTensorToMemRef { shape := some shape, elementType := elementType } =
        some { shape := shape, elementType := elementType } ∧
      (convertTensorToMemRef type = none ↔ type.shape = none) ∧
      (∀ memRefType, convertTensorToMemRef type = some memRefType ↔
        (type.shape = some memRefType.shape ∧ type.elementType = memRefType.elementType)) := by
  refine ⟨rfl, ?_, ?_⟩
  · cases type with
    | mk s e => cases s <;> simp [convertTensorToMemRef]
  · intro memRefType
    cases type with
    | mk s e =>
      cases memRefType with
      | mk s' e' =>
        cases s <;> simp [convertTensorToMemRef]

/-- C6: one call of `insertAllocAndDealloc` with the insertion point before an
operation of the block adds exactly two operations: the allocation of the
returned buffer becomes the first operation of the block and its deallocation
stands directly before the operation that was last; the other operations are
the old block in the old order. -/
theorem insertAllocAndDealloc_places_alloc_and_dealloc (type : MemRefType)
    (rewriter : PatternRewriter) (hpoint : rewriter.after ≠ []) :
    ∃ front last,
      rewriter.block = front ++ [last] ∧
      (insertAllocAndDealloc type rewriter).2.block =
        Op.alloc (insertAllocAndDealloc type rewriter).1 type :: front ++
          [Op.dealloc (insertAllocAndDealloc type rewriter).1, last] ∧
      (insertAllocAndDealloc type rewriter).2.block.length = rewriter.block.length + 2 ∧
      (insertAllocAndDealloc type rewriter).2.block.head? =
        some (Op.alloc (insertAllocAndDealloc type rewriter).1 type) ∧
      (insertAllocAndDealloc type rewriter).2.after.head? = rewriter.after.head? := by
  by_cases h : rewriter.after.length ≤ 1
  · obtain ⟨x, hx⟩ : ∃ x, rewriter.after = [x] := by
      match hafter : rewriter.after, hpoint, h with
      | [x], _, _ => exact ⟨x, rfl⟩
      | _ :: _ :: _, _, h => simp at h
    rw [insertAllocAndDealloc_short type rewriter h]
    refine ⟨rewriter.before, x, by simp [PatternRewriter.block, hx], ?_, ?_, ?_, ?_⟩
    · simp [PatternRewriter.block, hx]
    · simp [PatternRewriter.block, hx]
    · simp [PatternRewriter.block]
    · rfl
  · obtain ⟨a, mid, last, hl⟩ := exists_cons_concat rewriter.after (by omega)
    rw [insertAllocAndDealloc_inner type rewriter mid a last hl]
    refine ⟨rewriter.before ++ a :: mid, last, by simp [PatternRewriter.block, hl], ?_, ?_, ?_, ?_⟩
    · simp [PatternRewriter.block]
    · simp [PatternRewriter.block, hl]; omega
    · simp [PatternRewriter.block]
    · simp [hl]

/-! ## The scalar compute steps -/

/-- C8: the compute step of rectify is `arith.maxf` whose first operand is the loaded
element and whose second is an f64 constant of bit pattern zero (0.0); the
compute step of the positivity test is `arith.cmpf` with predicate OGT on the
loaded element and such a constant. -/
theorem relu_and_gt0_compute_steps (builder : PatternRewriter) (operand : Value)
    (rest ivs : List Value) :
    unaryLowering TinyGradKind.relu = some ScalarOp.maxf ∧
    unaryLowering TinyGradKind.gt0 = some ScalarOp.cmpf ∧
    apzero.bits = 0 ∧
    unaryIteration ScalarOp.maxf builder (operand :: rest) ivs =
      some (builder.nextValue + 2,
        { builder with
            before := builder.before ++
              [Op.affineLoad builder.nextValue operand ivs,
               Op.constant (builder.nextValue + 1) (Attribute.float apzero ElementType.f64),
               Op.scalar (builder.nextValue + 2) ScalarOp.maxf none
                 [builder.nextValue, builder.nextValue + 1]],
            nextValue := builder.nextValue + 3 }) ∧
    unaryIteration ScalarOp.cmpf builder (operand :: rest) ivs =
      some (builder.nextValue + 2,
        { builder with
            before := builder.before ++
              [Op.affineLoad builder.nextValue operand ivs,
               Op.constant (builder.nextValue + 1) (Attribute.float apzero ElementType.f64),
               Op.scalar (builder.nextValue + 2) ScalarOp.cmpf (some CmpFPredicate.OGT)
                 [builder.nextValue, builder.nextValue + 1]],
            nextValue := builder.nextValue + 3 }) := by
  refine ⟨rfl, rfl, rfl, ?_, ?_⟩ <;>
    simp [unaryIteration, buildLoweredUnaryOp, PatternRewriter.create]

/-- C9, as the code has it: lowering a rectify or positivity-test operation of any
shape creates exactly one zero constant, and it is the second operation of
the body that the loop nest repeats (directly behind the load); when the rank
is not zero no zero constant stands outside the loops. -/
theorem zero_constant_once_in_innermost_body (op : Operation) (rewriter : PatternRewriter)
    (shape : List Int) (elementType : ElementType) (kind : TinyGradKind)
    (operand : Value) (rest : List Value)
    (hkind : kind = TinyGradKind.relu ∨ kind = TinyGradKind.gt0)
    (htype : op.tensorType = some { shape := some shape, elementType := elementType }) :
    ∃ LoweredOp predicate rewriter' pre code,
      unaryLowering kind = some LoweredOp ∧
      UnaryOpLowering.matchAndRewrite LoweredOp op (operand :: rest) rewriter = some rewriter' ∧
      (pre = [] ∨ pre = [Op.dealloc rewriter.nextValue]) ∧
      rewriter'.before =
        Op.alloc rewriter.nextValue ⟨shape, elementType⟩ :: rewriter.before ++ pre ++ code ∧
      code = loopNest (unaryBody LoweredOp operand rewriter.nextValue) shape []
        (rewriter.nextValue + 1) ∧
      (∀ ivs n, unaryBody LoweredOp operand rewriter.nextValue ivs n =
        [Op.affineLoad n operand ivs,
         Op.constant (n + 1) (Attribute.float apzero ElementType.f64),
         Op.scalar (n + 2) LoweredOp predicate [n, n + 1],
         Op.affineStore (n + 2) rewriter.nextValue ivs]) ∧
      countOps Op.isZeroConstant code = 1 ∧
      (shape ≠ [] → ∀ o ∈ code, o.isZeroConstant = false) := by
  have key : ∀ LoweredOp predicate, (LoweredOp = ScalarOp.maxf ∧ predicate = none) ∨
      (LoweredOp = ScalarOp.cmpf ∧ predicate = some CmpFPredicate.OGT) →
      ∃ rewriter' pre code,
      UnaryOpLowering.matchAndRewrite LoweredOp op (operand :: rest) rewriter = some rewriter' ∧
      (pre = [] ∨ pre = [Op.dealloc rewriter.nextValue]) ∧
      rewriter'.before =
        Op.alloc rewriter.nextValue ⟨shape, elementType⟩ :: rewriter.before ++ pre ++ code ∧
      code = loopNest (unaryBody LoweredOp operand rewriter.nextValue) shape []
        (rewriter.nextValue + 1) ∧
      (∀ ivs n, unaryBody LoweredOp operand rewriter.nextValue ivs n =
        [Op.affineLoad n operand ivs,
         Op.constant (n + 1) (Attribute.float apzero ElementType.f64),
         Op.scalar (n + 2) LoweredOp predicate [n, n + 1],
         Op.affineStore (n + 2) rewriter.nextValue ivs]) ∧
      countOps Op.isZeroConstant code = 1 ∧
      (shape ≠ [] → ∀ o ∈ code, o.isZeroConstant = false) := by
    intro LoweredOp predicate hT
    obtain ⟨pre, post, hpre, _, heq⟩ := lowerOpToLoops_eq op (operand :: rest) rewriter
      (unaryIteration LoweredOp) shape elementType
      (unaryBody LoweredOp operand) (unaryValues LoweredOp) htype
      (fun alloc bld ivs => unaryIteration_eq _ _ _ _ _ _)
    have hbody : ∀ ivs n, unaryBody LoweredOp operand rewriter.nextValue ivs n =
        [Op.affineLoad n operand ivs,
         Op.constant (n + 1) (Attribute.float apzero ElementType.f64),
         Op.scalar (n + 2) LoweredOp predicate [n, n + 1],
         Op.affineStore (n + 2) rewriter.nextValue ivs] := by
      intro ivs n
      rcases hT with ⟨rfl, rfl⟩ | ⟨rfl, rfl⟩ <;> rfl
    refine ⟨_, pre, _, heq, hpre, by simp, rfl, hbody, ?_, ?_⟩
    · apply countOps_loopNest Op.isZeroConstant _ 1 (fun _ _ _ _ _ => rfl) rfl
      intro ivs n
      rw [hbody]
      simp [countOps, Op.count, Op.isZeroConstant]
    · intro hshape o ho
      cases shape with
      | nil => exact absurd rfl hshape
      | cons d ds =>
        simp only [loopNest, List.mem_singleton] at ho
        subst ho
        rfl
  rcases hkind with rfl | rfl
  · obtain ⟨r, pre, code, h⟩ := key ScalarOp.maxf none (Or.inl ⟨rfl, rfl⟩)
    exact ⟨ScalarOp.maxf, none, r, pre, code, rfl, h⟩
  · obtain ⟨r, pre, code, h⟩ := key ScalarOp.cmpf (some CmpFPredicate.OGT) (Or.inr ⟨rfl, rfl⟩)
    exact ⟨ScalarOp.cmpf, some CmpFPredicate.OGT, r, pre, code, rfl, h⟩

/-- C9 fails as stated: lowering a rectify operation of shape (2) puts the zero
constant into the body of the loop, between the load and the `maxf`, so it is
part of the code executed on each iteration, and no zero constant stands
outside the loop. -/
theorem zero_constant_in_loop_body_example :
    ∃ body,
      (UnaryOpLowering.matchAndRewrite ScalarOp.maxf exampleRelu [0] exampleReluRewriter).map
          (fun r => r.before) =
        some [Op.alloc 2 { shape := [2], elementType := ElementType.f64 },
              Op.affineFor 3 0 2 1 body] ∧
      body =
        [Op.affineLoad 4 0 [3],
         Op.constant 5 (Attribute.float apzero ElementType.f64),
         Op.scalar 6 ScalarOp.maxf none [4, 5],
         Op.affineStore 6 2 [3],
         Op.affineYield] ∧
      countOps Op.isZeroConstant body = 1 ∧
      (body[1]?).map Op.isZeroConstant = some true :=
  ⟨_, rfl, rfl, rfl, rfl⟩

/-- C10: each of add, sub, mul, div, pow is lowered with the binary float operation
of its name applied to (loaded lhs, loaded rhs) in that order, equality-compare
with `cmpf` under predicate OEQ on the same two values, and negate,
exponential, logarithm with the unary float operation of their name on the
loaded element; distinct kinds get distinct scalar operations. -/
theorem direct_scalar_compute_steps (builder : PatternRewriter) (lhs rhs : Value)
    (rest ivs : List Value) :
    binaryLowering TinyGradKind.add = some ScalarOp.addf ∧
    binaryLowering TinyGradKind.sub = some ScalarOp.subf ∧
    binaryLowering TinyGradKind.mul = some ScalarOp.mulf ∧
    binaryLowering TinyGradKind.div = some ScalarOp.divf ∧
    binaryLowering TinyGradKind.pow = some ScalarOp.powf ∧
    binaryLowering TinyGradKind.cmpEq = some ScalarOp.cmpf ∧
    unaryLowering TinyGradKind.neg = some ScalarOp.negf ∧
    unaryLowering TinyGradKind.exp = some ScalarOp.exp ∧
    unaryLowering TinyGradKind.log = some ScalarOp.log ∧
    (∀ LoweredOp : ScalarOp,
      binaryIteration LoweredOp builder (lhs :: rhs :: rest) ivs =
        some (builder.nextValue + 2,
          { builder with
              before := builder.before ++
                [Op.affineLoad builder.nextValue lhs ivs,
                 Op.affineLoad (builder.nextValue + 1) rhs ivs,
                 Op.scalar (builder.nextValue + 2) LoweredOp
                   (if LoweredOp = ScalarOp.cmpf then some CmpFPredicate.OEQ else none)
                   [builder.nextValue, builder.nextValue + 1]],
              nextValue := builder.nextValue + 3 })) ∧
    (∀ LoweredOp : ScalarOp, LoweredOp ≠ ScalarOp.maxf → LoweredOp ≠ ScalarOp.cmpf →
      unaryIteration LoweredOp builder (lhs :: rest) ivs =
        some (builder.nextValue + 1,
          { builder with
              before := builder.before ++
                [Op.affineLoad builder.nextValue lhs ivs,
                 Op.scalar (builder.nextValue + 1) LoweredOp none [builder.nextValue]],
              nextValue := builder.nextValue + 2 })) ∧
    (∀ k1 k2 LoweredOp, binaryLowering k1 = some LoweredOp →
      binaryLowering k2 = some LoweredOp → k1 = k2) ∧
    (∀ k1 k2 LoweredOp, unaryLowering k1 = some LoweredOp →
      unaryLowering k2 = some LoweredOp → k1 = k2) := by
  refine ⟨rfl, rfl, rfl, rfl, rfl, rfl, rfl, rfl, rfl, ?_, ?_, ?_, ?_⟩
  · intro LoweredOp
    cases LoweredOp <;>
      simp [binaryIteration, buildLoweredBinaryOp, PatternRewriter.create]
  · intro LoweredOp h1 h2
    cases LoweredOp <;>
      first
        | exact absurd rfl h1
        | exact absurd rfl h2
        | simp [unaryIteration, buildLoweredUnaryOp, PatternRewriter.create]
  · intro k1 k2 LoweredOp h1 h2
    cases k1 <;> simp [binaryLowering] at h1 <;> subst h1 <;> cases k2 <;>
      simp [binaryLowering] at h2 ⊢
  · intro k1 k2 LoweredOp h1 h2
    cases k1 <;> simp [unaryLowering] at h1 <;> subst h1 <;> cases k2 <;>
      simp [unaryLowering] at h2 ⊢

/-! ## Buffer lifetime across several introductions -/

theorem countP_buffer_eq_one (f : Nat × MemRefType → Op) (g : Op → Option Nat)
    (hfg : ∀ b, g (f b) = some b.1) :
    ∀ (buffers : List (Nat × MemRefType)) (b : Nat × MemRefType),
      (buffers.map Prod.fst).Nodup → b ∈ buffers →
      (buffers.map f).countP (fun o => decide (g o = some b.1)) = 1 := by
  intro buffers
  induction buffers with
  | nil => intro b _ hb; simp at hb
  | cons x xs ih =>
    intro b hnodup hb
    simp only [List.map_cons, List.nodup_cons] at hnodup
    rw [List.map_cons, List.countP_cons]
    rcases List.mem_cons.1 hb with rfl | hmem
    · have hzero : (xs.map f).countP (fun o => decide (g o = some b.1)) = 0 := by
        rw [List.countP_eq_zero]
        intro o ho
        rw [List.mem_map] at ho
        obtain ⟨y, hy, rfl⟩ := ho
        simp only [hfg, Option.some.injEq, decide_eq_true_eq]
        intro hyb
        exact hnodup.1 (by rw [← hyb]; exact List.mem_map_of_mem _ hy)
      simp [hzero, hfg]
    · have hne : x.1 ≠ b.1 := by
        intro h
        exact hnodup.1 (by rw [h]; exact List.mem_map_of_mem _ hmem)
      rw [ih b hnodup.2 hmem]
      simp [hfg, hne]

theorem countP_eq_zero_of_none (g : Op → Option Nat) (l : List Op) (v : Nat)
    (h : ∀ o ∈ l, g o ≠ some v) : l.countP (fun o => decide (g o = some v)) = 0 := by
  rw [List.countP_eq_zero]
  intro o ho
  simpa using h o ho

/-- Where the allocation and deallocation of each buffer stand in a block of the
form allocations, other operations, deallocations, terminator. -/
theorem lifetime_block_positions (buffers : List (Nat × MemRefType)) (middle : List Op)
    (term : Op) (hnodup : (buffers.map Prod.fst).Nodup)
    (hfresh : ∀ o ∈ middle ++ [term], ∀ b ∈ buffers,
      o.allocated ≠ some b.1 ∧ o.freed ≠ some b.1)
    (j : Nat) (b : Nat × MemRefType) (hj : buffers[j]? = some b) :
    (allocsOf buffers ++ middle ++ deallocsOf buffers ++ [term]).countP
        (fun o => decide (o.allocated = some b.1)) = 1 ∧
    (allocsOf buffers ++ middle ++ deallocsOf buffers ++ [term])[buffers.length - 1 - j]? =
      some (Op.alloc b.1 b.2) ∧
    (allocsOf buffers ++ middle ++ deallocsOf buffers ++ [term]).countP
        (fun o => decide (o.freed = some b.1)) = 1 ∧
    (allocsOf buffers ++ middle ++ deallocsOf buffers ++ [term])[
        (allocsOf buffers ++ middle ++ deallocsOf buffers ++ [term]).length - 1 -
          (buffers.length - j)]? = some (Op.dealloc b.1) := by
  have hjlt : j < buffers.length := by
    rcases Nat.lt_or_ge j buffers.length with h | h
    · exact h
    · rw [List.getElem?_eq_none h] at hj; cases hj
  have hmem : b ∈ buffers := by
    rw [List.getElem?_eq_getElem hjlt] at hj
    cases hj
    exact List.getElem_mem _
  have hla : (allocsOf buffers).length = buffers.length := by simp [allocsOf]
  have hld : (deallocsOf buffers).length = buffers.length := by simp [deallocsOf]
  refine ⟨?_, ?_, ?_, ?_⟩
  · rw [List.append_assoc, List.append_assoc, List.countP_append, List.countP_append]
    have h1 : (allocsOf buffers).countP (fun o => decide (o.allocated = some b.1)) = 1 := by
      unfold allocsOf
      apply countP_buffer_eq_one (fun b => Op.alloc b.1 b.2) Op.allocated (fun _ => rfl)
        buffers.reverse b
      · rw [List.map_reverse]; exact List.nodup_reverse.2 hnodup
      · exact List.mem_reverse.2 hmem
    have h2 : middle.countP (fun o => decide (o.allocated = some b.1)) = 0 :=
      countP_eq_zero_of_none _ _ _
        (fun o ho => (hfresh o (List.mem_append_left _ ho) b hmem).1)
    have h3 : (deallocsOf buffers ++ [term]).countP
        (fun o => decide (o.allocated = some b.1)) = 0 := by
      apply countP_eq_zero_of_none
      intro o ho
      rcases List.mem_append.1 ho with h | h
      · simp only [deallocsOf, List.mem_map] at h
        obtain ⟨y, _, rfl⟩ := h
        simp [Op.allocated]
      · exact (hfresh o (List.mem_append_right _ h) b hmem).1
    rw [h1, h2, h3]
  · rw [List.append_assoc, List.append_assoc,
      List.getElem?_append_left (by rw [hla]; omega)]
    unfold allocsOf
    rw [List.getElem?_map, List.getElem?_reverse (by omega)]
    have : buffers.length - 1 - (buffers.length - 1 - j) = j := by omega
    rw [this, hj]
    rfl
  · rw [List.append_assoc, List.append_assoc, List.countP_append, List.countP_append,
      List.countP_append]
    have h1 : (allocsOf buffers).countP (fun o => decide (o.freed = some b.1)) = 0 := by
      apply countP_eq_zero_of_none
      intro o ho
      simp only [allocsOf, List.mem_map] at ho
      obtain ⟨y, _, rfl⟩ := ho
      simp [Op.freed]
    have h2 : middle.countP (fun o => decide (o.freed = some b.1)) = 0 :=
      countP_eq_zero_of_none _ _ _
        (fun o ho => (hfresh o (List.mem_append_left _ ho) b hmem).2)
    have h3 : (deallocsOf buffers).countP (fun o => decide (o.freed = some b.1)) = 1 := by
      unfold deallocsOf
      exact countP_buffer_eq_one (fun b => Op.dealloc b.1) Op.freed (fun _ => rfl) buffers b
        hnodup hmem
    have h4 : [term].countP (fun o => decide (o.freed = some b.1)) = 0 :=
      countP_eq_zero_of_none _ _ _
        (fun o ho => (hfresh o (List.mem_append_right _ ho) b hmem).2)
    rw [h1, h2, h3, h4]
  · have hlen : (allocsOf buffers ++ middle ++ deallocsOf buffers ++ [term]).length =
        buffers.length + middle.length + buffers.length + 1 := by
      simp [hla, hld]; omega
    rw [hlen]
    have hidx : buffers.length + middle.length + buffers.length + 1 - 1 - (buffers.length - j) =
        (allocsOf buffers ++ middle).length + j := by
      simp [hla]; omega
    rw [hidx, List.append_assoc (allocsOf buffers ++ middle),
      List.getElem?_append_right (by omega)]
    simp only [Nat.add_sub_cancel_left]
    rw [List.getElem?_append_left (by rw [hld]; exact hjlt)]
    unfold deallocsOf
    rw [List.getElem?_map, hj]
    rfl


theorem allocsOf_concat (buffers : List (Nat × MemRefType)) (b : Nat × MemRefType) :
    allocsOf (buffers ++ [b]) = Op.alloc b.1 b.2 :: allocsOf buffers := by
  simp [allocsOf]

theorem deallocsOf_concat (buffers : List (Nat × MemRefType)) (b : Nat × MemRefType) :
    deallocsOf (buffers ++ [b]) = deallocsOf buffers ++ [Op.dealloc b.1] := by
  simp [deallocsOf]

/-- C7, as the code has it: in a block made of the allocations of the buffers
introduced so far (latest first), the other operations, the deallocations
(earliest first) and the terminator, introducing one more buffer keeps that
form.  Every introduced buffer then has exactly one allocation and one
deallocation in the block; the j-th of n buffers has its allocation at
position n-1-j and its deallocation n-j operations before the terminator, so
only the latest buffer is allocated at position 0 and deallocated directly
before the terminator. -/
theorem buffer_lifetime_layout (buffers : List (Nat × MemRefType)) (pre post : List Op)
    (root term : Op) (rewriter : PatternRewriter) (type : MemRefType)
    (hbefore : rewriter.before = allocsOf buffers ++ pre)
    (hafter : rewriter.after = root :: post ++ deallocsOf buffers ++ [term])
    (hfresh : ∀ o ∈ pre ++ root :: post ++ [term], ∀ v,
      (o.allocated = some v ∨ o.freed = some v) →
        v < rewriter.nextValue ∧ v ∉ buffers.map Prod.fst)
    (hbuffers : ∀ b ∈ buffers, b.1 < rewriter.nextValue)
    (hnodup : (buffers.map Prod.fst).Nodup) :
    ∃ buffers' rewriter',
      buffers' = buffers ++ [((insertAllocAndDealloc type rewriter).1, type)] ∧
      rewriter' = (insertAllocAndDealloc type rewriter).2 ∧
      rewriter'.before = allocsOf buffers' ++ pre ∧
      rewriter'.after = root :: post ++ deallocsOf buffers' ++ [term] ∧
      (∀ o ∈ pre ++ root :: post ++ [term], ∀ v,
        (o.allocated = some v ∨ o.freed = some v) →
          v < rewriter'.nextValue ∧ v ∉ buffers'.map Prod.fst) ∧
      (∀ b ∈ buffers', b.1 < rewriter'.nextValue) ∧
      (buffers'.map Prod.fst).Nodup ∧
      ∀ j b, buffers'[j]? = some b →
        rewriter'.block.countP (fun o => decide (o.allocated = some b.1)) = 1 ∧
        rewriter'.block[buffers'.length - 1 - j]? = some (Op.alloc b.1 b.2) ∧
        rewriter'.block.countP (fun o => decide (o.freed = some b.1)) = 1 ∧
        rewriter'.block[rewriter'.block.length - 1 - (buffers'.length - j)]? =
          some (Op.dealloc b.1) := by
  have hl : rewriter.after = root :: (post ++ deallocsOf buffers) ++ [term] := by
    rw [hafter]; simp
  have hins := insertAllocAndDealloc_inner type rewriter _ root term hl
  have hnodup' : ((buffers ++ [(rewriter.nextValue, type)]).map Prod.fst).Nodup := by
    rw [List.map_append, List.nodup_append]
    refine ⟨hnodup, by simp, ?_⟩
    intro v hv hv'
    simp only [List.map_cons, List.map_nil, List.mem_singleton] at hv'
    subst hv'
    rw [List.mem_map] at hv
    obtain ⟨b, hb, hbv⟩ := hv
    have := hbuffers b hb
    omega
  have hbuffers' : ∀ b ∈ buffers ++ [(rewriter.nextValue, type)], b.1 < rewriter.nextValue + 1 := by
    intro b hb
    rcases List.mem_append.1 hb with h | h
    · have := hbuffers b h; omega
    · simp only [List.mem_singleton] at h
      subst h
      exact Nat.lt_succ_self _
  have hb' : Op.alloc rewriter.nextValue type :: rewriter.before =
      allocsOf (buffers ++ [(rewriter.nextValue, type)]) ++ pre := by
    rw [allocsOf_concat, hbefore]; rfl
  have ha' : root :: (post ++ deallocsOf buffers) ++ [Op.dealloc rewriter.nextValue, term] =
      root :: post ++ deallocsOf (buffers ++ [(rewriter.nextValue, type)]) ++ [term] := by
    rw [deallocsOf_concat]; simp
  refine ⟨buffers ++ [(rewriter.nextValue, type)], (insertAllocAndDealloc type rewriter).2,
    by rw [hins], rfl, ?_, ?_, ?_, ?_, hnodup', ?_⟩
  · rw [hins]; exact hb'
  · rw [hins]; exact ha'
  · intro o ho v hv
    rw [hins]
    obtain ⟨hlt, hnot⟩ := hfresh o ho v hv
    refine ⟨Nat.lt_succ_of_lt hlt, ?_⟩
    rw [List.map_append, List.mem_append]
    rintro (h | h)
    · exact hnot h
    · simp only [List.map_cons, List.map_nil, List.mem_singleton] at h
      subst h
      exact Nat.lt_irrefl _ hlt
  · rw [hins]; exact hbuffers'
  · intro j b hj
    have hblock : (insertAllocAndDealloc type rewriter).2.block =
        allocsOf (buffers ++ [(rewriter.nextValue, type)]) ++ (pre ++ root :: post) ++
          deallocsOf (buffers ++ [(rewriter.nextValue, type)]) ++ [term] := by
      rw [hins]
      simp only [PatternRewriter.block]
      rw [hb', ha']
      simp
    rw [hblock]
    apply lifetime_block_positions _ _ _ hnodup' _ j b hj
    intro o ho c hc
    have hc' := hbuffers' c hc
    have ho' : o ∈ pre ++ root :: post ++ [term] := by simpa using ho
    rcases List.mem_append.1 hc with h | h
    · constructor
      · intro h1
        exact (hfresh o ho' c.1 (Or.inl h1)).2 (List.mem_map_of_mem _ h)
      · intro h1
        exact (hfresh o ho' c.1 (Or.inr h1)).2 (List.mem_map_of_mem _ h)
    · simp only [List.mem_singleton] at h
      subst h
      constructor
      · intro h1
        exact Nat.lt_irrefl _ (hfresh o ho' _ (Or.inl h1)).1
      · intro h1
        exact Nat.lt_irrefl _ (hfresh o ho' _ (Or.inr h1)).1

/-- C7 fails as stated: after lowering two constants of one block (buffers 2 and 5),
the allocation of the first buffer stands at position 1, behind the
allocation of the second, and its deallocation is followed by the other
deallocation before the terminator; so not every introduced buffer is
allocated at position 0 and deallocated directly before the terminator. -/
theorem two_buffers_not_both_first :
    ((ConstantOpLowering.matchAndRewrite exampleScalarA exampleTwoConstants).bind
        (ConstantOpLowering.matchAndRewrite exampleScalarB)).map
        (fun r => (r.block, r.replaced)) = some (exampleTwoConstantsLowered, [(0, 2), (1, 5)]) ∧
      ¬ (∀ buffer ∈ [2, 5],
          (exampleTwoConstantsLowered[0]?).bind Op.allocated = some buffer ∧
          (exampleTwoConstantsLowered[exampleTwoConstantsLowered.length - 2]?).bind Op.freed =
            some buffer) := by
  refine ⟨rfl, ?_⟩
  intro h
  have h2 := (h 2 (by simp)).1
  simp [exampleTwoConstantsLowered, Op.allocated] at h2

/-! ## Sample runs -/

/-- The constant of shape (2,3) with values 1 to 6 is lowered to the stores
1 at (0,0), 2 at (0,1), 3 at (0,2), 4 at (1,0), 5 at (1,1), 6 at (1,2). -/
theorem constant_example_2x3 :
    (ConstantOpLowering.matchAndRewrite exampleConstant exampleRewriter).map
        (fun r => scalarStores r.before 1) =
      some [storeOf ElementType.f64 { bits := 0x3FF0000000000000 } [0, 0],
            storeOf ElementType.f64 { bits := 0x4000000000000000 } [0, 1],
            storeOf ElementType.f64 { bits := 0x4008000000000000 } [0, 2],
            storeOf ElementType.f64 { bits := 0x4010000000000000 } [1, 0],
            storeOf ElementType.f64 { bits := 0x4014000000000000 } [1, 1],
            storeOf ElementType.f64 { bits := 0x4018000000000000 } [1, 2]] := by
  rfl

/-- The row-major theorem at the constant of shape (2,3) with values 1 to 6. -/
theorem constant_stores_follow_row_major_witness :
    exampleConstant.tensorType =
        some { shape := some ([2, 3].map Int.ofNat), elementType := ElementType.f64 } ∧
      (∀ d ∈ [2, 3], d < 2 ^ 63) ∧
      exampleConstant.value.values.length = [2, 3].prod ∧
      ∃ rewriter' emitted,
        ConstantOpLowering.matchAndRewrite exampleConstant exampleRewriter = some rewriter' ∧
        rewriter'.before =
          Op.alloc exampleRewriter.nextValue ⟨[2, 3].map Int.ofNat, ElementType.f64⟩ ::
            exampleRewriter.before ++ emitted ∧
        scalarStores emitted exampleRewriter.nextValue =
          (List.zip exampleConstant.value.values (rowMajor [2, 3])).map
            (fun p => storeOf exampleConstant.value.type.elementType p.1 p.2) ∧
        ∀ t, InBox t [2, 3] →
          ∃ v, exampleConstant.value.values[flatPosition [2, 3] t]? = some v ∧
            (scalarStores emitted exampleRewriter.nextValue)[flatPosition [2, 3] t]? =
              some (storeOf exampleConstant.value.type.elementType v t) :=
  ⟨rfl, by decide, rfl,
    constant_stores_follow_row_major exampleConstant exampleRewriter [2, 3] ElementType.f64 rfl
      (by decide) rfl⟩

/-- The count and coverage theorem at the constant of shape (2,3): six stores at
distinct tuples. -/
theorem constant_store_count_and_coverage_witness :
    exampleConstant.tensorType =
        some { shape := some ([2, 3].map Int.ofNat), elementType := ElementType.f64 } ∧
      (∀ d ∈ [2, 3], d < 2 ^ 63) ∧
      exampleConstant.value.values.length = [2, 3].prod ∧
      ∃ rewriter' emitted,
        ConstantOpLowering.matchAndRewrite exampleConstant exampleRewriter = some rewriter' ∧
        emitted.countP Op.isAffineStore = 6 ∧
        (scalarStores emitted exampleRewriter.nextValue).length = 6 ∧
        ((scalarStores emitted exampleRewriter.nextValue).map Prod.snd).Nodup :=
  ⟨rfl, by decide, rfl, by
    obtain ⟨r, e, h1, _, h3, h4, _, _, h7, _⟩ :=
      constant_store_count_and_coverage exampleConstant exampleRewriter [2, 3] ElementType.f64
        rfl (by decide) rfl
    exact ⟨r, e, h1, h3, h4, h7⟩⟩

/-- The pointwise theorem at an addition of two buffers of shape (2,3): the result
holds the sum of coordinates plus 10 at every tuple. -/
theorem float_kinds_compute_pointwise_at_add :
    ScalarOp.addf ≠ ScalarOp.cmpf ∧
      exampleAdd.tensorType =
        some { shape := some ([2, 3].map Int.ofNat), elementType := ElementType.f64 } ∧
      2 ≤ exampleAddRewriter.after.length ∧
      0 < exampleAddRewriter.nextValue ∧ 1 < exampleAddRewriter.nextValue ∧
      exampleMachine.mem 0 = some exampleBufferA ∧
      exampleBufferA.shape = [2, 3].map Int.ofNat ∧
      exampleBufferA.elementType = ElementType.f64 ∧
      exampleMachine.mem 1 = some exampleBufferB ∧
      exampleBufferB.shape = [2, 3].map Int.ofNat ∧
      exampleBufferB.elementType = ElementType.f64 ∧
      ∃ rewriter' code m' R,
        BinaryOpLowering.matchAndRewrite ScalarOp.addf exampleAdd [0, 1] exampleAddRewriter =
          some rewriter' ∧
        rewriter'.before =
          Op.alloc 3 ⟨[2, 3].map Int.ofNat, ElementType.f64⟩ :: exampleAddRewriter.before ++ code ∧
        execOps exampleSem (Op.alloc 3 ⟨[2, 3].map Int.ofNat, ElementType.f64⟩ :: code)
          exampleMachine = some m' ∧
        m'.trace = (tuplesAt [] [2, 3]).flatMap (fun u =>
          [Access.load 0 u, Access.load 1 u, Access.store 3 u]) ∧
        m'.mem 3 = some R ∧
        ∀ u ∈ tuplesAt [] [2, 3], R.data u = u.sum + 10 :=
  ⟨by decide, rfl, by decide, by decide, by decide, rfl, rfl, rfl, rfl, rfl, rfl, by
    obtain ⟨⟨r, code, m', R, h1, h2, h3, h4, _, h6, _, h8⟩, _⟩ :=
      float_kinds_compute_pointwise exampleSem exampleAdd exampleAddRewriter [2, 3]
        ScalarOp.addf 0 1 exampleBufferA exampleBufferB exampleMachine (by decide) rfl
        (by decide) (by decide) (by decide) rfl rfl rfl rfl rfl rfl
    exact ⟨r, code, m', R, h1, h2, h3, h4, h6, h8⟩⟩

/-- The nest theorem at an addition of shape (2,3): two loops, over [0,2) and [0,3). -/
theorem lowerOpToLoops_buffer_and_nest_witness :
    exampleAdd.tensorType =
        some { shape := some [2, 3], elementType := ElementType.f64 } ∧
      ∃ rewriter' pre code,
        BinaryOpLowering.matchAndRewrite ScalarOp.addf exampleAdd [0, 1] exampleAddRewriter =
          some rewriter' ∧
        rewriter'.before =
          Op.alloc 3 ⟨[2, 3], ElementType.f64⟩ :: exampleAddRewriter.before ++ pre ++ code ∧
        nestBoundsOf code = [(0, 2, 1), (0, 3, 1)] ∧
        countOps Op.isAffineFor code = 2 :=
  ⟨rfl, by
    obtain ⟨⟨r, pre, code, h1, _, h3, _, h5, h6, _⟩, _⟩ :=
      lowerOpToLoops_buffer_and_nest exampleAdd exampleAddRewriter [2, 3] ElementType.f64
        ScalarOp.addf 0 1 [] rfl
    exact ⟨r, pre, code, h1, h3, h5, h6⟩⟩

/-- The placement theorem at the sample block of one constant and a terminator. -/
theorem insertAllocAndDealloc_places_alloc_and_dealloc_witness :
    exampleRewriter.after ≠ [] ∧
      ∃ front last,
        exampleRewriter.block = front ++ [last] ∧
        (insertAllocAndDealloc ⟨[2, 3], ElementType.f64⟩ exampleRewriter).2.block =
          Op.alloc 1 ⟨[2, 3], ElementType.f64⟩ :: front ++ [Op.dealloc 1, last] :=
  ⟨by simp [exampleRewriter], by
    obtain ⟨front, last, h1, h2, _⟩ :=
      insertAllocAndDealloc_places_alloc_and_dealloc ⟨[2, 3], ElementType.f64⟩ exampleRewriter
        (by simp [exampleRewriter])
    exact ⟨front, last, h1, h2⟩⟩

/-- The zero-constant theorem at a rectify operation of shape (2): one zero constant,
none of it outside the loop. -/
theorem zero_constant_once_in_innermost_body_witness :
    (TinyGradKind.relu = TinyGradKind.relu ∨ TinyGradKind.relu = TinyGradKind.gt0) ∧
      exampleRelu.tensorType = some { shape := some [2], elementType := ElementType.f64 } ∧
      ∃ LoweredOp rewriter' pre code,
        unaryLowering TinyGradKind.relu = some LoweredOp ∧
        UnaryOpLowering.matchAndRewrite LoweredOp exampleRelu [0] exampleReluRewriter =
          some rewriter' ∧
        rewriter'.before =
          Op.alloc 2 ⟨[2], ElementType.f64⟩ :: exampleReluRewriter.before ++ pre ++ code ∧
        countOps Op.isZeroConstant code = 1 ∧
        (∀ o ∈ code, o.isZeroConstant = false) :=
  ⟨Or.inl rfl, rfl, by
    obtain ⟨T, _, r, pre, code, h1, h2, _, h4, _, _, h7, h8⟩ :=
      zero_constant_once_in_innermost_body exampleRelu exampleReluRewriter [2] ElementType.f64
        TinyGradKind.relu 0 [] (Or.inl rfl) rfl
    exact ⟨T, r, pre, code, h1, h2, h4, h7, h8 (by simp)⟩⟩

/-- The layout theorem at the block left by lowering the first of two rank-0
constants, when the buffer of the second is introduced. -/
theorem buffer_lifetime_layout_witness :
    ∃ rewriter',
      ConstantOpLowering.matchAndRewrite exampleScalarA exampleTwoConstants = some rewriter' ∧
      rewriter'.before =
        allocsOf [(2, ⟨[], ElementType.f64⟩)] ++
          [Op.constant 3 (Attribute.index 0),
           Op.constant 4 (Attribute.float { bits := 0x3FF0000000000000 } ElementType.f64),
           Op.affineStore 4 2 []] ∧
      rewriter'.after =
        Op.tinygrad exampleScalarB :: [] ++ deallocsOf [(2, ⟨[], ElementType.f64⟩)] ++
          [Op.other 0 []] ∧
      ∃ buffers' final,
        buffers' = [(2, ⟨[], ElementType.f64⟩), (5, ⟨[], ElementType.f64⟩)] ∧
        final = (insertAllocAndDealloc ⟨[], ElementType.f64⟩ rewriter').2 ∧
        ∀ j b, buffers'[j]? = some b →
          final.block.countP (fun o => decide (o.allocated = some b.1)) = 1 ∧
          final.block[buffers'.length - 1 - j]? = some (Op.alloc b.1 b.2) ∧
          final.block.countP (fun o => decide (o.freed = some b.1)) = 1 ∧
          final.block[final.block.length - 1 - (buffers'.length - j)]? =
            some (Op.dealloc b.1) :=
  ⟨{ before := allocsOf [(2, ⟨[], ElementType.f64⟩)] ++
        [Op.constant 3 (Attribute.index 0),
         Op.constant 4 (Attribute.float { bits := 0x3FF0000000000000 } ElementType.f64),
         Op.affineStore 4 2 []],
     after := Op.tinygrad exampleScalarB :: [] ++ deallocsOf [(2, ⟨[], ElementType.f64⟩)] ++
        [Op.other 0 []],
     nextValue := 5,
     replaced := [(0, 2)] },
   rfl, rfl, rfl, by
    obtain ⟨buffers', r, h1, h2, _, _, _, _, _, h8⟩ :=
      buffer_lifetime_layout [(2, ⟨[], ElementType.f64⟩)]
        [Op.constant 3 (Attribute.index 0),
         Op.constant 4 (Attribute.float { bits := 0x3FF0000000000000 } ElementType.f64),
         Op.affineStore 4 2 []]
        [] (Op.tinygrad exampleScalarB) (Op.other 0 [])
        { before := allocsOf [(2, ⟨[], ElementType.f64⟩)] ++
            [Op.constant 3 (Attribute.index 0),
             Op.constant 4 (Attribute.float { bits := 0x3FF0000000000000 } ElementType.f64),
             Op.affineStore 4 2 []],
          after := Op.tinygrad exampleScalarB :: [] ++ deallocsOf [(2, ⟨[], ElementType.f64⟩)] ++
            [Op.other 0 []],
          nextValue := 5,
          replaced := [(0, 2)] }
        ⟨[], ElementType.f64⟩ rfl rfl
        (by
          intro o ho v hv
          simp only [List.cons_append, List.nil_append, List.mem_cons, List.mem_singleton,
            List.not_mem_nil, or_false] at ho
          rcases ho with rfl | rfl | rfl | rfl | rfl <;>
            simp [Op.allocated, Op.freed] at hv)
        (by simp) (by simp)
    exact ⟨buffers', r, h1, h2, h8⟩⟩

/-! ## Legality under the target of the pass -/

theorem target_getOpInfo_tinygrad (op : Operation) :
    target.getOpInfo (Op.tinygrad op) =
      if op.kind = TinyGradKind.print then some (LegalizationAction.Dynamic, some printIsLegal)
      else some (LegalizationAction.Illegal, none) := by
  by_cases h : op.kind = TinyGradKind.print
  · simp [ConversionTarget.getOpInfo, target, ConversionTarget.addDynamicallyLegalOp,
      ConversionTarget.addLegalDialect, ConversionTarget.addIllegalDialect, h]
  · have h' : ¬ TinyGradKind.print = op.kind := fun e => h e.symm
    simp [ConversionTarget.getOpInfo, target, ConversionTarget.addDynamicallyLegalOp,
      ConversionTarget.addLegalDialect, ConversionTarget.addIllegalDialect, h, h', Op.dialect]

theorem target_getOpInfo_of_dialect (o : Op) (h : o.dialect ≠ Dialect.tinygrad) :
    target.getOpInfo o = some (LegalizationAction.Legal, none) := by
  cases o with
  | tinygrad op => exact absurd rfl h
  | scalar res op predicate operands =>
    cases op <;>
      simp [ConversionTarget.getOpInfo, target, ConversionTarget.addDynamicallyLegalOp,
        ConversionTarget.addLegalDialect, ConversionTarget.addIllegalDialect, Op.dialect,
        ScalarOp.dialect]
  | other tag operands =>
    by_cases ht : tag = 0 <;>
      simp [ConversionTarget.getOpInfo, target, ConversionTarget.addDynamicallyLegalOp,
        ConversionTarget.addLegalDialect, ConversionTarget.addIllegalDialect, Op.dialect, ht]
  | _ =>
    simp [ConversionTarget.getOpInfo, target, ConversionTarget.addDynamicallyLegalOp,
      ConversionTarget.addLegalDialect, ConversionTarget.addIllegalDialect, Op.dialect]

theorem printIsLegal_eq_true (operandTypes : List Ty) :
    printIsLegal operandTypes = true ↔ ∀ t ∈ operandTypes, t.isTensor = false := by
  simp [printIsLegal]

/-- Illegality of an operation of the tensor dialect under the target of the pass. -/
theorem target_isIllegal_tinygrad (types : Value → Ty) (block : List Op) (op : Operation) :
    target.isIllegal types block (Op.tinygrad op) =
      if op.kind = TinyGradKind.print then
        !printIsLegal (op.operands.map (valueType types block))
      else true := by
  unfold ConversionTarget.isIllegal
  rw [target_getOpInfo_tinygrad]
  by_cases h : op.kind = TinyGradKind.print <;> simp [h, Op.operands]

/-- Only operations of the tensor dialect are illegal. -/
theorem target_isIllegal_of_not_tinygrad (types : Value → Ty) (block : List Op) (o : Op)
    (h : o.isTinygrad = false) : target.isIllegal types block o = false := by
  have hd : o.dialect ≠ Dialect.tinygrad := by
    cases o with
    | tinygrad op => simp [Op.isTinygrad] at h
    | scalar res op predicate operands => cases op <;> simp [Op.dialect, ScalarOp.dialect]
    | other tag operands => by_cases ht : tag = 0 <;> simp [Op.dialect, ht]
    | _ => simp [Op.dialect]
  unfold ConversionTarget.isIllegal
  rw [target_getOpInfo_of_dialect o hd]
  simp

/-- C11: under the target of the pass a print operation is legal exactly when none of
its operand types is a tensor type; every other operation of the tensor
dialect is illegal whatever its operands are; and every operation of the
affine, builtin, func, arith, math and memref dialects is legal. -/
theorem target_legality (types : Value → Ty) (block : List Op) :
    (∀ op : Operation, op.kind = TinyGradKind.print →
      (target.isLegal types block (Op.tinygrad op) = some true ↔
        ∀ v ∈ op.operands, (valueType types block v).isTensor = false) ∧
      (target.isLegal types block (Op.tinygrad op) = some false ↔
        ∃ v ∈ op.operands, (valueType types block v).isTensor = true)) ∧
    (∀ op : Operation, op.kind ≠ TinyGradKind.print →
      target.isLegal types block (Op.tinygrad op) = some false ∧
      target.isIllegal types block (Op.tinygrad op) = true) ∧
    (∀ o : Op,
      o.dialect ∈ [Dialect.affine, Dialect.builtin, Dialect.func, Dialect.arith,
        Dialect.math, Dialect.memref] →
      target.isLegal types block o = some true ∧ target.isIllegal types block o = false) := by
  refine ⟨?_, ?_, ?_⟩
  · intro op hk
    unfold ConversionTarget.isLegal
    rw [target_getOpInfo_tinygrad, if_pos hk]
    simp [printIsLegal, Op.operands]
  · intro op hk
    unfold ConversionTarget.isLegal ConversionTarget.isIllegal
    rw [target_getOpInfo_tinygrad, if_neg hk]
    simp
  · intro o ho
    have hd : o.dialect ≠ Dialect.tinygrad := by
      intro e
      rw [e] at ho
      simp at ho
    unfold ConversionTarget.isLegal ConversionTarget.isIllegal
    rw [target_getOpInfo_of_dialect o hd]
    simp

/-! ## The print pattern -/

theorem allocatedType_updateRoot (before rest : List Op) (op updated : Operation) (v : Value) :
    allocatedType (before ++ Op.tinygrad updated :: rest) v =
      allocatedType (before ++ Op.tinygrad op :: rest) v := by
  simp [allocatedType, List.findSome?_append, List.findSome?_cons]

theorem valueType_of_allocated (types : Value → Ty) (block : List Op) (v : Value)
    (type : MemRefType) (h : allocatedType block v = some type) :
    valueType types block v = Ty.memref type := by
  simp [valueType, h]

/-- Legality of an operation of the tensor dialect under the target of the pass. -/
theorem target_isLegal_tinygrad (types : Value → Ty) (block : List Op) (op : Operation) :
    target.isLegal types block (Op.tinygrad op) =
      some (if op.kind = TinyGradKind.print then
        printIsLegal (op.operands.map (valueType types block)) else false) := by
  unfold ConversionTarget.isLegal
  rw [target_getOpInfo_tinygrad]
  by_cases h : op.kind = TinyGradKind.print <;> simp [h, Op.operands]

/-- C12: a print operation at the insertion point with one tensor-typed operand whose
value has a buffer replacement is rewritten where it stands.  The operations
before and after it are the same, nothing is created (the value counter is
unchanged), nothing is erased or replaced (the replacement record is
unchanged); the operation is still a print with one operand, which now is the
replacement, a value of memref type.  The print was illegal before and is
legal afterwards. -/
theorem print_updated_in_place (types : Value → Ty) (op : Operation) (rest : List Op)
    (rewriter : PatternRewriter) (v buffer : Value) (type : MemRefType)
    (hkind : op.kind = TinyGradKind.print)
    (hroot : rewriter.after = Op.tinygrad op :: rest)
    (hoperands : op.operands = [v])
    (htensor : (valueType types rewriter.block v).isTensor = true)
    (hreplaced : rewriter.replaced.find? (fun e => decide (e.1 = v)) = some (v, buffer))
    (hbuffer : allocatedType rewriter.block buffer = some type) :
    ∃ updated : Operation,
      Pattern.print.matchAndRewrite op (remapValues rewriter.replaced op.operands) rewriter =
        some { before := rewriter.before,
               after := Op.tinygrad updated :: rest,
               nextValue := rewriter.nextValue,
               replaced := rewriter.replaced } ∧
      updated.kind = TinyGradKind.print ∧
      updated.operands = [buffer] ∧
      updated.operands.length = op.operands.length ∧
      updated.results = op.results ∧
      updated.loc = op.loc ∧
      valueType types (rewriter.before ++ Op.tinygrad updated :: rest) buffer = Ty.memref type ∧
      target.isIllegal types rewriter.block (Op.tinygrad op) = true ∧
      target.isLegal types (rewriter.before ++ Op.tinygrad updated :: rest)
        (Op.tinygrad updated) = some true := by
  have hb : allocatedType (rewriter.before ++ Op.tinygrad { op with operands := [buffer] } :: rest)
      buffer = some type := by
    rw [allocatedType_updateRoot rewriter.before rest op]
    rw [← hroot]
    exact hbuffer
  refine ⟨{ op with operands := [buffer] }, ?_, hkind, rfl, ?_, rfl, rfl, ?_, ?_, ?_⟩
  · simp [Pattern.matchAndRewrite, PrintOpLowering.matchAndRewrite,
      PatternRewriter.updateRootInPlace, hroot, remapValues, hoperands, hreplaced]
  · simp [hoperands]
  · exact valueType_of_allocated types _ _ _ hb
  · rw [target_isIllegal_tinygrad, if_pos hkind]
    simp [printIsLegal, hoperands, htensor]
  · rw [target_isLegal_tinygrad, if_pos hkind]
    simp [printIsLegal, valueType_of_allocated types _ _ _ hb, Ty.isTensor]

/-- C16: the pattern set of the pass holds thirteen patterns, exactly one for each of
the thirteen kinds of tensor operation, so none for anything else; the
binary and unary kinds are lowered with the scalar operation classes of the
aliases. -/
theorem patterns_one_for_each_kind :
    patterns.length = 13 ∧
    (∀ kind : TinyGradKind,
      (patterns.filter (fun pattern => decide (pattern.rootKind = kind))).length = 1) ∧
    (patterns.map Pattern.rootKind).Nodup ∧
    (∀ kind lowered, Pattern.binary kind lowered ∈ patterns ↔ binaryLowering kind = some lowered) ∧
    (∀ kind lowered, Pattern.unary kind lowered ∈ patterns ↔ unaryLowering kind = some lowered) := by
  refine ⟨rfl, ?_, by decide, ?_, ?_⟩
  · intro kind
    cases kind <;> rfl
  · intro kind lowered
    cases kind <;> cases lowered <;> decide
  · intro kind lowered
    cases kind <;> cases lowered <;> decide

theorem target_legality_witness :
    target.isLegal exampleTypes examplePrintRewriter.block (Op.tinygrad examplePrint) =
        some false ∧
      target.isLegal exampleTypes examplePrintRewriter.block
        (Op.tinygrad { examplePrint with operands := [1] }) = some true ∧
      target.isLegal exampleTypes [] (Op.tinygrad exampleAdd) = some false ∧
      target.isLegal exampleTypes [] (Op.scalar 3 ScalarOp.powf none [1, 2]) = some true :=
  ⟨((target_legality exampleTypes examplePrintRewriter.block).1 examplePrint rfl).2.mpr
      ⟨0, by decide, by decide⟩,
   ((target_legality exampleTypes examplePrintRewriter.block).1
      { examplePrint with operands := [1] } rfl).1.mpr (by decide),
   ((target_legality exampleTypes []).2.1 exampleAdd (by decide)).1,
   ((target_legality exampleTypes []).2.2 (Op.scalar 3 ScalarOp.powf none [1, 2])
      (by decide)).1⟩

theorem print_updated_in_place_witness :
    ∃ updated : Operation,
      Pattern.print.matchAndRewrite examplePrint [1] examplePrintRewriter =
        some { examplePrintRewriter with
                 after := [Op.tinygrad updated, Op.dealloc 1, Op.other 0 []] } ∧
      updated.kind = TinyGradKind.print ∧
      updated.operands = [1] ∧
      target.isLegal exampleTypes
        (examplePrintRewriter.before ++ [Op.tinygrad updated, Op.dealloc 1, Op.other 0 []])
        (Op.tinygrad updated) = some true := by
  obtain ⟨updated, h1, h2, h3, _, _, _, _, _, h9⟩ :=
    print_updated_in_place exampleTypes examplePrint [Op.dealloc 1, Op.other 0 []]
      examplePrintRewriter 0 1 { shape := [2, 3], elementType := ElementType.f64 }
      rfl rfl rfl (by decide) (by decide) (by decide)
  exact ⟨updated, h1, h2, h3, h9⟩

/-! ## The state after a replacement -/

theorem insertAllocAndDealloc_eq (type : MemRefType) (rewriter : PatternRewriter) :
    insertAllocAndDealloc type rewriter =
      (rewriter.nextValue,
       { before := Op.alloc rewriter.nextValue type :: rewriter.before ++
           deallocAtPoint (Op.dealloc rewriter.nextValue) rewriter.after,
         after := deallocBeforeBack (Op.dealloc rewriter.nextValue) rewriter.after,
         nextValue := rewriter.nextValue + 1,
         replaced := rewriter.replaced }) := by
  match h : rewriter.after with
  | [] =>
    rw [insertAllocAndDealloc_short type rewriter (by simp [h])]
    simp [deallocAtPoint, deallocBeforeBack, h]
  | [a] =>
    rw [insertAllocAndDealloc_short type rewriter (by simp [h])]
    simp [deallocAtPoint, deallocBeforeBack, h]
  | a :: b :: rest =>
    rw [insertAllocAndDealloc_inner type rewriter (b :: rest).dropLast a
      ((b :: rest).getLast (by simp))
      (by rw [h, List.cons_append, List.dropLast_append_getLast])]
    simp [deallocAtPoint, deallocBeforeBack]

/-- The state after lowering a constant of a valid shape, in full. -/
theorem ConstantOpLowering_matchAndRewrite_full (op : Operation) (rewriter : PatternRewriter)
    (dims : List Nat) (elementType : ElementType)
    (htype : op.tensorType = some { shape := some (dims.map Int.ofNat), elementType := elementType })
    (hdims : ∀ d ∈ dims, d < 2 ^ 63)
    (hvalues : op.value.values.length = dims.prod) :
    ConstantOpLowering.matchAndRewrite op rewriter =
      some { before := Op.alloc rewriter.nextValue ⟨dims.map Int.ofNat, elementType⟩ ::
               rewriter.before ++
                 (deallocAtPoint (Op.dealloc rewriter.nextValue) rewriter.after ++
                   constantCode op.value.type.elementType op.value.values dims rewriter.nextValue),
             after := (deallocBeforeBack (Op.dealloc rewriter.nextValue) rewriter.after).tail,
             nextValue := rewriter.nextValue + 1 + indexCount dims + dims.prod,
             replaced := rewriter.replaced ++ op.results.map (fun r => (r.1, rewriter.nextValue)) } := by
  unfold ConstantOpLowering.matchAndRewrite
  rw [htype]
  simp only [convertTensorToMemRef]
  rw [insertAllocAndDealloc_eq]
  simp only [constantIndices_eq]
  have hcs : ∀ d ∈ dims, ∀ i < d,
      ((List.range (indexCount dims)).map (fun j => rewriter.nextValue + 1 + j))[i]? =
        some ((fun i => rewriter.nextValue + 1 + i) i) := by
    intro d hd i hi
    have := le_indexCount dims d hd
    rw [List.getElem?_map, List.getElem?_range (by omega)]
    rfl
  have hstore := storeElements_eq dims hdims op.value _ rewriter.nextValue
    (fun i => rewriter.nextValue + 1 + i) hcs dims.length dims.length 0
    { rewriter := { before := Op.alloc rewriter.nextValue ⟨dims.map Int.ofNat, elementType⟩ ::
                      rewriter.before ++
                        deallocAtPoint (Op.dealloc rewriter.nextValue) rewriter.after ++
                        emitIndices (rewriter.nextValue + 1) (indexCount dims),
                    after := deallocBeforeBack (Op.dealloc rewriter.nextValue) rewriter.after,
                    nextValue := rewriter.nextValue + 1 + indexCount dims,
                    replaced := rewriter.replaced },
      indices := [], valueIt := 0 } (by simp) (le_refl _) (by simp [hvalues])
  simp only [List.length_map, List.cons_append, List.append_assoc] at hstore ⊢
  rw [hstore]
  simp [StoreState.advance, PatternRewriter.replaceOp, constantCode]

/-! ## The index constants of a lowered constant -/

theorem filterMap_indexConstant_emitIndices (first count : Nat) :
    (emitIndices first count).filterMap Op.indexConstant =
      (List.range count).map (fun j => (first + j, Int.ofNat j)) := by
  simp only [emitIndices, List.filterMap_map, Function.comp_def, Op.indexConstant]
  exact congrFun (List.filterMap_eq_map _) _

theorem filterMap_indexConstant_emitStores (elementType : ElementType) (alloc : Value)
    (indexOf : Nat → Value) (base : List Value) :
    ∀ (vs : List APFloat) (ts : List (List Nat)) (c : Value),
      (emitStores elementType alloc indexOf base vs ts c).filterMap Op.indexConstant = [] := by
  intro vs
  induction vs with
  | nil => intro ts c; simp [emitStores]
  | cons v vs ih =>
    intro ts c
    cases ts with
    | nil => simp [emitStores]
    | cons t ts => simp [emitStores, Op.indexConstant, ih]

theorem storeIndices_emitIndices (first count : Nat) :
    storeIndices (emitIndices first count) = [] := by
  simp [storeIndices, emitIndices, List.flatMap_map]

theorem mem_storeIndices_emitStores (elementType : ElementType) (alloc : Value)
    (indexOf : Nat → Value) (base : List Value) :
    ∀ (vs : List APFloat) (ts : List (List Nat)) (c : Value) (w : Value),
      w ∈ storeIndices (emitStores elementType alloc indexOf base vs ts c) →
        w ∈ base ∨ ∃ t ∈ ts, ∃ i ∈ t, w = indexOf i := by
  intro vs
  induction vs with
  | nil => intro ts c w hw; simp [emitStores, storeIndices] at hw
  | cons v vs ih =>
    intro ts c w hw
    cases ts with
    | nil => simp [emitStores, storeIndices] at hw
    | cons t ts =>
      simp only [emitStores, storeIndices, List.flatMap_cons, List.nil_append,
        List.mem_append, List.mem_map] at hw
      rcases hw with (hw | ⟨i, hi, rfl⟩) | hw
      · exact Or.inl hw
      · exact Or.inr ⟨t, List.mem_cons_self _ _, i, hi, rfl⟩
      · rcases ih ts (c + 1) w hw with h | ⟨u, hu, i, hi, rfl⟩
        · exact Or.inl h
        · exact Or.inr ⟨u, List.mem_cons_of_mem _ hu, i, hi, rfl⟩

theorem indexCount_mem (d : Nat) (ds : List Nat) : indexCount (d :: ds) ∈ d :: ds := by
  simp only [indexCount]
  induction ds generalizing d with
  | nil => simp
  | cons e es ih =>
    simp only [List.foldl_cons]
    rcases List.mem_cons.1 (ih (max d e)) with h | h
    · rcases max_choice d e with h2 | h2
      · rw [h, h2]; simp
      · rw [h, h2]; simp
    · exact List.mem_cons_of_mem _ (List.mem_cons_of_mem _ h)

theorem deallocBeforeBack_cons_concat (dealloc a last : Op) (mid : List Op) :
    deallocBeforeBack dealloc (a :: mid ++ [last]) = a :: mid ++ [dealloc, last] := by
  cases mid with
  | nil => simp [deallocBeforeBack]
  | cons b rest =>
    simp [deallocBeforeBack, List.dropLast_append_of_ne_nil, List.dropLast_cons_of_ne_nil]

theorem deallocAtPoint_cons_concat (dealloc a last : Op) (mid : List Op) :
    deallocAtPoint dealloc (a :: mid ++ [last]) = [] := by
  cases mid <;> simp [deallocAtPoint]

theorem exists_concat_of_ne_nil (l : List Op) (h : l ≠ []) : ∃ mid last, l = mid ++ [last] :=
  ⟨l.dropLast, l.getLast h, (List.dropLast_append_getLast h).symm⟩

theorem filterMap_deallocBeforeBack_tail {β : Type} (f : Op → Option β) (dealloc a : Op)
    (rest : List Op) (hf : f dealloc = none) :
    (deallocBeforeBack dealloc (a :: rest)).tail.filterMap f = rest.filterMap f := by
  by_cases h : rest = []
  · subst h; simp [deallocBeforeBack]
  · obtain ⟨mid, last, rfl⟩ := exists_concat_of_ne_nil rest h
    rw [← List.cons_append, deallocBeforeBack_cons_concat]
    simp [List.filterMap_append, hf]

theorem filterMap_deallocAtPoint {β : Type} (f : Op → Option β) (dealloc : Op)
    (after : List Op) (hf : f dealloc = none) :
    (deallocAtPoint dealloc after).filterMap f = [] := by
  unfold deallocAtPoint
  split <;> simp [hf]

/-- C17, as the code has it: lowering a constant of a valid shape creates the index
constants of the values 0, 1, ..., `indexCount - 1` in this order, the j-th
being the index constant of value j, and no other index constant; every index
a created store uses is one of them.  For a shape that is not empty their
number is the largest extent.  For rank 0 one index constant of value 0 is
created, and the store of the single element uses no index. -/
theorem constant_index_constants (op : Operation) (rewriter : PatternRewriter)
    (rest : List Op) (dims : List Nat) (elementType : ElementType)
    (hroot : rewriter.after = Op.tinygrad op :: rest)
    (htype : op.tensorType = some { shape := some (dims.map Int.ofNat), elementType := elementType })
    (hdims : ∀ d ∈ dims, d < 2 ^ 63)
    (hvalues : op.value.values.length = dims.prod) :
    ∃ rewritten created,
      ConstantOpLowering.matchAndRewrite op rewriter = some rewritten ∧
      created = (List.range (indexCount dims)).map
        (fun j => (rewriter.nextValue + 1 + j, Int.ofNat j)) ∧
      rewritten.block.filterMap Op.indexConstant =
        rewriter.before.filterMap Op.indexConstant ++ created ++
          rest.filterMap Op.indexConstant ∧
      (∀ w ∈ storeIndices
          (constantCode op.value.type.elementType op.value.values dims rewriter.nextValue),
        w ∈ created.map Prod.fst) ∧
      rewritten.before =
        Op.alloc rewriter.nextValue ⟨dims.map Int.ofNat, elementType⟩ :: rewriter.before ++
          (deallocAtPoint (Op.dealloc rewriter.nextValue) rewriter.after ++
            constantCode op.value.type.elementType op.value.values dims rewriter.nextValue) ∧
      (dims ≠ [] → indexCount dims ∈ dims ∧ ∀ d ∈ dims, d ≤ indexCount dims) ∧
      (dims = [] → created = [(rewriter.nextValue + 1, 0)] ∧
        storeIndices
          (constantCode op.value.type.elementType op.value.values dims rewriter.nextValue) = []) := by
  refine ⟨_, _, ConstantOpLowering_matchAndRewrite_full op rewriter dims elementType htype hdims
    hvalues, rfl, ?_, ?_, rfl, ?_, ?_⟩
  · simp only [PatternRewriter.block, List.filterMap_append, List.filterMap_cons,
      Op.indexConstant, constantCode, filterMap_indexConstant_emitIndices,
      filterMap_indexConstant_emitStores, List.append_nil]
    rw [filterMap_deallocAtPoint _ _ _ rfl, hroot, filterMap_deallocBeforeBack_tail _ _ _ _ rfl]
    simp
  · intro w hw
    simp only [constantCode, storeIndices, List.flatMap_append, List.mem_append] at hw
    rcases hw with hw | hw
    · have h0 := storeIndices_emitIndices (rewriter.nextValue + 1) (indexCount dims)
      simp only [storeIndices] at h0
      rw [h0] at hw
      simp at hw
    · rcases mem_storeIndices_emitStores _ _ _ _ _ _ _ w hw with h | ⟨t, ht, i, hi, rfl⟩
      · simp at h
      · obtain ⟨d, hd, hid⟩ := ((mem_rowMajor dims t).1 ht).lt_of_mem i hi
        have := le_indexCount dims d hd
        simp only [List.map_map, List.mem_map, List.mem_range, Function.comp_def]
        exact ⟨i, by omega, rfl⟩
  · intro hne
    cases dims with
    | nil => exact absurd rfl hne
    | cons d ds => exact ⟨indexCount_mem d ds, le_indexCount (d :: ds)⟩
  · intro h
    subst h
    refine ⟨rfl, ?_⟩
    cases hv : op.value.values with
    | nil => simp [constantCode, storeIndices, emitStores, emitIndices, indexCount, rowMajor]
    | cons v vs =>
      simp [constantCode, storeIndices, emitStores, emitIndices, indexCount, rowMajor]

theorem constant_index_constants_witness :
    ∃ rewritten,
      ConstantOpLowering.matchAndRewrite exampleConstant exampleRewriter = some rewritten ∧
      rewritten.block.filterMap Op.indexConstant = [(2, 0), (3, 1), (4, 2)] := by
  obtain ⟨rewritten, created, h1, h2, h3, _⟩ :=
    constant_index_constants exampleConstant exampleRewriter [Op.other 0 []] [2, 3]
      ElementType.f64 rfl rfl (by decide) (by decide)
  refine ⟨rewritten, h1, ?_⟩
  rw [h3, h2]
  decide

/-- C17 fails as stated for rank 0: lowering a rank-0 constant creates an index
constant (value 0) although the shape has no coordinate at all and no extent
to take a maximum of, so this index constant stands for no coordinate value
and the only store uses no index. -/
theorem rank_zero_constant_creates_index_constant :
    (ConstantOpLowering.matchAndRewrite exampleScalarA exampleScalarRewriter).map
        (fun r => r.block) = some exampleScalarLowered ∧
      exampleScalarLowered.filterMap Op.indexConstant = [(2, 0)] ∧
      storeIndices exampleScalarLowered = [] ∧
      (rowMajor []).flatten = [] ∧
      (exampleScalarLowered.filterMap Op.indexConstant).length ≠ ([] : List Nat).foldl max 0 ∧
      ¬ ∀ e ∈ exampleScalarLowered.filterMap Op.indexConstant,
          ∃ t ∈ rowMajor [], ∃ i ∈ t, e.2 = Int.ofNat i := by
  refine ⟨by rfl, by decide, by decide, by decide, by decide, ?_⟩
  intro h
  obtain ⟨t, ht, i, hi, _⟩ := h (2, 0) (by decide)
  simp [rowMajor] at ht
  subst ht
  simp at hi

/-! ## Safety of the constant materializer -/

theorem forLoop_preserves {σ : Type} (P : σ → Prop) (body : Nat → σ → Option σ)
    (hbody : ∀ i s s', P s → body i s = some s' → P s') :
    ∀ (n i : Nat) (s s' : σ), P s → forLoop body n i s = some s' → P s' := by
  intro n
  induction n with
  | zero =>
    intro i s s' hs h
    simp only [forLoop, Option.some.injEq] at h
    exact h ▸ hs
  | succ n ih =>
    intro i s s' hs h
    simp only [forLoop] at h
    cases hb : body i s with
    | none => rw [hb] at h; simp at h
    | some t =>
      rw [hb] at h
      exact ih (i + 1) t s' (hbody i s t hs hb) h

theorem forLoop_congr_of_invariant {σ : Type} (P : σ → Prop) (f g : Nat → σ → Option σ)
    (hfg : ∀ i s, P s → f i s = g i s)
    (hP : ∀ i s s', P s → g i s = some s' → P s') :
    ∀ (n i : Nat) (s : σ), P s → forLoop f n i s = forLoop g n i s := by
  intro n
  induction n with
  | zero => intro i s _; rfl
  | succ n ih =>
    intro i s hs
    simp only [forLoop]
    rw [hfg i s hs]
    cases hb : g i s with
    | none => rfl
    | some t => exact ih (i + 1) t (hP i s t hs hb)

theorem storeElement_indices (constantValue : DenseElementsAttr) (alloc : Value)
    (s s' : StoreState) (h : storeElement constantValue alloc s = some s') :
    s'.indices = s.indices := by
  unfold storeElement at h
  split at h
  · simp at h
  · simp only [PatternRewriter.create, PatternRewriter.insert, Option.some.injEq] at h
    rw [← h]

/-- Whatever the shape, a call of `storeElements` that returns leaves the index stack
as it found it. -/
theorem storeElements_indices (valueShape : List Int) (constantValue : DenseElementsAttr)
    (cs : List Value) (alloc : Value) :
    ∀ (fuel k : Nat) (s s' : StoreState),
      storeElements valueShape constantValue cs alloc fuel k s = some s' →
        s'.indices = s.indices := by
  intro fuel
  induction fuel with
  | zero =>
    intro k s s' h
    rw [storeElements] at h
    split at h
    · exact storeElement_indices _ _ _ _ h
    · simp at h
  | succ fuel ih =>
    intro k s s' h
    rw [storeElements] at h
    split at h
    · exact storeElement_indices _ _ _ _ h
    · split at h
      · simp at h
      · refine forLoop_preserves (fun t => t.indices = s.indices) _ ?_ _ _ s s' rfl h
        intro i t t' ht hb
        simp only at hb
        split at hb
        · simp at hb
        · rename_i index _
          simp only [Option.map_eq_some'] at hb
          obtain ⟨r, hr, rfl⟩ := hb
          have := ih _ _ _ hr
          simp only [this, List.dropLast_concat]
          exact ht

/-- When the index stack holds `k` entries at the call for dimension `k`, the check
of the stack size never fires in the call or below it. -/
theorem storeElementsChecked_eq (valueShape : List Int) (constantValue : DenseElementsAttr)
    (cs : List Value) (alloc : Value) :
    ∀ (fuel k : Nat) (s : StoreState), s.indices.length = k →
      storeElementsChecked valueShape constantValue cs alloc fuel k s =
        storeElements valueShape constantValue cs alloc fuel k s := by
  intro fuel
  induction fuel with
  | zero =>
    intro k s hk
    rw [storeElementsChecked, storeElements, if_neg (by simpa using hk)]
  | succ fuel ih =>
    intro k s hk
    rw [storeElementsChecked, storeElements, if_neg (by simpa using hk)]
    by_cases hkl : k = valueShape.length
    · rw [if_pos hkl, if_pos hkl]
    · rw [if_neg hkl, if_neg hkl]
      cases hv : valueShape[k]? with
      | none => rfl
      | some extent =>
        simp only []
        refine forLoop_congr_of_invariant (fun t => t.indices.length = k) _ _ ?_ ?_ _ _ s hk
        · intro i t ht
          cases hc : cs[i]? with
          | none => rfl
          | some index =>
            simp only []
            rw [ih]
            simp [ht]
        · intro i t t' ht hb
          simp only at hb
          split at hb
          · simp at hb
          · simp only [Option.map_eq_some'] at hb
            obtain ⟨r, hr, rfl⟩ := hb
            have := storeElements_indices _ _ _ _ _ _ _ _ hr
            simp only [this, List.dropLast_concat]
            exact ht

/-- C18: for a shape with non-negative extents and an element sequence of the length
of its product, the index constants are created and `storeElements` returns
for every recursion bound from the rank on (the pattern passes the rank).  A
lookup `constantIndices[i]` out of range or a read of the iterator past the
last element would make it fail, and so would an index stack that does not
hold exactly `dimension` entries at an entry of the checked variant; neither
happens.  Every extent is at most the number of index constants, the
iterator ends `product` positions further, at the end of the sequence, and
the index stack is empty again. -/
theorem storeElements_terminates_in_range (dims : List Nat) (hdims : ∀ d ∈ dims, d < 2 ^ 63)
    (constantValue : DenseElementsAttr) (hvalues : constantValue.values.length = dims.prod)
    (alloc : Value) (rewriter : PatternRewriter) (fuel : Nat) (hfuel : dims.length ≤ fuel) :
    ∃ indexConstants rewriter1 s,
      constantIndices (dims.map Int.ofNat) rewriter = some (indexConstants, rewriter1) ∧
      indexConstants.length = indexCount dims ∧
      (∀ d ∈ dims, d ≤ indexConstants.length) ∧
      storeElements (dims.map Int.ofNat) constantValue indexConstants alloc fuel 0
        { rewriter := rewriter1, indices := [], valueIt := 0 } = some s ∧
      storeElementsChecked (dims.map Int.ofNat) constantValue indexConstants alloc fuel 0
        { rewriter := rewriter1, indices := [], valueIt := 0 } = some s ∧
      s.indices = [] ∧
      s.valueIt = dims.prod ∧
      s.valueIt = constantValue.values.length := by
  have hcs : ∀ d ∈ dims, ∀ i < d,
      ((List.range (indexCount dims)).map (fun j => rewriter.nextValue + j))[i]? =
        some ((fun i => rewriter.nextValue + i) i) := by
    intro d hd i hi
    have := le_indexCount dims d hd
    rw [List.getElem?_map, List.getElem?_range (by omega)]
    rfl
  have hstore := storeElements_eq dims hdims constantValue _ alloc
    (fun i => rewriter.nextValue + i) hcs dims.length fuel 0
    { rewriter := { rewriter with
                      before := rewriter.before ++ emitIndices rewriter.nextValue (indexCount dims),
                      nextValue := rewriter.nextValue + indexCount dims },
      indices := [], valueIt := 0 } (by simp) hfuel (by simp [hvalues])
  refine ⟨_, _, _, constantIndices_eq dims rewriter, by simp, ?_, hstore, ?_, rfl, ?_, ?_⟩
  · intro d hd
    simpa using le_indexCount dims d hd
  · rw [storeElementsChecked_eq _ _ _ _ fuel 0 _ (by rfl)]
    exact hstore
  · simp [StoreState.advance]
  · simp [StoreState.advance, hvalues]

theorem storeElements_terminates_in_range_witness :
    ∃ s,
      storeElementsChecked [2, 3] exampleConstant.value [1, 2, 3] 0 2 0
        { rewriter := { exampleRewriter with
                          before := emitIndices 1 3, nextValue := 4 },
          indices := [], valueIt := 0 } = some s ∧
      s.indices = [] ∧ s.valueIt = 6 := by
  obtain ⟨cs, r, s, h1, _, _, _, h5, h6, h7, _⟩ :=
    storeElements_terminates_in_range [2, 3] (by decide) exampleConstant.value (by decide) 0
      exampleRewriter 2 (by decide)
  have h : constantIndices [2, 3] exampleRewriter =
      some ([1, 2, 3], { exampleRewriter with before := emitIndices 1 3, nextValue := 4 }) := by
    rfl
  have h1' : constantIndices [2, 3] exampleRewriter = some (cs, r) := h1
  rw [h] at h1'
  simp only [Option.some.injEq, Prod.mk.injEq] at h1'
  obtain ⟨rfl, rfl⟩ := h1'
  exact ⟨s, h5, h6, h7⟩

/-! ## Successive buffers of one block -/

theorem length_allocsOf (buffers : List (Nat × MemRefType)) :
    (allocsOf buffers).length = buffers.length := by
  simp [allocsOf]

theorem length_deallocsOf (buffers : List (Nat × MemRefType)) :
    (deallocsOf buffers).length = buffers.length := by
  simp [deallocsOf]

theorem setInsertionPoint_in_original (original : List Op) (term : Op)
    (done : List (Nat × MemRefType)) (rewriter : PatternRewriter) (p : Nat)
    (hblock : rewriter.block = allocsOf done ++ original ++ deallocsOf done ++ [term])
    (hp : p < original.length) :
    (rewriter.setInsertionPoint (done.length + p)).before = allocsOf done ++ original.take p ∧
    (rewriter.setInsertionPoint (done.length + p)).after =
      original[p] :: (original.drop (p + 1) ++ deallocsOf done) ++ [term] ∧
    (rewriter.setInsertionPoint (done.length + p)).nextValue = rewriter.nextValue ∧
    (rewriter.setInsertionPoint (done.length + p)).replaced = rewriter.replaced := by
  refine ⟨?_, ?_, rfl, rfl⟩
  · simp only [PatternRewriter.setInsertionPoint, hblock, List.append_assoc]
    rw [List.take_append_eq_append_take, length_allocsOf]
    rw [List.take_of_length_le (by rw [length_allocsOf]; omega)]
    rw [List.take_append_of_le_length (by omega)]
    simp
  · simp only [PatternRewriter.setInsertionPoint, hblock, List.append_assoc]
    rw [List.drop_append_eq_append_drop, length_allocsOf]
    rw [List.drop_of_length_le (by rw [length_allocsOf]; omega)]
    rw [List.drop_append_of_le_length (by omega)]
    simp only [Nat.add_sub_cancel_left, List.nil_append]
    rw [List.drop_eq_getElem_cons hp]
    simp only [List.cons_append, List.append_assoc]

theorem introduceBuffers_block (original : List Op) (term : Op) :
    ∀ (steps : List (MemRefType × Nat)) (done : List (Nat × MemRefType))
      (rewriter : PatternRewriter),
      rewriter.block = allocsOf done ++ original ++ deallocsOf done ++ [term] →
      (∀ step ∈ steps, step.2 < original.length) →
      ∃ new rewritten,
        introduceBuffers steps done.length rewriter = (new, rewritten) ∧
        rewritten.block =
          allocsOf (done ++ new) ++ original ++ deallocsOf (done ++ new) ++ [term] ∧
        new.map Prod.snd = steps.map Prod.fst ∧
        new.map Prod.fst = (List.range steps.length).map (fun j => rewriter.nextValue + j) ∧
        rewritten.nextValue = rewriter.nextValue + steps.length ∧
        rewritten.replaced = rewriter.replaced := by
  intro steps
  induction steps with
  | nil =>
    intro done rewriter hblock _
    exact ⟨[], rewriter, rfl, by simpa using hblock, rfl, rfl, rfl, rfl⟩
  | cons step rest ih =>
    intro done rewriter hblock hsteps
    obtain ⟨type, p⟩ := step
    have hp : p < original.length := hsteps (type, p) (List.mem_cons_self _ _)
    obtain ⟨hb, ha, hn, hr⟩ := setInsertionPoint_in_original original term done rewriter p hblock hp
    have hins := insertAllocAndDealloc_inner type (rewriter.setInsertionPoint (done.length + p))
      (original.drop (p + 1) ++ deallocsOf done) original[p] term ha
    rw [hb, hn, hr] at hins
    have hblock' : ({ before := Op.alloc rewriter.nextValue type :: (allocsOf done ++ original.take p),
                      after := original[p] :: (original.drop (p + 1) ++ deallocsOf done) ++
                        [Op.dealloc rewriter.nextValue, term],
                      nextValue := rewriter.nextValue + 1,
                      replaced := rewriter.replaced } : PatternRewriter).block =
        allocsOf (done ++ [(rewriter.nextValue, type)]) ++ original ++
          deallocsOf (done ++ [(rewriter.nextValue, type)]) ++ [term] := by
      rw [allocsOf_concat, deallocsOf_concat]
      simp only [PatternRewriter.block, List.cons_append, List.append_assoc, List.cons.injEq,
        true_and, List.append_cancel_left_eq]
      have horig : List.take p original ++ original[p] :: List.drop (p + 1) original = original := by
        rw [← List.drop_eq_getElem_cons hp, List.take_append_drop]
      conv_rhs => rw [← horig]
      simp only [List.cons_append, List.append_assoc, List.nil_append]
    obtain ⟨new, rewritten, h1, h2, h3, h4, h5, h6⟩ :=
      ih (done ++ [(rewriter.nextValue, type)]) _ hblock'
        (fun s hs => hsteps s (List.mem_cons_of_mem _ hs))
    rw [List.length_append, List.length_singleton] at h1
    refine ⟨(rewriter.nextValue, type) :: new, rewritten, ?_, ?_, ?_, ?_, ?_, ?_⟩
    · rw [introduceBuffers, hins]
      simp only [h1]
    · rw [h2]
      simp
    · simp [h3]
    · simp only [List.map_cons, h4, List.length_cons, List.range_succ_eq_map, List.map_cons,
        List.map_map, Nat.add_zero, List.cons.injEq, true_and]
      apply List.map_congr_left
      intro j _
      simp only [Function.comp_apply]
      omega
    · rw [h5]
      simp only [List.length_cons]
      omega
    · exact h6

/-- C19: for a block made of original operations and a terminator, and any number of
successive calls of `insertAllocAndDealloc`, each with the insertion point
before one of the original operations, the block becomes the allocations
(the latest first), the original operations in their order, the
deallocations (the earliest first) and the terminator.  There are as many
allocations as deallocations, one of each for every call; the allocation of
the j-th buffer stands at position n-1-j, before every original operation,
and its deallocation at position n + (number of original operations) + j,
behind every original operation. -/
theorem introduceBuffers_layout (original : List Op) (term : Op)
    (steps : List (MemRefType × Nat)) (rewriter : PatternRewriter)
    (hblock : rewriter.block = original ++ [term])
    (hsteps : ∀ step ∈ steps, step.2 < original.length) :
    ∃ buffers rewritten,
      introduceBuffers steps 0 rewriter = (buffers, rewritten) ∧
      rewritten.block = allocsOf buffers ++ original ++ deallocsOf buffers ++ [term] ∧
      buffers.map Prod.snd = steps.map Prod.fst ∧
      buffers.map Prod.fst = (List.range steps.length).map (fun j => rewriter.nextValue + j) ∧
      (allocsOf buffers).length = steps.length ∧
      (deallocsOf buffers).length = steps.length ∧
      ∀ j b, buffers[j]? = some b →
        rewritten.block[steps.length - 1 - j]? = some (Op.alloc b.1 b.2) ∧
        rewritten.block[steps.length + original.length + j]? = some (Op.dealloc b.1) := by
  obtain ⟨new, rewritten, h1, h2, h3, h4, _, _⟩ :=
    introduceBuffers_block original term steps [] rewriter (by simpa [allocsOf, deallocsOf] using hblock)
      hsteps
  have hlen : new.length = steps.length := by
    have := congrArg List.length h3
    simpa using this
  refine ⟨new, rewritten, h1, by simpa using h2, h3, h4, ?_, ?_, ?_⟩
  · rw [length_allocsOf, hlen]
  · rw [length_deallocsOf, hlen]
  · intro j b hj
    have hjlt : j < new.length := by
      by_contra hge
      rw [List.getElem?_eq_none (by omega)] at hj
      simp at hj
    rw [h2]
    simp only [List.nil_append, List.append_assoc]
    constructor
    · rw [List.getElem?_append_left (by rw [length_allocsOf]; omega)]
      simp only [allocsOf, List.getElem?_map]
      rw [List.getElem?_reverse (by omega)]
      have : new.length - 1 - (steps.length - 1 - j) = j := by omega
      rw [this, hj]
      rfl
    · rw [List.getElem?_append_right (by rw [length_allocsOf]; omega)]
      rw [List.getElem?_append_right (by rw [length_allocsOf]; omega)]
      rw [List.getElem?_append_left (by rw [length_allocsOf, length_deallocsOf]; omega)]
      simp only [deallocsOf, List.getElem?_map, length_allocsOf]
      have : steps.length + original.length + j - new.length - original.length = j := by omega
      rw [this, hj]
      rfl

theorem introduceBuffers_layout_witness :
    ∃ buffers rewritten,
      introduceBuffers
          [({ shape := [], elementType := ElementType.f64 }, 0),
           ({ shape := [], elementType := ElementType.f64 }, 1)] 0 exampleTwoConstants =
        (buffers, rewritten) ∧
      rewritten.block =
        allocsOf buffers ++ [Op.tinygrad exampleScalarA, Op.tinygrad exampleScalarB] ++
          deallocsOf buffers ++ [Op.other 0 []] ∧
      buffers.map Prod.fst = [2, 3] := by
  obtain ⟨buffers, rewritten, h1, h2, _, h4, _⟩ :=
    introduceBuffers_layout [Op.tinygrad exampleScalarA, Op.tinygrad exampleScalarB]
      (Op.other 0 [])
      [({ shape := [], elementType := ElementType.f64 }, 0),
       ({ shape := [], elementType := ElementType.f64 }, 1)] exampleTwoConstants rfl
      (by
        intro step hstep
        simp only [List.mem_cons, List.mem_singleton, List.not_mem_nil, or_false] at hstep
        rcases hstep with rfl | rfl <;> decide)
  exact ⟨buffers, rewritten, h1, h2, h4⟩

/-! ## Element types of the stored values -/

theorem storeTypesOf_concat_yield (buffers : Value → Option MemRefType) (l : List Op) :
    ∀ known, storeTypesOf buffers (l ++ [Op.affineYield]) known = storeTypesOf buffers l known := by
  induction l with
  | nil => intro known; simp [storeTypesOf, Op.storeTypes]
  | cons o os ih =>
    intro known
    rw [List.cons_append, storeTypesOf, storeTypesOf, ih]

theorem storeTypesOf_loopNest (buffers : Value → Option MemRefType)
    (body : List Value → Nat → List Op)
    (types : List (Option ElementType × Option ElementType))
    (hbody : ∀ ivs n known, storeTypesOf buffers (body ivs n) known = types) :
    ∀ (shape : List Int) (ivs : List Value) (n : Nat) (known : List (Value × ElementType)),
      storeTypesOf buffers (loopNest body shape ivs n) known = types := by
  intro shape
  induction shape with
  | nil => intro ivs n known; simpa [loopNest] using hbody ivs n known
  | cons d ds ih =>
    intro ivs n known
    simp only [loopNest, storeTypesOf, Op.storeTypes, List.append_nil]
    rw [storeTypesOf_concat_yield]
    exact ih _ _ _

/-- The one store of the body of a binary pattern: the stored value has type `i1`
when the scalar operation is the comparison and the element type of the
left operand buffer otherwise; the buffer stored into is the result buffer. -/
theorem storeTypesOf_binaryBody (buffers : Value → Option MemRefType)
    (LoweredBinaryOp : ScalarOp) (lhs rhs alloc : Value) (left right : MemRefType)
    (hlhs : buffers lhs = some left) (hrhs : buffers rhs = some right)
    (ivs : List Value) (n : Nat) (known : List (Value × ElementType)) :
    storeTypesOf buffers (binaryBody LoweredBinaryOp lhs rhs alloc ivs n) known =
      [(some (if LoweredBinaryOp = ScalarOp.cmpf then ElementType.i1 else left.elementType),
        (buffers alloc).map (fun type => type.elementType))] := by
  have h1 : (n == n + 1) = false := by simp
  cases LoweredBinaryOp <;>
    simp [binaryBody, storeTypesOf, Op.storeTypes, hlhs, hrhs, ScalarOp.resultType, List.lookup, h1]

/-- The one store of the body of a unary pattern: the stored value has type `i1`
when the scalar operation is the comparison and the element type of the
operand buffer otherwise; the buffer stored into is the result buffer. -/
theorem storeTypesOf_unaryBody (buffers : Value → Option MemRefType)
    (LoweredUnaryOp : ScalarOp) (operand alloc : Value) (type : MemRefType)
    (hoperand : buffers operand = some type)
    (ivs : List Value) (n : Nat) (known : List (Value × ElementType)) :
    storeTypesOf buffers (unaryBody LoweredUnaryOp operand alloc ivs n) known =
      [(some (if LoweredUnaryOp = ScalarOp.cmpf then ElementType.i1 else type.elementType),
        (buffers alloc).map (fun type => type.elementType))] := by
  have h1 : (n == n + 1) = false := by simp
  cases LoweredUnaryOp <;>
    simp [unaryBody, storeTypesOf, Op.storeTypes, hoperand, ScalarOp.resultType, List.lookup, h1]

/-- The stores in the code a binary pattern emits, by element types: for every shape
one (stored value, buffer) pair. -/
theorem storeTypesOf_binary_nest (buffers : Value → Option MemRefType)
    (LoweredBinaryOp : ScalarOp) (lhs rhs alloc : Value) (left right : MemRefType)
    (hlhs : buffers lhs = some left) (hrhs : buffers rhs = some right)
    (shape : List Int) (n : Nat) (known : List (Value × ElementType)) :
    storeTypesOf buffers (loopNest (binaryBody LoweredBinaryOp lhs rhs alloc) shape [] n) known =
      [(some (if LoweredBinaryOp = ScalarOp.cmpf then ElementType.i1 else left.elementType),
        (buffers alloc).map (fun type => type.elementType))] :=
  storeTypesOf_loopNest buffers _ _
    (fun ivs m k => storeTypesOf_binaryBody buffers LoweredBinaryOp lhs rhs alloc left right
      hlhs hrhs ivs m k) shape [] n known

/-- The stores in the code a unary pattern emits, by element types. -/
theorem storeTypesOf_unary_nest (buffers : Value → Option MemRefType)
    (LoweredUnaryOp : ScalarOp) (operand alloc : Value) (type : MemRefType)
    (hoperand : buffers operand = some type)
    (shape : List Int) (n : Nat) (known : List (Value × ElementType)) :
    storeTypesOf buffers (loopNest (unaryBody LoweredUnaryOp operand alloc) shape [] n) known =
      [(some (if LoweredUnaryOp = ScalarOp.cmpf then ElementType.i1 else type.elementType),
        (buffers alloc).map (fun type => type.elementType))] :=
  storeTypesOf_loopNest buffers _ _
    (fun ivs m k => storeTypesOf_unaryBody buffers LoweredUnaryOp operand alloc type
      hoperand ivs m k) shape [] n known

/-- C20 fails for the two comparison kinds: the equality comparison of two f64
tensors and the positivity test of an f64 tensor are lowered to a store whose
value is the `i1` result of `arith.cmpf`, into the result buffer of element
type f64. -/
theorem cmpf_result_stored_into_f64_buffer :
    (CmpEqLowering.matchAndRewrite exampleCmpEq [0, 1] exampleCmpEqRewriter).map
        (fun r => r.block) = some exampleCmpEqLowered ∧
      storeTypesOf (exampleBufferTypes exampleCmpEqLowered) exampleCmpEqLowered [] =
        [(some ElementType.i1, some ElementType.f64)] ∧
      (Gt0OpLowering.matchAndRewrite exampleGt0 [0] exampleGt0Rewriter).map
        (fun r => r.block) = some exampleGt0Lowered ∧
      storeTypesOf (exampleBufferTypes exampleGt0Lowered) exampleGt0Lowered [] =
        [(some ElementType.i1, some ElementType.f64)] :=
  ⟨by rfl, by decide, by rfl, by decide⟩

/-! ## Patterns only add lowered code -/

theorem Grows.refl (b : PatternRewriter) : Grows b b :=
  ⟨[], by simp, rfl, rfl, le_refl _, rfl⟩

theorem Grows.trans {a b c : PatternRewriter} (h1 : Grows a b) (h2 : Grows b c) : Grows a c := by
  obtain ⟨c1, hb1, ha1, hr1, hn1, hc1⟩ := h1
  obtain ⟨c2, hb2, ha2, hr2, hn2, hc2⟩ := h2
  refine ⟨c1 ++ c2, ?_, ?_, ?_, ?_, ?_⟩
  · rw [hb2, hb1, List.append_assoc]
  · rw [ha2, ha1]
  · rw [hr2, hr1]
  · omega
  · rw [countOps_append, hc1, hc2]

theorem Grows.create (b : PatternRewriter) (mk : Value → Op)
    (hmk : (mk b.nextValue).count (fun o => !o.isLowered) = 0) : Grows b (b.create mk).2 :=
  ⟨[mk b.nextValue], rfl, rfl, rfl, Nat.le_succ _, by simp [countOps, hmk]⟩

theorem Grows.insert (b : PatternRewriter) (o : Op)
    (ho : o.count (fun o => !o.isLowered) = 0) : Grows b (b.insert o) :=
  ⟨[o], rfl, rfl, rfl, le_refl _, by simp [countOps, ho]⟩

theorem constantIndices_grows (valueShape : List Int) (rewriter rewriter' : PatternRewriter)
    (cs : List Value) (h : constantIndices valueShape rewriter = some (cs, rewriter')) :
    Grows rewriter rewriter' := by
  unfold constantIndices at h
  split at h
  · split at h
    · simp at h
    · have := forLoop_preserves (fun t : List Value × PatternRewriter => Grows rewriter t.2) _
        (by
          intro i s s' hs hb
          simp only [Option.some.injEq] at hb
          rw [← hb]
          exact hs.trans (Grows.create s.2
            (fun res => Op.constant res (Attribute.index (Int.ofNat i)))
            (by simp [Op.count, Op.isLowered, Op.dialect])))
        _ _ _ _ (Grows.refl rewriter) h
      exact this
  · simp only [Option.some.injEq, Prod.mk.injEq] at h
    rw [← h.2]
    exact Grows.create rewriter (fun res => Op.constant res (Attribute.index 0))
      (by simp [Op.count, Op.isLowered, Op.dialect])

theorem storeElement_grows (constantValue : DenseElementsAttr) (alloc : Value)
    (s s' : StoreState) (h : storeElement constantValue alloc s = some s') :
    Grows s.rewriter s'.rewriter := by
  unfold storeElement at h
  split at h
  · simp at h
  · simp only [Option.some.injEq] at h
    rw [← h]
    rename_i element _
    exact (Grows.create s.rewriter
        (fun res => Op.constant res (Attribute.float element constantValue.type.elementType))
        (by simp [Op.count, Op.isLowered, Op.dialect])).trans
      (Grows.insert _ (Op.affineStore s.rewriter.nextValue alloc s.indices)
        (by simp [Op.count, Op.isLowered, Op.dialect]))

theorem storeElements_grows (valueShape : List Int) (constantValue : DenseElementsAttr)
    (cs : List Value) (alloc : Value) :
    ∀ (fuel k : Nat) (s s' : StoreState),
      storeElements valueShape constantValue cs alloc fuel k s = some s' →
        Grows s.rewriter s'.rewriter := by
  intro fuel
  induction fuel with
  | zero =>
    intro k s s' h
    rw [storeElements] at h
    split at h
    · exact storeElement_grows _ _ _ _ h
    · simp at h
  | succ fuel ih =>
    intro k s s' h
    rw [storeElements] at h
    split at h
    · exact storeElement_grows _ _ _ _ h
    · split at h
      · simp at h
      · refine forLoop_preserves (fun t => Grows s.rewriter t.rewriter) _ ?_ _ _ s s'
          (Grows.refl _) h
        intro i t t' ht hb
        simp only at hb
        split at hb
        · simp at hb
        · simp only [Option.map_eq_some'] at hb
          obtain ⟨r, hr, rfl⟩ := hb
          have hg := ih (k + 1) _ r hr
          exact ht.trans hg

/-- Whenever the constant pattern succeeds, it has replaced its root by a buffer and
lowered code. -/
theorem ConstantOpLowering_fullReplacement (op : Operation) (rewriter rewritten : PatternRewriter)
    (h : ConstantOpLowering.matchAndRewrite op rewriter = some rewritten) :
    FullReplacement op rewriter rewritten := by
  unfold ConstantOpLowering.matchAndRewrite at h
  split at h
  · simp at h
  · split at h
    · simp at h
    · rename_i memRefType _
      rw [insertAllocAndDealloc_eq] at h
      simp only at h
      split at h
      · simp at h
      · rename_i cs r1 hci
        split at h
        · simp at h
        · rename_i s hs
          simp only [Option.some.injEq] at h
          obtain ⟨c1, hb1, ha1, hr1, hn1, hc1⟩ := constantIndices_grows _ _ _ _ hci
          obtain ⟨c2, hb2, ha2, hr2, hn2, hc2⟩ := storeElements_grows _ _ _ _ _ _ _ _ hs
          simp only at hb1 ha1 hr1 hn1 hb2 ha2 hr2 hn2
          refine ⟨memRefType, c1 ++ c2, ?_, ?_, ?_, ?_, ?_⟩
          · rw [← h]
            simp [PatternRewriter.replaceOp, hb2, hb1]
          · rw [← h]
            simp [PatternRewriter.replaceOp, ha2, ha1]
          · rw [← h]
            simp [PatternRewriter.replaceOp, hr2, hr1]
          · rw [← h]
            simp only [PatternRewriter.replaceOp]
            omega
          · rw [countOps_append, hc1, hc2]

/-- The state after an elementwise pattern on a ranked result type, in full. -/
theorem lowerOpToLoops_full (op : Operation) (operands : List Value) (rewriter : PatternRewriter)
    (processIteration : LoopIterationFn) (shape : List Int) (elementType : ElementType)
    (body : Value → List Value → Nat → List Op) (c : Nat)
    (htype : op.tensorType = some { shape := some shape, elementType := elementType })
    (hfn : ∀ (alloc : Value) (b : PatternRewriter) (ivs : List Value),
      storeIteration processIteration operands alloc b ivs =
      some { before := b.before ++ body alloc ivs b.nextValue, after := b.after,
             nextValue := b.nextValue + c, replaced := b.replaced }) :
    lowerOpToLoops op operands rewriter processIteration =
      some { before := Op.alloc rewriter.nextValue ⟨shape, elementType⟩ :: rewriter.before ++
               (deallocAtPoint (Op.dealloc rewriter.nextValue) rewriter.after ++
                 loopNest (body rewriter.nextValue) shape [] (rewriter.nextValue + 1)),
             after := (deallocBeforeBack (Op.dealloc rewriter.nextValue) rewriter.after).tail,
             nextValue := rewriter.nextValue + 1 + shape.length + c,
             replaced := rewriter.replaced ++ op.results.map (fun r => (r.1, rewriter.nextValue)) } := by
  unfold lowerOpToLoops
  rw [htype]
  simp only [convertTensorToMemRef]
  rw [insertAllocAndDealloc_eq]
  simp only []
  rw [buildAffineLoopNest_eq _ (body rewriter.nextValue) c (hfn rewriter.nextValue)]
  simp [PatternRewriter.replaceOp]

theorem buildLoops_none (fn : PatternRewriter → List Value → Option PatternRewriter)
    (hfn : ∀ (b : PatternRewriter) (ivs : List Value), fn b ivs = none) :
    ∀ (ds : List Int) (d : Int) (ivs : List Value) (builder : PatternRewriter),
      buildLoops fn (List.replicate (ds.length + 1) 0) (d :: ds)
          (List.replicate (ds.length + 1) 1) ivs builder = none := by
  intro ds
  induction ds with
  | nil =>
    intro d ivs builder
    simp [buildLoops, hfn]
  | cons e es ih =>
    intro d ivs builder
    have h := ih e (ivs ++ [builder.nextValue]) { builder with nextValue := builder.nextValue + 1 }
    simp only [List.length_cons, List.replicate_succ] at h ⊢
    rw [buildLoops]
    · rw [if_neg (by decide), h]
    · intro _ h2 _
      simp at h2

theorem buildAffineLoopNest_none (fn : PatternRewriter → List Value → Option PatternRewriter)
    (hfn : ∀ (b : PatternRewriter) (ivs : List Value), fn b ivs = none)
    (shape : List Int) (builder : PatternRewriter) :
    buildAffineLoopNest builder (List.replicate shape.length 0) shape
        (List.replicate shape.length 1) fn = none := by
  unfold buildAffineLoopNest
  rw [if_neg (by simp)]
  cases shape with
  | nil => simp [hfn]
  | cons d ds =>
    simp only [List.length_cons, List.replicate_succ]
    have h := buildLoops_none fn hfn ds d [] builder
    simp only [List.replicate_succ] at h
    rw [h]

theorem lowerOpToLoops_none (op : Operation) (operands : List Value) (rewriter : PatternRewriter)
    (processIteration : LoopIterationFn)
    (hfn : ∀ (alloc : Value) (b : PatternRewriter) (ivs : List Value),
      storeIteration processIteration operands alloc b ivs = none) :
    lowerOpToLoops op operands rewriter processIteration = none := by
  unfold lowerOpToLoops
  split
  · rfl
  · split
    · rw [insertAllocAndDealloc_eq]
      simp only []
      rw [buildAffineLoopNest_none _ (hfn _)]
    · rfl

theorem countOps_not_lowered_binary (LoweredBinaryOp : ScalarOp) (lhs rhs alloc : Value)
    (shape : List Int) (ivs : List Value) (n : Nat) :
    countOps (fun o => !o.isLowered)
      (loopNest (binaryBody LoweredBinaryOp lhs rhs alloc) shape ivs n) = 0 :=
  countOps_loopNest _ _ 0 (fun _ _ _ _ _ => rfl) rfl
    (fun ivs n => by
      cases LoweredBinaryOp <;>
        simp [binaryBody, countOps, Op.count, Op.isLowered, Op.dialect, ScalarOp.dialect])
    shape ivs n

theorem countOps_not_lowered_unary (LoweredUnaryOp : ScalarOp) (operand alloc : Value)
    (shape : List Int) (ivs : List Value) (n : Nat) :
    countOps (fun o => !o.isLowered)
      (loopNest (unaryBody LoweredUnaryOp operand alloc) shape ivs n) = 0 :=
  countOps_loopNest _ _ 0 (fun _ _ _ _ _ => rfl) rfl
    (fun ivs n => by
      cases LoweredUnaryOp <;>
        simp [unaryBody, countOps, Op.count, Op.isLowered, Op.dialect, ScalarOp.dialect])
    shape ivs n

/-- Whenever a binary pattern succeeds, the result type is ranked, there are at least
two operands, and the root has been replaced by a buffer and lowered code. -/
theorem BinaryOpLowering_fullReplacement (LoweredBinaryOp : ScalarOp) (op : Operation)
    (operands : List Value) (rewriter rewritten : PatternRewriter)
    (h : BinaryOpLowering.matchAndRewrite LoweredBinaryOp op operands rewriter = some rewritten) :
    FullReplacement op rewriter rewritten := by
  unfold BinaryOpLowering.matchAndRewrite at h
  match hops : operands with
  | [] =>
    rw [lowerOpToLoops_none _ _ _ _ (by intros; simp [storeIteration, binaryIteration])] at h
    simp at h
  | [_] =>
    rw [lowerOpToLoops_none _ _ _ _ (by intros; simp [storeIteration, binaryIteration])] at h
    simp at h
  | lhs :: rhs :: rest =>
    match htype : op.tensorType with
    | none => simp [lowerOpToLoops, htype] at h
    | some ⟨none, elementType⟩ => simp [lowerOpToLoops, htype, convertTensorToMemRef] at h
    | some ⟨some shape, elementType⟩ =>
      rw [lowerOpToLoops_full op (lhs :: rhs :: rest) rewriter (binaryIteration LoweredBinaryOp)
        shape elementType (binaryBody LoweredBinaryOp lhs rhs) 3 htype
        (fun alloc bld ivs => binaryIteration_eq _ _ _ _ _ _ _)] at h
      simp only [Option.some.injEq] at h
      refine ⟨⟨shape, elementType⟩, _, ?_, ?_, ?_, ?_, countOps_not_lowered_binary
        LoweredBinaryOp lhs rhs rewriter.nextValue shape [] (rewriter.nextValue + 1)⟩
      · rw [← h]
      · rw [← h]
      · rw [← h]
      · rw [← h]
        simp only
        omega

/-- Whenever a unary pattern succeeds, the root has been replaced by a buffer and
lowered code. -/
theorem UnaryOpLowering_fullReplacement (LoweredUnaryOp : ScalarOp) (op : Operation)
    (operands : List Value) (rewriter rewritten : PatternRewriter)
    (h : UnaryOpLowering.matchAndRewrite LoweredUnaryOp op operands rewriter = some rewritten) :
    FullReplacement op rewriter rewritten := by
  unfold UnaryOpLowering.matchAndRewrite at h
  match hops : operands with
  | [] =>
    rw [lowerOpToLoops_none _ _ _ _ (by intros; simp [storeIteration, unaryIteration])] at h
    simp at h
  | operand :: rest =>
    match htype : op.tensorType with
    | none => simp [lowerOpToLoops, htype] at h
    | some ⟨none, elementType⟩ => simp [lowerOpToLoops, htype, convertTensorToMemRef] at h
    | some ⟨some shape, elementType⟩ =>
      rw [lowerOpToLoops_full op (operand :: rest) rewriter (unaryIteration LoweredUnaryOp)
        shape elementType (unaryBody LoweredUnaryOp operand) (unaryValues LoweredUnaryOp) htype
        (fun alloc bld ivs => unaryIteration_eq _ _ _ _ _ _)] at h
      simp only [Option.some.injEq] at h
      refine ⟨⟨shape, elementType⟩, _, ?_, ?_, ?_, ?_, countOps_not_lowered_unary
        LoweredUnaryOp operand rewriter.nextValue shape [] (rewriter.nextValue + 1)⟩
      · rw [← h]
      · rw [← h]
      · rw [← h]
      · rw [← h]
        simp only
        omega

/-- Whenever a pattern other than the print pattern succeeds, it has replaced its
root by a buffer and lowered code. -/
theorem Pattern.matchAndRewrite_fullReplacement (pattern : Pattern) (op : Operation)
    (operands : List Value) (rewriter rewritten : PatternRewriter)
    (hpattern : pattern.updatesRoot = false)
    (h : pattern.matchAndRewrite op operands rewriter = some rewritten) :
    FullReplacement op rewriter rewritten := by
  cases pattern with
  | constant => exact ConstantOpLowering_fullReplacement op rewriter rewritten h
  | binary kind lowered => exact BinaryOpLowering_fullReplacement lowered op operands _ _ h
  | unary kind lowered => exact UnaryOpLowering_fullReplacement lowered op operands _ _ h
  | print => simp [Pattern.updatesRoot] at hpattern

/-! ## Counting operations across a replacement -/

theorem countOps_nil (p : Op → Bool) : countOps p [] = 0 := by
  simp [countOps]

theorem countOps_cons (p : Op → Bool) (o : Op) (os : List Op) :
    countOps p (o :: os) = o.count p + countOps p os := by
  simp [countOps]

mutual
theorem Op.count_mono (p q : Op → Bool) (h : ∀ o, p o = true → q o = true) :
    ∀ o : Op, o.count p ≤ o.count q
  | Op.affineFor iv lb ub step body => by
    have hb := countOps_mono p q h body
    have ho := h (Op.affineFor iv lb ub step body)
    simp only [Op.count]
    have hc : (if p (Op.affineFor iv lb ub step body) = true then 1 else 0) ≤
        (if q (Op.affineFor iv lb ub step body) = true then 1 else 0) := by
      split <;> split <;> simp_all
    omega
  | Op.alloc res type => by
    have ho := h (Op.alloc res type)
    simp only [Op.count]; split <;> simp_all
  | Op.dealloc memref => by
    have ho := h (Op.dealloc memref)
    simp only [Op.count]; split <;> simp_all
  | Op.constant res value => by
    have ho := h (Op.constant res value)
    simp only [Op.count]; split <;> simp_all
  | Op.affineLoad res memref indices => by
    have ho := h (Op.affineLoad res memref indices)
    simp only [Op.count]; split <;> simp_all
  | Op.affineStore value memref indices => by
    have ho := h (Op.affineStore value memref indices)
    simp only [Op.count]; split <;> simp_all
  | Op.scalar res op predicate operands => by
    have ho := h (Op.scalar res op predicate operands)
    simp only [Op.count]; split <;> simp_all
  | Op.affineYield => by
    have ho := h Op.affineYield
    simp only [Op.count]; split <;> simp_all
  | Op.tinygrad op => by
    have ho := h (Op.tinygrad op)
    simp only [Op.count]; split <;> simp_all
  | Op.other tag operands => by
    have ho := h (Op.other tag operands)
    simp only [Op.count]; split <;> simp_all
theorem countOps_mono (p q : Op → Bool) (h : ∀ o, p o = true → q o = true) :
    ∀ l : List Op, countOps p l ≤ countOps q l
  | [] => by simp [countOps]
  | o :: os => by
    have h1 := Op.count_mono p q h o
    have h2 := countOps_mono p q h os
    simp only [countOps]
    omega
end

theorem countOps_eq_zero_of_imp (p q : Op → Bool) (h : ∀ o, p o = true → q o = true)
    (l : List Op) (hq : countOps q l = 0) : countOps p l = 0 := by
  have := countOps_mono p q h l
  omega

theorem isLowered_of_isTinygrad (o : Op) (h : o.isTinygrad = true) : (!o.isLowered) = true := by
  cases o <;> simp_all [Op.isTinygrad, Op.isLowered, Op.dialect]

theorem isTinygrad_of_isIllegal (types : Value → Ty) (block : List Op) (o : Op)
    (h : target.isIllegal types block o = true) : o.isTinygrad = true := by
  by_contra hn
  rw [target_isIllegal_of_not_tinygrad types block o (by simpa using hn)] at h
  simp at h

/-- Code of the memref, arith, math and affine dialects holds no illegal operation
and no operation of the tensor dialect, at any depth. -/
theorem countOps_illegal_of_lowered (types : Value → Ty) (block : List Op) (code : List Op)
    (h : countOps (fun o => !o.isLowered) code = 0) :
    countOps (target.isIllegal types block) code = 0 ∧ countOps Op.isTinygrad code = 0 :=
  ⟨countOps_eq_zero_of_imp _ _
      (fun o ho => isLowered_of_isTinygrad o (isTinygrad_of_isIllegal types block o ho)) code h,
   countOps_eq_zero_of_imp _ _ (fun o ho => isLowered_of_isTinygrad o ho) code h⟩

/-- Where the deallocation of `insertAllocAndDealloc` stands, by the number of
operations behind the root. -/
theorem dealloc_placement (dealloc root : Op) (rest : List Op) :
    (rest = [] ∧ deallocAtPoint dealloc (root :: rest) = [dealloc] ∧
      (deallocBeforeBack dealloc (root :: rest)).tail = []) ∨
    (∃ mid last, rest = mid ++ [last] ∧ deallocAtPoint dealloc (root :: rest) = [] ∧
      (deallocBeforeBack dealloc (root :: rest)).tail = mid ++ [dealloc, last]) := by
  by_cases h : rest = []
  · subst h
    exact Or.inl ⟨rfl, rfl, rfl⟩
  · obtain ⟨mid, last, rfl⟩ := exists_concat_of_ne_nil rest h
    refine Or.inr ⟨mid, last, rfl, ?_, ?_⟩
    · rw [← List.cons_append, deallocAtPoint_cons_concat]
    · rw [← List.cons_append, deallocBeforeBack_cons_concat]
      rfl

/-- The operation counts of the block after a replacement. -/
theorem countOps_replacement (p : Op → Bool) (alloc dealloc root : Op) (before code rest : List Op) :
    countOps p ((alloc :: before ++ (deallocAtPoint dealloc (root :: rest) ++ code)) ++
        (deallocBeforeBack dealloc (root :: rest)).tail) =
      alloc.count p + countOps p before + dealloc.count p + countOps p code + countOps p rest := by
  rcases dealloc_placement dealloc root rest with ⟨h1, h2, h3⟩ | ⟨mid, last, h1, h2, h3⟩
  · rw [h2, h3, h1]
    simp only [List.cons_append, List.append_nil, List.nil_append, countOps_cons, countOps_nil,
      countOps_append, Nat.add_zero]
    omega
  · rw [h2, h3, h1]
    simp only [List.cons_append, List.nil_append, countOps_cons, countOps_nil, countOps_append,
      Nat.add_zero]
    omega

/-- The operations of the block after a replacement. -/
theorem mem_replacement (o alloc dealloc root : Op) (before code rest : List Op) :
    o ∈ (alloc :: before ++ (deallocAtPoint dealloc (root :: rest) ++ code)) ++
        (deallocBeforeBack dealloc (root :: rest)).tail ↔
      o = alloc ∨ o ∈ before ∨ o = dealloc ∨ o ∈ code ∨ o ∈ rest := by
  rcases dealloc_placement dealloc root rest with ⟨h1, h2, h3⟩ | ⟨mid, last, h1, h2, h3⟩
  · rw [h2, h3, h1]
    simp only [List.cons_append, List.append_nil, List.mem_cons, List.mem_append,
      List.mem_singleton, List.not_mem_nil, or_false]
    tauto
  · rw [h2, h3, h1]
    simp only [List.cons_append, List.nil_append, List.mem_cons, List.mem_append,
      List.mem_singleton, List.not_mem_nil, or_false]
    tauto

/-! ## Legality across a replacement -/

theorem allocatedType_isSome_iff (block : List Op) (v : Value) :
    (allocatedType block v).isSome = true ↔ ∃ type, Op.alloc v type ∈ block := by
  unfold allocatedType
  rw [List.findSome?_isSome_iff]
  constructor
  · rintro ⟨o, ho, h⟩
    cases o with
    | alloc res type =>
      by_cases hres : res = v
      · subst hres; exact ⟨type, ho⟩
      · simp [hres] at h
    | _ => simp at h
  · rintro ⟨type, h⟩
    exact ⟨_, h, by simp⟩

theorem valueType_isTensor_of_later (types : Value → Ty) (block block' : List Op) (v : Value)
    (hallocs : ∀ w type, Op.alloc w type ∈ block → ∃ type', Op.alloc w type' ∈ block')
    (h : (valueType types block' v).isTensor = true) :
    (valueType types block v).isTensor = true := by
  unfold valueType at h ⊢
  cases h' : allocatedType block' v with
  | some type => rw [h'] at h; simp [Ty.isTensor] at h
  | none =>
    rw [h'] at h
    cases hb : allocatedType block v with
    | none => exact h
    | some type =>
      have h1 : (allocatedType block v).isSome = true := by rw [hb]; rfl
      obtain ⟨t, ht⟩ := (allocatedType_isSome_iff block v).1 h1
      obtain ⟨t', ht'⟩ := hallocs v t ht
      have h2 := (allocatedType_isSome_iff block' v).2 ⟨t', ht'⟩
      rw [h'] at h2
      simp at h2

/-- An operation that is illegal in a block that has kept all allocations of an
earlier block was illegal in the earlier block. -/
theorem isIllegal_of_later (types : Value → Ty) (block block' : List Op) (o : Op)
    (hallocs : ∀ w type, Op.alloc w type ∈ block → ∃ type', Op.alloc w type' ∈ block')
    (h : target.isIllegal types block' o = true) : target.isIllegal types block o = true := by
  have ht := isTinygrad_of_isIllegal types block' o h
  cases o with
  | tinygrad op =>
    rw [target_isIllegal_tinygrad] at h ⊢
    by_cases hk : op.kind = TinyGradKind.print
    · rw [if_pos hk] at h ⊢
      simp only [printIsLegal, Bool.not_not, List.any_eq_true, List.mem_map] at h ⊢
      obtain ⟨t, ⟨v, hv, rfl⟩, hten⟩ := h
      exact ⟨_, ⟨v, hv, rfl⟩, valueType_isTensor_of_later types block block' v hallocs hten⟩
    · rw [if_neg hk]
  | _ => simp [Op.isTinygrad] at ht

theorem target_isLegal_of_not_tinygrad (types : Value → Ty) (block : List Op) (o : Op)
    (h : o.isTinygrad = false) : target.isLegal types block o = some true := by
  have hd : o.dialect ≠ Dialect.tinygrad := by
    cases o with
    | tinygrad op => simp [Op.isTinygrad] at h
    | scalar res op predicate operands => cases op <;> simp [Op.dialect, ScalarOp.dialect]
    | other tag operands => by_cases ht : tag = 0 <;> simp [Op.dialect, ht]
    | _ => simp [Op.dialect]
  unfold ConversionTarget.isLegal
  rw [target_getOpInfo_of_dialect o hd]
  simp

/-- Code of the memref, arith, math and affine dialects holds, at any depth, only
operations that are legal under the target. -/
theorem countOps_not_legal_of_lowered (types : Value → Ty) (block : List Op) (code : List Op)
    (h : countOps (fun o => !o.isLowered) code = 0) :
    countOps (fun o => !(target.isLegal types block o == some true)) code = 0 :=
  countOps_eq_zero_of_imp _ _
    (fun o ho => by
      apply isLowered_of_isTinygrad
      by_contra hn
      rw [target_isLegal_of_not_tinygrad types block o (by simpa using hn)] at ho
      simp at ho) code h

/-! ## What the patterns emit -/

theorem block_of_fullReplacement (op : Operation) (rewriter rewritten : PatternRewriter)
    (rest : List Op) (type : MemRefType) (code : List Op)
    (hroot : rewriter.after = Op.tinygrad op :: rest)
    (hb : rewritten.before =
      Op.alloc rewriter.nextValue type :: rewriter.before ++
        (deallocAtPoint (Op.dealloc rewriter.nextValue) rewriter.after ++ code))
    (ha : rewritten.after =
      (deallocBeforeBack (Op.dealloc rewriter.nextValue) rewriter.after).tail) :
    rewritten.block =
      (Op.alloc rewriter.nextValue type :: rewriter.before ++
        (deallocAtPoint (Op.dealloc rewriter.nextValue) (Op.tinygrad op :: rest) ++ code)) ++
      (deallocBeforeBack (Op.dealloc rewriter.nextValue) (Op.tinygrad op :: rest)).tail := by
  rw [PatternRewriter.block, hb, ha, hroot]

/-- After a replacement of an illegal root the block holds fewer illegal
operations. -/
theorem countOps_illegal_replacement (types : Value → Ty) (op : Operation)
    (rewriter rewritten : PatternRewriter) (rest : List Op)
    (hroot : rewriter.after = Op.tinygrad op :: rest)
    (h : FullReplacement op rewriter rewritten)
    (hillegal : target.isIllegal types rewriter.block (Op.tinygrad op) = true) :
    countOps (target.isIllegal types rewritten.block) rewritten.block + 1 ≤
      countOps (target.isIllegal types rewriter.block) rewriter.block := by
  obtain ⟨type, code, hb, ha, _, _, hc⟩ := h
  have hblock := block_of_fullReplacement op rewriter rewritten rest type code hroot hb ha
  have hallocs : ∀ w t, Op.alloc w t ∈ rewriter.block → ∃ t', Op.alloc w t' ∈ rewritten.block := by
    intro w t hw
    refine ⟨t, ?_⟩
    rw [hblock, mem_replacement]
    rw [PatternRewriter.block, hroot, List.mem_append, List.mem_cons] at hw
    rcases hw with hw | hw | hw
    · exact Or.inr (Or.inl hw)
    · cases hw
    · exact Or.inr (Or.inr (Or.inr (Or.inr hw)))
  have hmono := fun l => countOps_mono (target.isIllegal types rewritten.block)
    (target.isIllegal types rewriter.block)
    (fun o ho => isIllegal_of_later types rewriter.block rewritten.block o hallocs ho) l
  have hcode := (countOps_illegal_of_lowered types rewritten.block code hc).1
  have key1 : ∀ p, countOps p rewritten.block =
      (Op.alloc rewriter.nextValue type).count p + countOps p rewriter.before +
        (Op.dealloc rewriter.nextValue).count p + countOps p code + countOps p rest := by
    intro p
    rw [hblock]
    exact countOps_replacement p _ _ _ _ _ _
  have key2 : ∀ p, countOps p rewriter.block =
      countOps p rewriter.before + (Op.tinygrad op).count p + countOps p rest := by
    intro p
    rw [PatternRewriter.block, hroot, countOps_append, countOps_cons]
    omega
  have h1 := key1 (target.isIllegal types rewritten.block)
  have h2 := key2 (target.isIllegal types rewriter.block)
  rw [hcode] at h1
  simp only [Op.count, target_isIllegal_of_not_tinygrad, Op.isTinygrad, hillegal, if_true,
    Bool.false_eq_true, if_false] at h1 h2
  have := hmono rewriter.before
  have := hmono rest
  omega

/-- C15: whenever a pattern of one of the four pattern classes, so in particular
each of the thirteen registered patterns, succeeds on the operation at the
insertion point, the operations it has emitted are legal under the target
and none of them is an operation of the tensor dialect, at any depth.  The
print pattern emits nothing and changes its root where it stands.  Every
other pattern emits an allocation, code and a deallocation, the block holds
these, the operations before its root and the operations behind its root,
so one operation of the tensor dialect less than before; when the root was
illegal, the number of illegal operations has gone down. -/
theorem patterns_emit_only_legal_operations (types : Value → Ty) (pattern : Pattern)
    (op : Operation) (operands : List Value) (rest : List Op)
    (rewriter rewritten : PatternRewriter)
    (hroot : rewriter.after = Op.tinygrad op :: rest)
    (hrewrite : pattern.matchAndRewrite op operands rewriter = some rewritten) :
    ∃ emitted : List Op,
      (∀ block, countOps (fun o => !(target.isLegal types block o == some true)) emitted = 0) ∧
      (∀ block, countOps (target.isIllegal types block) emitted = 0) ∧
      countOps Op.isTinygrad emitted = 0 ∧
      (pattern = Pattern.print →
        emitted = [] ∧
        rewritten.block =
          rewriter.before ++ Op.tinygrad { op with operands := operands } :: rest) ∧
      (pattern ≠ Pattern.print →
        (∃ type code,
          emitted = Op.alloc rewriter.nextValue type :: code ++ [Op.dealloc rewriter.nextValue]) ∧
        (∀ o, o ∈ rewritten.block ↔ o ∈ emitted ∨ o ∈ rewriter.before ∨ o ∈ rest) ∧
        (∀ p, countOps p rewritten.block =
          countOps p emitted + countOps p rewriter.before + countOps p rest) ∧
        countOps Op.isTinygrad rewritten.block + 1 = countOps Op.isTinygrad rewriter.block ∧
        (target.isIllegal types rewriter.block (Op.tinygrad op) = true →
          countOps (target.isIllegal types rewritten.block) rewritten.block + 1 ≤
            countOps (target.isIllegal types rewriter.block) rewriter.block)) := by
  by_cases hprint : pattern = Pattern.print
  · subst hprint
    refine ⟨[], fun _ => rfl, fun _ => rfl, rfl, fun _ => ⟨rfl, ?_⟩, fun h => absurd rfl h⟩
    simp only [Pattern.matchAndRewrite, PrintOpLowering.matchAndRewrite,
      PatternRewriter.updateRootInPlace, hroot, Option.some.injEq] at hrewrite
    rw [← hrewrite]
    rfl
  · have hfull : FullReplacement op rewriter rewritten :=
      Pattern.matchAndRewrite_fullReplacement pattern op operands rewriter rewritten
        (by cases pattern <;> simp_all [Pattern.updatesRoot]) hrewrite
    obtain ⟨type, code, hb, ha, hr, hn, hc⟩ := hfull
    have hblock := block_of_fullReplacement op rewriter rewritten rest type code hroot hb ha
    have hemitted : countOps (fun o => !o.isLowered)
        (Op.alloc rewriter.nextValue type :: code ++ [Op.dealloc rewriter.nextValue]) = 0 := by
      rw [List.cons_append, countOps_cons, countOps_append, hc]
      simp [countOps_cons, countOps_nil, Op.count, Op.isLowered, Op.dialect]
    have hcount : ∀ p, countOps p rewritten.block =
        countOps p (Op.alloc rewriter.nextValue type :: code ++ [Op.dealloc rewriter.nextValue]) +
          countOps p rewriter.before + countOps p rest := by
      intro p
      rw [hblock, countOps_replacement, List.cons_append, countOps_cons, countOps_append,
        countOps_cons, countOps_nil]
      omega
    refine ⟨Op.alloc rewriter.nextValue type :: code ++ [Op.dealloc rewriter.nextValue],
      fun block => countOps_not_legal_of_lowered types block _ hemitted,
      fun block => (countOps_illegal_of_lowered types block _ hemitted).1,
      (countOps_illegal_of_lowered types [] _ hemitted).2,
      fun h => absurd h hprint, fun _ => ⟨⟨type, code, rfl⟩, ?_, hcount, ?_, ?_⟩⟩
    · intro o
      rw [hblock, mem_replacement]
      simp only [List.cons_append, List.mem_cons, List.mem_append, List.mem_singleton]
      tauto
    · rw [hcount, (countOps_illegal_of_lowered types [] _ hemitted).2, PatternRewriter.block,
        hroot, countOps_append, countOps_cons]
      simp only [Op.count, Op.isTinygrad, if_true]
      omega
    · exact countOps_illegal_replacement types op rewriter rewritten rest hroot
        ⟨type, code, hb, ha, hr, hn, hc⟩

theorem patterns_emit_only_legal_operations_witness :
    ∃ emitted : List Op,
      (∀ block,
        countOps (fun o => !(target.isLegal exampleTypes block o == some true)) emitted = 0) ∧
      countOps Op.isTinygrad emitted = 0 ∧
      ∃ type code, emitted = Op.alloc 1 type :: code ++ [Op.dealloc 1] := by
  obtain ⟨emitted, h1, _, h3, _, h5⟩ :=
    patterns_emit_only_legal_operations exampleTypes Pattern.constant exampleScalarA []
      [Op.other 0 []] exampleScalarRewriter
      { before := [Op.alloc 1 { shape := [], elementType := ElementType.f64 },
                   Op.constant 2 (Attribute.index 0),
                   Op.constant 3 (Attribute.float { bits := 0x3FF0000000000000 } ElementType.f64),
                   Op.affineStore 3 1 []],
        after := [Op.dealloc 1, Op.other 0 []],
        nextValue := 4,
        replaced := [(0, 1)] }
      rfl rfl
  exact ⟨emitted, h1, h3, (h5 (by decide)).1⟩

/-! ## Rounds of the driver -/

theorem dropWhile_head_false {α : Type} (p : α → Bool) :
    ∀ (l : List α) (a : α) (r : List α), l.dropWhile p = a :: r → p a = false := by
  intro l
  induction l with
  | nil => intro a r h; simp at h
  | cons x xs ih =>
    intro a r h
    rw [List.dropWhile_cons] at h
    by_cases hx : p x = true
    · rw [if_pos hx] at h
      exact ih a r h
    · rw [if_neg hx] at h
      simp only [List.cons.injEq] at h
      rw [← h.1]
      simpa using hx

theorem dropWhile_append_illegal {α : Type} (p : α → Bool) (done : List α) (a : α)
    (rest : List α) (hdone : ∀ o ∈ done, p o = true) (ha : p a = false) :
    (done ++ a :: rest).dropWhile p = a :: rest ∧ (done ++ a :: rest).takeWhile p = done := by
  induction done with
  | nil => simp [List.dropWhile_cons, List.takeWhile_cons, ha]
  | cons x xs ih =>
    have hx := hdone x (List.mem_cons_self _ _)
    have := ih (fun o ho => hdone o (List.mem_cons_of_mem _ ho))
    simp [List.dropWhile_cons, List.takeWhile_cons, hx, this]

/-- What a round of the driver does under the target of the pass: either no
operation of the block is illegal, or the first illegal operation is an
operation of the tensor dialect and `legalizeRoot` deals with it at its
place. -/
theorem legalizeStep_cases (types : Value → Ty) (patterns : List Pattern)
    (rewriter : PatternRewriter) :
    (legalizeStep types target patterns rewriter = StepResult.legal ∧
      ∀ o ∈ rewriter.block, target.isIllegal types rewriter.block o = false) ∨
    (∃ before op rest,
      rewriter.block = before ++ Op.tinygrad op :: rest ∧
      (∀ o ∈ before, target.isIllegal types rewriter.block o = false) ∧
      target.isIllegal types rewriter.block (Op.tinygrad op) = true ∧
      legalizeStep types target patterns rewriter =
        legalizeRoot types target patterns
          { rewriter with before := before, after := Op.tinygrad op :: rest } op) := by
  cases hl : rewriter.block.dropWhile (fun o => !target.isIllegal types rewriter.block o) with
  | nil =>
    left
    refine ⟨by simp only [legalizeStep, hl], ?_⟩
    intro o ho
    have := (List.dropWhile_eq_nil_iff.1 hl) o ho
    simpa using this
  | cons root rest =>
    right
    have hroot := dropWhile_head_false _ _ _ _ hl
    simp only [Bool.not_eq_false'] at hroot
    have ht := isTinygrad_of_isIllegal types _ _ hroot
    cases root with
    | tinygrad op =>
      refine ⟨rewriter.block.takeWhile (fun o => !target.isIllegal types rewriter.block o),
        op, rest, ?_, ?_, hroot, ?_⟩
      · rw [← hl, List.takeWhile_append_dropWhile]
      · intro o ho
        have := List.mem_takeWhile_imp ho
        simpa using this
      · simp only [legalizeStep, hl]
    | _ => simp [Op.isTinygrad] at ht

theorem legalizeStep_legal (types : Value → Ty) (patterns : List Pattern)
    (rewriter : PatternRewriter)
    (h : ∀ o ∈ rewriter.block, target.isIllegal types rewriter.block o = false) :
    legalizeStep types target patterns rewriter = StepResult.legal := by
  have hl : rewriter.block.dropWhile (fun o => !target.isIllegal types rewriter.block o) = [] := by
    rw [List.dropWhile_eq_nil_iff]
    intro o ho
    simp [h o ho]
  simp only [legalizeStep, hl]

theorem legalizeStep_at (types : Value → Ty) (patterns : List Pattern)
    (rewriter : PatternRewriter) (done rest : List Op) (op : Operation)
    (hblock : rewriter.block = done ++ Op.tinygrad op :: rest)
    (hdone : ∀ o ∈ done, target.isIllegal types rewriter.block o = false)
    (hop : target.isIllegal types rewriter.block (Op.tinygrad op) = true) :
    legalizeStep types target patterns rewriter =
      legalizeRoot types target patterns
        { rewriter with before := done, after := Op.tinygrad op :: rest } op := by
  have h := dropWhile_append_illegal (fun o => !target.isIllegal types rewriter.block o) done
    (Op.tinygrad op) rest (fun o ho => by simp [hdone o ho]) (by simp [hop])
  rw [← hblock] at h
  simp only [legalizeStep, h.1, h.2]

/-! ## The fixed point of the conversion -/

theorem countOps_eq_zero_iff (p : Op → Bool) (l : List Op) :
    countOps p l = 0 ↔ ∀ o ∈ l, o.count p = 0 := by
  induction l with
  | nil => simp [countOps_nil]
  | cons x xs ih =>
    rw [countOps_cons, Nat.add_eq_zero_iff, ih]
    simp

theorem legalizeRoot_rewritten (types : Value → Ty) (patterns : List Pattern)
    (rewriter rewritten : PatternRewriter) (op : Operation)
    (h : legalizeRoot types target patterns rewriter op = StepResult.rewritten rewritten) :
    ∃ pattern, pattern ∈ patterns ∧ pattern.rootKind = op.kind ∧
      pattern.matchAndRewrite op (remapValues rewriter.replaced op.operands) rewriter =
        some rewritten ∧
      (pattern.updatesRoot = true → ∀ root rest, rewritten.after = root :: rest →
        target.isIllegal types rewritten.block root = false) := by
  unfold legalizeRoot at h
  split at h
  · simp at h
  · rename_i pattern hfind
    have hmem := List.mem_of_find?_eq_some hfind
    have hkind := List.find?_some hfind
    simp only [decide_eq_true_eq] at hkind
    split at h
    · simp at h
    · rename_i r hr
      refine ⟨pattern, hmem, hkind, ?_, ?_⟩
      · split at h
        · split at h
          · simp only [StepResult.rewritten.injEq] at h
            rw [← h]; exact hr
          · split at h
            · simp at h
            · simp only [StepResult.rewritten.injEq] at h
              rw [← h]; exact hr
        · simp only [StepResult.rewritten.injEq] at h
          rw [← h]; exact hr
      · intro hup root rest hafter
        rw [if_pos hup] at h
        split at h
        · simp only [StepResult.rewritten.injEq] at h
          subst h
          rename_i hnil
          rw [hnil] at hafter
          simp at hafter
        · rename_i root' rest' hcons
          split at h
          · simp at h
          · rename_i hill
            simp only [StepResult.rewritten.injEq] at h
            subst h
            rw [hcons] at hafter
            simp only [List.cons.injEq] at hafter
            rw [← hafter.1]
            simpa using hill

/-- A successful round of the driver keeps a straight-line block straight-line. -/
theorem legalizeStep_straightLine (types : Value → Ty) (patterns : List Pattern)
    (rewriter rewritten : PatternRewriter)
    (h : legalizeStep types target patterns rewriter = StepResult.rewritten rewritten)
    (hs : StraightLine rewriter.block) : StraightLine rewritten.block := by
  rcases legalizeStep_cases types patterns rewriter with ⟨hl, _⟩ | ⟨before, op, rest, hb, _, _, hstep⟩
  · rw [hl] at h; simp at h
  · rw [hstep] at h
    obtain ⟨pattern, _, _, hrw, _⟩ := legalizeRoot_rewritten types patterns _ _ _ h
    by_cases hup : pattern.updatesRoot = true
    · cases pattern with
      | print =>
        simp only [Pattern.matchAndRewrite, PrintOpLowering.matchAndRewrite,
          PatternRewriter.updateRootInPlace, Option.some.injEq] at hrw
        rw [← hrw]
        intro o ho hnt
        simp only [PatternRewriter.block, List.mem_append, List.mem_cons] at ho
        rcases ho with ho | rfl | ho
        · exact hs o (by rw [hb]; simp [ho]) hnt
        · simp [Op.isTinygrad] at hnt
        · exact hs o (by rw [hb]; simp [ho]) hnt
      | _ => simp [Pattern.updatesRoot] at hup
    · obtain ⟨type, code, hbef, haft, _, _, hc⟩ :=
        Pattern.matchAndRewrite_fullReplacement pattern op _ _ _ (by simpa using hup) hrw
      have hblock := block_of_fullReplacement op _ rewritten rest type code rfl hbef haft
      intro o ho hnt
      rw [hblock, mem_replacement] at ho
      rcases ho with rfl | ho | rfl | ho | ho
      · simp [Op.count, Op.isTinygrad]
      · exact hs o (by rw [hb]; simp [ho]) hnt
      · simp [Op.count, Op.isTinygrad]
      · exact (countOps_eq_zero_iff _ _).1 (countOps_illegal_of_lowered types [] code hc).2 o ho
      · exact hs o (by rw [hb]; simp [ho]) hnt

/-- When the driver succeeds, no operation of the block it returns is illegal, and
a straight-line block has stayed straight-line. -/
theorem applyPartialConversion_success (types : Value → Ty) (patterns : List Pattern) :
    ∀ (fuel : Nat) (rewriter rewritten : PatternRewriter),
      applyPartialConversion types target patterns fuel rewriter =
        ConversionResult.success rewritten →
      (∀ o ∈ rewritten.block, target.isIllegal types rewritten.block o = false) ∧
      (StraightLine rewriter.block → StraightLine rewritten.block) := by
  intro fuel
  induction fuel with
  | zero => intro rewriter rewritten h; simp [applyPartialConversion] at h
  | succ fuel ih =>
    intro rewriter rewritten h
    rw [applyPartialConversion] at h
    cases hstep : legalizeStep types target patterns rewriter with
    | legal =>
      rw [hstep] at h
      simp only [ConversionResult.success.injEq] at h
      subst h
      rcases legalizeStep_cases types patterns rewriter with ⟨_, hl⟩ | ⟨_, _, _, _, _, _, hroot⟩
      · exact ⟨hl, id⟩
      · rw [hroot] at hstep
        exact absurd hstep (by
          intro hcontra
          unfold legalizeRoot at hcontra
          repeat' split at hcontra
          all_goals simp at hcontra)
    | rewritten r =>
      rw [hstep] at h
      obtain ⟨h1, h2⟩ := ih r rewritten h
      exact ⟨h1, fun hs => h2 (legalizeStep_straightLine types patterns rewriter r hstep hs)⟩
    | failure loc => rw [hstep] at h; simp at h
    | aborted => rw [hstep] at h; simp at h

theorem target_isLegal_of_not_illegal (types : Value → Ty) (block : List Op) (o : Op)
    (h : target.isIllegal types block o = false) : target.isLegal types block o = some true := by
  cases o with
  | tinygrad op =>
    rw [target_isIllegal_tinygrad] at h
    rw [target_isLegal_tinygrad]
    by_cases hk : op.kind = TinyGradKind.print
    · rw [if_pos hk] at h ⊢
      simpa using h
    · rw [if_neg hk] at h
      simp at h
  | _ => exact target_isLegal_of_not_tinygrad types block _ rfl

/-- In a straight-line block none of whose operations is illegal, no operation is
illegal at any depth. -/
theorem countOps_illegal_of_straightLine (types : Value → Ty) (block : List Op)
    (hs : StraightLine block)
    (h : ∀ o ∈ block, target.isIllegal types block o = false) :
    countOps (target.isIllegal types block) block = 0 := by
  have key : ∀ l : List Op, (∀ o ∈ l, o ∈ block) →
      countOps (target.isIllegal types block) l = 0 := by
    intro l hl
    rw [countOps_eq_zero_iff]
    intro o ho
    by_cases ht : o.isTinygrad = true
    · cases o with
      | tinygrad op => simp [Op.count, h _ (hl _ ho)]
      | _ => simp [Op.isTinygrad] at ht
    · have h0 := hs o (hl o ho) (by simpa using ht)
      have := Op.count_mono (target.isIllegal types block) Op.isTinygrad
        (fun x hx => isTinygrad_of_isIllegal types block x hx) o
      omega
  exact key block (fun o ho => ho)

/-- C13: when the lowering pass succeeds on a body, no operation of the resulting
body is illegal under the target: every one is legal, and for a
straight-line body this holds at any depth.  Running the pass again on the
result succeeds and returns it unchanged. -/
theorem lowering_reaches_fixed_point (types : Value → Ty) (rewriter rewritten : PatternRewriter)
    (hrun : runOnOperation types rewriter = ConversionResult.success rewritten) :
    (∀ o ∈ rewritten.block, target.isIllegal types rewritten.block o = false) ∧
    (∀ o ∈ rewritten.block, target.isLegal types rewritten.block o = some true) ∧
    (StraightLine rewriter.block →
      countOps (target.isIllegal types rewritten.block) rewritten.block = 0) ∧
    runOnOperation types rewritten = ConversionResult.success rewritten := by
  obtain ⟨h1, h2⟩ := applyPartialConversion_success types patterns _ rewriter rewritten hrun
  refine ⟨h1, fun o ho => target_isLegal_of_not_illegal types _ o (h1 o ho),
    fun hs => countOps_illegal_of_straightLine types _ (h2 hs) h1, ?_⟩
  unfold runOnOperation
  rw [applyPartialConversion, legalizeStep_legal types patterns rewritten h1]

theorem lowering_reaches_fixed_point_witness :
    runOnOperation exampleTypes exampleBody = ConversionResult.success exampleBodyLowered ∧
      (∀ o ∈ exampleBodyLowered.block,
        target.isLegal exampleTypes exampleBodyLowered.block o = some true) ∧
      runOnOperation exampleTypes exampleBodyLowered =
        ConversionResult.success exampleBodyLowered :=
  ⟨rfl, (lowering_reaches_fixed_point exampleTypes exampleBody exampleBodyLowered rfl).2.1,
    (lowering_reaches_fixed_point exampleTypes exampleBody exampleBodyLowered rfl).2.2.2⟩

/-! ## Success of the registered patterns -/

/-- The pattern the pass has registered for each kind. -/
theorem patterns_find (kind : TinyGradKind) :
    (kind = TinyGradKind.constant ∧
      patterns.find? (fun pattern => decide (pattern.rootKind = kind)) = some Pattern.constant) ∨
    (∃ lowered, binaryLowering kind = some lowered ∧
      patterns.find? (fun pattern => decide (pattern.rootKind = kind)) =
        some (Pattern.binary kind lowered)) ∨
    (∃ lowered, unaryLowering kind = some lowered ∧
      patterns.find? (fun pattern => decide (pattern.rootKind = kind)) =
        some (Pattern.unary kind lowered)) ∨
    (kind = TinyGradKind.print ∧
      patterns.find? (fun pattern => decide (pattern.rootKind = kind)) = some Pattern.print) := by
  cases kind
  · exact Or.inl ⟨rfl, rfl⟩
  · exact Or.inr (Or.inl ⟨_, rfl, rfl⟩)
  · exact Or.inr (Or.inl ⟨_, rfl, rfl⟩)
  · exact Or.inr (Or.inl ⟨_, rfl, rfl⟩)
  · exact Or.inr (Or.inl ⟨_, rfl, rfl⟩)
  · exact Or.inr (Or.inl ⟨_, rfl, rfl⟩)
  · exact Or.inr (Or.inl ⟨_, rfl, rfl⟩)
  · exact Or.inr (Or.inr (Or.inl ⟨_, rfl, rfl⟩))
  · exact Or.inr (Or.inr (Or.inl ⟨_, rfl, rfl⟩))
  · exact Or.inr (Or.inr (Or.inl ⟨_, rfl, rfl⟩))
  · exact Or.inr (Or.inr (Or.inl ⟨_, rfl, rfl⟩))
  · exact Or.inr (Or.inr (Or.inl ⟨_, rfl, rfl⟩))
  · exact Or.inr (Or.inr (Or.inr ⟨rfl, rfl⟩))

theorem map_ofNat_toNat (shape : List Int) (h : ∀ d ∈ shape, 0 ≤ d) :
    (shape.map Int.toNat).map Int.ofNat = shape := by
  induction shape with
  | nil => rfl
  | cons d ds ih =>
    have hd := h d (List.mem_cons_self _ _)
    simp only [List.map_cons, List.cons.injEq]
    exact ⟨Int.toNat_of_nonneg hd, ih (fun e he => h e (List.mem_cons_of_mem _ he))⟩

/-- The constant pattern succeeds on a constant that meets its preconditions. -/
theorem ConstantOpLowering_succeeds (op : Operation) (rewriter : PatternRewriter)
    (hkind : op.kind = TinyGradKind.constant) (hpre : op.preconditions = true) :
    ∃ rewritten, ConstantOpLowering.matchAndRewrite op rewriter = some rewritten := by
  unfold Operation.preconditions at hpre
  rw [hkind] at hpre
  simp only at hpre
  split at hpre
  · rename_i shape elementType htype
    simp only [Bool.and_eq_true, List.all_eq_true, decide_eq_true_eq] at hpre
    obtain ⟨hshape, hvalues⟩ := hpre
    have hs := map_ofNat_toNat shape (fun d hd => (hshape d hd).1)
    refine ⟨_, ConstantOpLowering_matchAndRewrite_full op rewriter (shape.map Int.toNat)
      elementType (by rw [hs]; exact htype) ?_ hvalues⟩
    intro d hd
    simp only [List.mem_map] at hd
    obtain ⟨e, he, rfl⟩ := hd
    have := hshape e he
    omega
  · simp at hpre

/-- A binary pattern succeeds on an operation that meets its preconditions. -/
theorem BinaryOpLowering_succeeds (op : Operation) (operands : List Value)
    (rewriter : PatternRewriter) (lowered : ScalarOp)
    (hkind : binaryLowering op.kind = some lowered) (hpre : op.preconditions = true)
    (hlen : operands.length = op.operands.length) :
    ∃ rewritten,
      BinaryOpLowering.matchAndRewrite lowered op operands rewriter = some rewritten := by
  have hk1 : op.kind ≠ TinyGradKind.print := by
    intro h; rw [h] at hkind; simp [binaryLowering] at hkind
  have hk2 : op.kind ≠ TinyGradKind.constant := by
    intro h; rw [h] at hkind; simp [binaryLowering] at hkind
  unfold Operation.preconditions at hpre
  split at hpre
  · rename_i h; exact absurd h hk1
  · rename_i h; exact absurd h hk2
  · split at hpre
    · rename_i shape elementType htype
      rw [hkind] at hpre
      simp only [Option.isSome_some, if_true, decide_eq_true_eq] at hpre
      match operands, hlen with
      | lhs :: rhs :: rest, _ =>
        exact ⟨_, lowerOpToLoops_full op (lhs :: rhs :: rest) rewriter (binaryIteration lowered)
          shape elementType (binaryBody lowered lhs rhs) 3 htype
          (fun alloc bld ivs => binaryIteration_eq _ _ _ _ _ _ _)⟩
      | [_], hl => simp at hl; omega
      | [], hl => simp at hl; omega
    · simp at hpre

/-- A unary pattern succeeds on an operation that meets its preconditions. -/
theorem UnaryOpLowering_succeeds (op : Operation) (operands : List Value)
    (rewriter : PatternRewriter) (lowered : ScalarOp)
    (hkind : unaryLowering op.kind = some lowered) (hpre : op.preconditions = true)
    (hlen : operands.length = op.operands.length) :
    ∃ rewritten,
      UnaryOpLowering.matchAndRewrite lowered op operands rewriter = some rewritten := by
  have hk1 : op.kind ≠ TinyGradKind.print := by
    intro h; rw [h] at hkind; simp [unaryLowering] at hkind
  have hk2 : op.kind ≠ TinyGradKind.constant := by
    intro h; rw [h] at hkind; simp [unaryLowering] at hkind
  unfold Operation.preconditions at hpre
  split at hpre
  · rename_i h; exact absurd h hk1
  · rename_i h; exact absurd h hk2
  · split at hpre
    · rename_i shape elementType htype
      have hone : 1 ≤ op.operands.length := by
        simp only [decide_eq_true_eq] at hpre
        split at hpre <;> omega
      match operands, hlen with
      | operand :: rest, _ =>
        exact ⟨_, lowerOpToLoops_full op (operand :: rest) rewriter (unaryIteration lowered)
          shape elementType (unaryBody lowered operand) (unaryValues lowered) htype
          (fun alloc bld ivs => unaryIteration_eq _ _ _ _ _ _)⟩
      | [], hl => simp at hl; omega
    · simp at hpre

/-! ## Rounds that succeed -/

/-- On an illegal operation that is not a print and meets the preconditions of its
pattern, the driver replaces the operation by a buffer and lowered code. -/
theorem legalizeRoot_replaces (types : Value → Ty) (rewriter : PatternRewriter)
    (op : Operation) (hkind : op.kind ≠ TinyGradKind.print)
    (hpre : op.preconditions = true) :
    ∃ rewritten,
      legalizeRoot types target patterns rewriter op = StepResult.rewritten rewritten ∧
      FullReplacement op rewriter rewritten := by
  have hlen : (remapValues rewriter.replaced op.operands).length = op.operands.length := by
    simp [remapValues]
  rcases patterns_find op.kind with ⟨hk, hfind⟩ | ⟨lowered, hk, hfind⟩ | ⟨lowered, hk, hfind⟩ |
    ⟨hk, _⟩
  · obtain ⟨r, hr⟩ := ConstantOpLowering_succeeds op rewriter hk hpre
    refine ⟨r, ?_, ConstantOpLowering_fullReplacement op rewriter r hr⟩
    simp only [legalizeRoot, hfind, Pattern.matchAndRewrite, hr, Pattern.updatesRoot,
      Bool.false_eq_true, if_false]
  · obtain ⟨r, hr⟩ := BinaryOpLowering_succeeds op _ rewriter lowered hk hpre hlen
    refine ⟨r, ?_, BinaryOpLowering_fullReplacement lowered op _ rewriter r hr⟩
    simp only [legalizeRoot, hfind, Pattern.matchAndRewrite, hr, Pattern.updatesRoot,
      Bool.false_eq_true, if_false]
  · obtain ⟨r, hr⟩ := UnaryOpLowering_succeeds op _ rewriter lowered hk hpre hlen
    refine ⟨r, ?_, UnaryOpLowering_fullReplacement lowered op _ rewriter r hr⟩
    simp only [legalizeRoot, hfind, Pattern.matchAndRewrite, hr, Pattern.updatesRoot,
      Bool.false_eq_true, if_false]
  · exact absurd hk hkind

theorem valueType_updateRoot (types : Value → Ty) (before rest : List Op)
    (op updated : Operation) (v : Value) :
    valueType types (before ++ Op.tinygrad updated :: rest) v =
      valueType types (before ++ Op.tinygrad op :: rest) v := by
  simp only [valueType, allocatedType_updateRoot before rest op updated v]

/-- Changing an operation of the tensor dialect where it stands changes the
legality of no operation. -/
theorem isIllegal_updateRoot (types : Value → Ty) (before rest : List Op)
    (op updated : Operation) (o : Op) :
    target.isIllegal types (before ++ Op.tinygrad updated :: rest) o =
      target.isIllegal types (before ++ Op.tinygrad op :: rest) o := by
  cases o with
  | tinygrad x =>
    rw [target_isIllegal_tinygrad, target_isIllegal_tinygrad]
    have : (fun v => valueType types (before ++ Op.tinygrad updated :: rest) v) =
        (fun v => valueType types (before ++ Op.tinygrad op :: rest) v) :=
      funext (fun v => valueType_updateRoot types before rest op updated v)
    simp only [this]
  | _ =>
    rw [target_isIllegal_of_not_tinygrad _ _ _ (by rfl),
      target_isIllegal_of_not_tinygrad _ _ _ (by rfl)]

/-- On an illegal print whose redirected operands are not of tensor type, the
driver sets the operands in place and goes on. -/
theorem legalizeRoot_print (types : Value → Ty) (rewriter : PatternRewriter)
    (op : Operation) (rest : List Op) (hkind : op.kind = TinyGradKind.print)
    (hroot : rewriter.after = Op.tinygrad op :: rest)
    (hoperands : ∀ v ∈ remapValues rewriter.replaced op.operands,
      (valueType types rewriter.block v).isTensor = false) :
    target.isIllegal types
        (rewriter.before ++
          Op.tinygrad { op with operands := remapValues rewriter.replaced op.operands } :: rest)
        (Op.tinygrad { op with operands := remapValues rewriter.replaced op.operands }) = false ∧
    legalizeRoot types target patterns rewriter op =
      StepResult.rewritten
        { rewriter with
            after := Op.tinygrad
              { op with operands := remapValues rewriter.replaced op.operands } :: rest } := by
  have hlegal : target.isIllegal types
      (rewriter.before ++
        Op.tinygrad { op with operands := remapValues rewriter.replaced op.operands } :: rest)
      (Op.tinygrad { op with operands := remapValues rewriter.replaced op.operands }) = false := by
    rw [isIllegal_updateRoot types rewriter.before rest op, target_isIllegal_tinygrad,
      if_pos hkind]
    simp only [printIsLegal, Bool.not_not, List.any_eq_false, List.mem_map]
    rintro t ⟨v, hv, rfl⟩
    have := hoperands v hv
    rw [PatternRewriter.block, hroot] at this
    simp [this]
  refine ⟨hlegal, ?_⟩
  rcases patterns_find op.kind with ⟨hk, _⟩ | ⟨lowered, hk, _⟩ | ⟨lowered, hk, _⟩ | ⟨_, hfind⟩
  · rw [hkind] at hk; cases hk
  · rw [hkind] at hk; simp [binaryLowering] at hk
  · rw [hkind] at hk; simp [unaryLowering] at hk
  · simp only [legalizeRoot, hfind, Pattern.matchAndRewrite, PrintOpLowering.matchAndRewrite,
      PatternRewriter.updateRootInPlace, hroot, Pattern.updatesRoot, if_true,
      PatternRewriter.block, hlegal, Bool.false_eq_true, if_false]

/-- A redirected operand is not of tensor type when every replacement made so far is
an allocated buffer and the operand has been replaced or was not of tensor
type. -/
theorem remapped_not_tensor (types : Value → Ty) (block : List Op)
    (replaced : List (Value × Value)) (converted operands : List Value)
    (hreplaced : ∀ e ∈ replaced, ∃ type, Op.alloc e.2 type ∈ block)
    (hconverted : ∀ v ∈ converted,
      (replaced.find? (fun e => decide (e.1 = v))).isSome = true)
    (hoperands : ∀ v ∈ operands, v ∈ converted ∨ (types v).isTensor = false) :
    ∀ w ∈ remapValues replaced operands, (valueType types block w).isTensor = false := by
  intro w hw
  simp only [remapValues, List.mem_map] at hw
  obtain ⟨v, hv, rfl⟩ := hw
  cases hfind : replaced.find? (fun e => decide (e.1 = v)) with
  | some e =>
    simp only
    obtain ⟨type, htype⟩ := hreplaced e (List.mem_of_find?_eq_some hfind)
    have h1 := (allocatedType_isSome_iff block e.2).2 ⟨type, htype⟩
    cases ha : allocatedType block e.2 with
    | none => rw [ha] at h1; simp at h1
    | some t => simp [valueType, ha, Ty.isTensor]
  | none =>
    simp only
    rcases hoperands v hv with hc | ht
    · have := hconverted v hc
      rw [hfind] at this
      simp at this
    · cases ha : allocatedType block v with
      | none => simp [valueType, ha, ht]
      | some t => simp [valueType, ha, Ty.isTensor]

theorem isTinygrad_false_of_count (o : Op) (h : o.count (fun o => !o.isLowered) = 0) :
    o.isTinygrad = false := by
  cases o with
  | tinygrad op => simp [Op.count, Op.isLowered, Op.dialect] at h
  | _ => rfl

/-- Putting an operation that is not of the tensor dialect before the last operation
of a piece of a body changes nothing for the conversion. -/
theorem convertible_insert (types : Value → Ty) (inserted last : Op)
    (hinserted : inserted.isTinygrad = false) :
    ∀ (mid : List Op) (converted : List Value),
      convertible types converted (mid ++ [last]) = true →
      convertible types converted (mid ++ [inserted, last]) = true := by
  intro mid
  induction mid with
  | nil =>
    intro converted h
    cases inserted with
    | tinygrad op => simp [Op.isTinygrad] at hinserted
    | _ => simpa [convertible] using h
  | cons o os ih =>
    intro converted h
    cases o with
    | tinygrad op =>
      simp only [List.cons_append, convertible, Bool.and_eq_true] at h ⊢
      exact ⟨h.1, ih _ h.2⟩
    | _ =>
      simp only [List.cons_append, convertible] at h ⊢
      exact ih _ h

theorem countP_isTinygrad_insert (inserted last : Op) (mid : List Op)
    (hinserted : inserted.isTinygrad = false) :
    (mid ++ [inserted, last]).countP Op.isTinygrad = (mid ++ [last]).countP Op.isTinygrad := by
  simp [List.countP_append, List.countP_cons, hinserted]

/-! ## The conversion of a convertible body succeeds -/

theorem mem_deallocAtPoint (o dealloc : Op) (after : List Op)
    (h : o ∈ deallocAtPoint dealloc after) : o = dealloc := by
  unfold deallocAtPoint at h
  split at h
  · simp at h
  · simpa using h

theorem applyPartialConversion_legal (types : Value → Ty) (rewriter : PatternRewriter)
    (fuel : Nat) (hfuel : 0 < fuel)
    (h : ∀ o ∈ rewriter.block, target.isIllegal types rewriter.block o = false) :
    applyPartialConversion types target patterns fuel rewriter =
      ConversionResult.success rewriter := by
  obtain ⟨f, rfl⟩ : ∃ f, fuel = f + 1 := ⟨fuel - 1, by omega⟩
  rw [applyPartialConversion, legalizeStep_legal types patterns rewriter h]

theorem applyPartialConversion_succeeds (types : Value → Ty) :
    ∀ (m : Nat) (remaining done : List Op) (converted : List Value)
      (rewriter : PatternRewriter) (fuel : Nat),
      remaining.countP Op.isTinygrad + remaining.length ≤ m →
      rewriter.block = done ++ remaining →
      (∀ o ∈ done, target.isIllegal types rewriter.block o = false) →
      convertible types converted remaining = true →
      (∀ e ∈ rewriter.replaced, ∃ type, Op.alloc e.2 type ∈ rewriter.block) →
      (∀ v ∈ converted,
        (rewriter.replaced.find? (fun e => decide (e.1 = v))).isSome = true) →
      remaining.countP Op.isTinygrad < fuel →
      ∃ rewritten,
        applyPartialConversion types target patterns fuel rewriter =
          ConversionResult.success rewritten := by
  intro m
  induction m with
  | zero =>
    intro remaining done converted rewriter fuel hm hblock hdone _ _ _ hfuel
    have hnil : remaining = [] := by
      cases remaining with
      | nil => rfl
      | cons o os => simp at hm
    subst hnil
    exact ⟨rewriter, applyPartialConversion_legal types rewriter fuel (by omega)
      (fun o ho => hdone o (by rw [hblock] at ho; simpa using ho))⟩
  | succ m ih =>
    intro remaining done converted rewriter fuel hm hblock hdone hconv hreplaced hconverted hfuel
    cases remaining with
    | nil =>
      exact ⟨rewriter, applyPartialConversion_legal types rewriter fuel (by omega)
        (fun o ho => hdone o (by rw [hblock] at ho; simpa using ho))⟩
    | cons o rem =>
      by_cases hill : target.isIllegal types rewriter.block o = true
      · have ht := isTinygrad_of_isIllegal types _ _ hill
        cases o with
        | tinygrad op =>
          obtain ⟨f, rfl⟩ : ∃ f, fuel = f + 1 := ⟨fuel - 1, by omega⟩
          have hstep := legalizeStep_at types patterns rewriter done rem op hblock hdone hill
          simp only [convertible, Bool.and_eq_true, List.all_eq_true, Bool.or_eq_true,
            decide_eq_true_eq, Bool.not_eq_true'] at hconv
          obtain ⟨⟨hpre, hops⟩, hrest⟩ := hconv
          simp only [List.countP_cons, Op.isTinygrad, if_true, List.length_cons] at hm hfuel
          by_cases hk : op.kind = TinyGradKind.print
          · -- the print is updated in place
            have hrem := remapped_not_tensor types rewriter.block rewriter.replaced converted
              op.operands hreplaced hconverted hops
            obtain ⟨hlegal, hroot⟩ := legalizeRoot_print types
              { rewriter with before := done, after := Op.tinygrad op :: rem } op rem hk rfl
              (by
                intro v hv
                have := hrem v hv
                rw [hblock] at this
                exact this)
            rw [applyPartialConversion, hstep, hroot]
            simp only []
            rw [if_pos hk] at hrest
            refine ih rem
              (done ++ [Op.tinygrad { op with operands := remapValues rewriter.replaced op.operands }])
              converted _ f (by omega) (by simp [PatternRewriter.block]) ?_ hrest ?_ hconverted
              (by omega)
            · intro x hx
              simp only [PatternRewriter.block]
              rw [List.mem_append, List.mem_singleton] at hx
              rcases hx with hx | rfl
              · rw [isIllegal_updateRoot types done rem op, ← hblock]
                exact hdone x hx
              · exact hlegal
            · intro e he
              obtain ⟨type, htype⟩ := hreplaced e he
              refine ⟨type, ?_⟩
              rw [hblock] at htype
              simp only [PatternRewriter.block, List.mem_append, List.mem_cons] at htype ⊢
              rcases htype with h | h | h
              · exact Or.inl h
              · cases h
              · exact Or.inr (Or.inr h)
          · -- the operation is replaced by a buffer
            obtain ⟨rw1, hroot, type, code, hb, ha, hr, _, hc⟩ := legalizeRoot_replaces types
              { rewriter with before := done, after := Op.tinygrad op :: rem } op hk hpre
            simp only at hb ha hr
            have hblock1 := block_of_fullReplacement op
              { rewriter with before := done, after := Op.tinygrad op :: rem } rw1 rem type code
              rfl hb ha
            simp only at hblock1
            have hallocs : ∀ w t, Op.alloc w t ∈ rewriter.block →
                ∃ t', Op.alloc w t' ∈ rw1.block := by
              intro w t hw
              refine ⟨t, ?_⟩
              rw [hblock1, mem_replacement]
              rw [hblock, List.mem_append, List.mem_cons] at hw
              rcases hw with hw | hw | hw
              · exact Or.inr (Or.inl hw)
              · cases hw
              · exact Or.inr (Or.inr (Or.inr (Or.inr hw)))
            rw [if_neg hk] at hrest
            rw [applyPartialConversion, hstep, hroot]
            simp only []
            have hafter : (rem = [] ∧ rw1.after = []) ∨
                (∃ mid last, rem = mid ++ [last] ∧
                  rw1.after = mid ++ [Op.dealloc rewriter.nextValue, last]) := by
              rcases dealloc_placement (Op.dealloc rewriter.nextValue) (Op.tinygrad op) rem with
                ⟨h1, _, h3⟩ | ⟨mid, last, h1, _, h3⟩
              · exact Or.inl ⟨h1, by rw [ha, h3]⟩
              · exact Or.inr ⟨mid, last, h1, by rw [ha, h3]⟩
            have hcount : rw1.after.countP Op.isTinygrad = rem.countP Op.isTinygrad ∧
                rw1.after.length ≤ rem.length + 1 := by
              rcases hafter with ⟨h1, h2⟩ | ⟨mid, last, h1, h2⟩
              · rw [h1, h2]; simp
              · rw [h1, h2, countP_isTinygrad_insert (Op.dealloc rewriter.nextValue) last mid rfl]; simp
            refine ih rw1.after rw1.before (converted ++ op.results.map Prod.fst) rw1 f
              (by omega) rfl ?_ ?_ ?_ ?_ (by omega)
            · intro x hx
              rw [hb] at hx
              simp only [List.cons_append, List.mem_cons, List.mem_append] at hx
              rcases hx with rfl | hx | hx | hx
              · exact target_isIllegal_of_not_tinygrad _ _ _ rfl
              · by_contra hcontra
                have h1 := isIllegal_of_later types rewriter.block rw1.block x hallocs
                  (by simpa using hcontra)
                rw [hdone x hx] at h1
                simp at h1
              · rw [mem_deallocAtPoint _ _ _ hx]
                exact target_isIllegal_of_not_tinygrad _ _ _ rfl
              · exact target_isIllegal_of_not_tinygrad _ _ _
                  (isTinygrad_false_of_count x ((countOps_eq_zero_iff _ _).1 hc x hx))
            · rcases hafter with ⟨h1, h2⟩ | ⟨mid, last, h1, h2⟩
              · rw [h2]; rfl
              · rw [h2]
                rw [h1] at hrest
                exact convertible_insert types (Op.dealloc rewriter.nextValue) last rfl mid _ hrest
            · intro e he
              rw [hr, List.mem_append] at he
              rcases he with he | he
              · obtain ⟨t, ht'⟩ := hreplaced e he
                exact hallocs _ t ht'
              · simp only [List.mem_map] at he
                obtain ⟨r, _, rfl⟩ := he
                refine ⟨type, ?_⟩
                rw [hblock1, mem_replacement]
                exact Or.inl rfl
            · intro v hv
              rw [hr, List.find?_append]
              rw [List.mem_append] at hv
              rcases hv with hv | hv
              · have := hconverted v hv
                cases hf : rewriter.replaced.find? (fun e => decide (e.1 = v)) with
                | none => rw [hf] at this; simp at this
                | some e => simp
              · cases hf : rewriter.replaced.find? (fun e => decide (e.1 = v)) with
                | some e => simp
                | none =>
                  simp only [Option.none_or, List.find?_isSome, List.mem_map, decide_eq_true_eq]
                  simp only [List.mem_map] at hv
                  obtain ⟨r, hr1, hr2⟩ := hv
                  exact ⟨(r.1, rewriter.nextValue), ⟨r, hr1, rfl⟩, hr2⟩
        | _ => simp [Op.isTinygrad] at ht
      · -- a legal operation is left alone
        have hlegal : target.isIllegal types rewriter.block o = false := by simpa using hill
        refine ih rem (done ++ [o]) converted rewriter fuel ?_ (by simp [hblock]) ?_ ?_ hreplaced
          hconverted ?_
        · simp only [List.countP_cons, List.length_cons] at hm
          split at hm <;> omega
        · intro x hx
          rw [List.mem_append, List.mem_singleton] at hx
          rcases hx with hx | rfl
          · exact hdone x hx
          · exact hlegal
        · cases o with
          | tinygrad op =>
            rw [target_isIllegal_tinygrad] at hlegal
            have hk : op.kind = TinyGradKind.print := by
              by_contra hk
              rw [if_neg hk] at hlegal
              simp at hlegal
            simp only [convertible, Bool.and_eq_true] at hconv
            rw [if_pos hk] at hconv
            exact hconv.2
          | _ => simpa [convertible] using hconv
        · simp only [List.countP_cons] at hfuel
          split at hfuel <;> omega

/-! ## The bound on the rounds is never reached -/

theorem countP_replacement (p : Op → Bool) (alloc dealloc root : Op) (before code rest : List Op) :
    ((alloc :: before ++ (deallocAtPoint dealloc (root :: rest) ++ code)) ++
        (deallocBeforeBack dealloc (root :: rest)).tail).countP p =
      [alloc].countP p + before.countP p + [dealloc].countP p + code.countP p +
        rest.countP p := by
  rcases dealloc_placement dealloc root rest with ⟨h1, h2, h3⟩ | ⟨mid, last, h1, h2, h3⟩
  · rw [h2, h3, h1]
    simp only [List.cons_append, List.append_nil, List.nil_append, List.countP_cons,
      List.countP_append, List.countP_nil]
    omega
  · rw [h2, h3, h1]
    simp only [List.cons_append, List.nil_append, List.countP_cons, List.countP_append,
      List.countP_nil]
    omega

/-- Every successful round of the driver leaves fewer illegal operations in the
block. -/
theorem legalizeStep_decreases (types : Value → Ty) (registry : List Pattern)
    (rewriter rewritten : PatternRewriter)
    (h : legalizeStep types target registry rewriter = StepResult.rewritten rewritten) :
    rewritten.block.countP (target.isIllegal types rewritten.block) + 1 ≤
      rewriter.block.countP (target.isIllegal types rewriter.block) := by
  rcases legalizeStep_cases types registry rewriter with ⟨hl, _⟩ | ⟨before, op, rest, hb, _, hop, hstep⟩
  · rw [hl] at h; simp at h
  · rw [hstep] at h
    obtain ⟨pattern, _, _, hrw, hcheck⟩ := legalizeRoot_rewritten types registry _ _ _ h
    have hcount : ∀ p : Op → Bool, rewriter.block.countP p =
        before.countP p + (if p (Op.tinygrad op) = true then 1 else 0) + rest.countP p := by
      intro p
      rw [hb, List.countP_append, List.countP_cons]
      omega
    have hold := hcount (target.isIllegal types rewriter.block)
    rw [hop] at hold
    simp only [if_true] at hold
    by_cases hup : pattern.updatesRoot = true
    · cases pattern with
      | print =>
        have hc := hcheck hup
        simp only [Pattern.matchAndRewrite, PrintOpLowering.matchAndRewrite,
          PatternRewriter.updateRootInPlace, Option.some.injEq] at hrw
        have hblock1 : rewritten.block =
            before ++ Op.tinygrad
              { op with operands := remapValues rewriter.replaced op.operands } :: rest := by
          rw [← hrw]
          rfl
        have hroot := hc (Op.tinygrad
          { op with operands := remapValues rewriter.replaced op.operands }) rest
          (by rw [← hrw])
        have hfun : target.isIllegal types rewritten.block =
            target.isIllegal types rewriter.block := by
          funext o
          rw [hblock1, isIllegal_updateRoot types before rest op, hb]
        rw [hfun] at hroot ⊢
        rw [hblock1, List.countP_append, List.countP_cons, hroot]
        simp only [Bool.false_eq_true, if_false, Nat.add_zero]
        omega
      | _ => simp [Pattern.updatesRoot] at hup
    · obtain ⟨type, code, hbef, haft, _, _, hc⟩ :=
        Pattern.matchAndRewrite_fullReplacement pattern op _ _ _ (by simpa using hup) hrw
      have hblock := block_of_fullReplacement op _ rewritten rest type code rfl hbef haft
      simp only at hblock
      have hallocs : ∀ w t, Op.alloc w t ∈ rewriter.block →
          ∃ t', Op.alloc w t' ∈ rewritten.block := by
        intro w t hw
        refine ⟨t, ?_⟩
        rw [hblock, mem_replacement]
        rw [hb, List.mem_append, List.mem_cons] at hw
        rcases hw with hw | hw | hw
        · exact Or.inr (Or.inl hw)
        · cases hw
        · exact Or.inr (Or.inr (Or.inr (Or.inr hw)))
      have hmono : ∀ l : List Op, l.countP (target.isIllegal types rewritten.block) ≤
          l.countP (target.isIllegal types rewriter.block) := by
        intro l
        apply List.countP_mono_left
        intro o _ ho
        exact isIllegal_of_later types rewriter.block rewritten.block o hallocs ho
      have hcode : code.countP (target.isIllegal types rewritten.block) = 0 := by
        rw [List.countP_eq_zero]
        intro o ho
        rw [target_isIllegal_of_not_tinygrad _ _ _
          (isTinygrad_false_of_count o ((countOps_eq_zero_iff _ _).1 hc o ho))]
        simp
      have key : ∀ p : Op → Bool, rewritten.block.countP p =
          [Op.alloc rewriter.nextValue type].countP p + before.countP p +
            [Op.dealloc rewriter.nextValue].countP p + code.countP p + rest.countP p := by
        intro p
        rw [hblock]
        exact countP_replacement p _ _ _ _ _ _
      have hnew := key (target.isIllegal types rewritten.block)
      rw [hcode] at hnew
      have halloc : target.isIllegal types rewritten.block (Op.alloc rewriter.nextValue type) =
          false := target_isIllegal_of_not_tinygrad _ _ _ (by rfl)
      have hdealloc : target.isIllegal types rewritten.block (Op.dealloc rewriter.nextValue) =
          false := target_isIllegal_of_not_tinygrad _ _ _ (by rfl)
      simp only [List.countP_cons, List.countP_nil, halloc, hdealloc,
        Bool.false_eq_true, if_false] at hnew
      have := hmono before
      have := hmono rest
      omega

/-- With more rounds allowed than the block has illegal operations, the driver
comes to an end: it succeeds, fails or aborts. -/
theorem applyPartialConversion_terminates (types : Value → Ty) (registry : List Pattern) :
    ∀ (fuel : Nat) (rewriter : PatternRewriter),
      rewriter.block.countP (target.isIllegal types rewriter.block) < fuel →
      applyPartialConversion types target registry fuel rewriter ≠ ConversionResult.outOfFuel := by
  intro fuel
  induction fuel with
  | zero => intro rewriter h; omega
  | succ fuel ih =>
    intro rewriter hfuel
    rw [applyPartialConversion]
    cases hstep : legalizeStep types target registry rewriter with
    | legal => simp
    | rewritten r =>
      have := legalizeStep_decreases types registry rewriter r hstep
      exact ih r (by omega)
    | failure loc => simp
    | aborted => simp

/-- The bound on the rounds in `runOnOperation` is never reached. -/
theorem runOnOperation_terminates (types : Value → Ty) (rewriter : PatternRewriter) :
    runOnOperation types rewriter ≠ ConversionResult.outOfFuel := by
  unfold runOnOperation
  apply applyPartialConversion_terminates
  have := List.countP_le_length (target.isIllegal types rewriter.block) (l := rewriter.block)
  omega

/-! ## Failure and success of the pass -/

/-- When the first illegal operation of the block has no pattern in the registry,
the round of the driver fails with the location of that operation. -/
theorem legalizeStep_no_pattern (types : Value → Ty) (registry : List Pattern)
    (rewriter : PatternRewriter) (done rest : List Op) (op : Operation)
    (hblock : rewriter.block = done ++ Op.tinygrad op :: rest)
    (hdone : ∀ o ∈ done, target.isIllegal types rewriter.block o = false)
    (hop : target.isIllegal types rewriter.block (Op.tinygrad op) = true)
    (hnone : ∀ pattern ∈ registry, pattern.rootKind ≠ op.kind) :
    legalizeStep types target registry rewriter = StepResult.failure op.loc := by
  rw [legalizeStep_at types registry rewriter done rest op hblock hdone hop]
  have hfind : registry.find? (fun pattern => decide (pattern.rootKind = op.kind)) = none := by
    rw [List.find?_eq_none]
    intro p hp
    simpa using hnone p hp
  simp only [legalizeRoot, hfind]

/-- A successful round of the driver keeps every operation of the tensor dialect
whose kind has no pattern in the registry. -/
theorem legalizeStep_keeps (types : Value → Ty) (registry : List Pattern)
    (rewriter rewritten : PatternRewriter) (kept : Operation)
    (h : legalizeStep types target registry rewriter = StepResult.rewritten rewritten)
    (hnone : ∀ pattern ∈ registry, pattern.rootKind ≠ kept.kind)
    (hkept : Op.tinygrad kept ∈ rewriter.block) : Op.tinygrad kept ∈ rewritten.block := by
  rcases legalizeStep_cases types registry rewriter with ⟨hl, _⟩ | ⟨before, op, rest, hb, _, _, hstep⟩
  · rw [hl] at h; simp at h
  · rw [hstep] at h
    obtain ⟨pattern, hmem, hroot, hrw, _⟩ := legalizeRoot_rewritten types registry _ _ _ h
    have hne : Op.tinygrad kept ≠ Op.tinygrad op := by
      intro heq
      injection heq with heq
      exact hnone pattern hmem (by rw [hroot, heq])
    rw [hb, List.mem_append, List.mem_cons] at hkept
    have hkept' : Op.tinygrad kept ∈ before ∨ Op.tinygrad kept ∈ rest := by
      rcases hkept with h1 | h1 | h1
      · exact Or.inl h1
      · exact absurd h1 hne
      · exact Or.inr h1
    by_cases hup : pattern.updatesRoot = true
    · cases pattern with
      | print =>
        simp only [Pattern.matchAndRewrite, PrintOpLowering.matchAndRewrite,
          PatternRewriter.updateRootInPlace, Option.some.injEq] at hrw
        rw [← hrw]
        simp only [PatternRewriter.block, List.mem_append, List.mem_cons]
        rcases hkept' with h1 | h1
        · exact Or.inl h1
        · exact Or.inr (Or.inr h1)
      | _ => simp [Pattern.updatesRoot] at hup
    · obtain ⟨type, code, hbef, haft, _, _, _⟩ :=
        Pattern.matchAndRewrite_fullReplacement pattern op _ _ _ (by simpa using hup) hrw
      have hblock := block_of_fullReplacement op _ rewritten rest type code rfl hbef haft
      rw [hblock, mem_replacement]
      rcases hkept' with h1 | h1
      · exact Or.inr (Or.inl h1)
      · exact Or.inr (Or.inr (Or.inr (Or.inr h1)))

/-- The driver never succeeds on a block that holds an operation of the tensor
dialect, other than a print, whose kind has no pattern in the registry. -/
theorem applyPartialConversion_not_success (types : Value → Ty) (registry : List Pattern)
    (kept : Operation) (hkind : kept.kind ≠ TinyGradKind.print)
    (hnone : ∀ pattern ∈ registry, pattern.rootKind ≠ kept.kind) :
    ∀ (fuel : Nat) (rewriter rewritten : PatternRewriter),
      Op.tinygrad kept ∈ rewriter.block →
      applyPartialConversion types target registry fuel rewriter ≠
        ConversionResult.success rewritten := by
  intro fuel
  induction fuel with
  | zero => intro rewriter rewritten _ h; simp [applyPartialConversion] at h
  | succ fuel ih =>
    intro rewriter rewritten hkept h
    have hill : ∀ block, target.isIllegal types block (Op.tinygrad kept) = true := by
      intro block
      rw [target_isIllegal_tinygrad, if_neg hkind]
    rw [applyPartialConversion] at h
    cases hstep : legalizeStep types target registry rewriter with
    | legal =>
      rcases legalizeStep_cases types registry rewriter with ⟨_, hl⟩ | ⟨_, _, _, _, _, _, hroot⟩
      · have := hl _ hkept
        rw [hill] at this
        simp at this
      · rw [hroot] at hstep
        unfold legalizeRoot at hstep
        repeat' split at hstep
        all_goals simp at hstep
    | rewritten r =>
      rw [hstep] at h
      exact ih r rewritten (legalizeStep_keeps types registry rewriter r kept hstep hnone hkept) h
    | failure loc => rw [hstep] at h; simp at h
    | aborted => rw [hstep] at h; simp at h

/-- C14, as the code has it.  When the first illegal operation of the body has no
registered pattern, the conversion fails and reports the location of that
operation; and it never succeeds on a body that holds an operation of the
tensor dialect, other than a print, without a registered pattern.
Conversely the pass succeeds on a body in which every operation of the
tensor dialect meets the arity and shape preconditions of its pattern and
takes as operands only results of operations of the tensor dialect, other
than prints, standing before it in the body (or values that are not of
tensor type); every kind has a registered pattern in the pass.  The pass
always comes to an end within its bound on the rounds. -/
theorem conversion_fails_without_pattern_succeeds_on_convertible (types : Value → Ty) :
    (∀ (registry : List Pattern) (rewriter : PatternRewriter) (done rest : List Op)
        (op : Operation) (fuel : Nat),
      rewriter.block = done ++ Op.tinygrad op :: rest →
      (∀ o ∈ done, target.isIllegal types rewriter.block o = false) →
      target.isIllegal types rewriter.block (Op.tinygrad op) = true →
      (∀ pattern ∈ registry, pattern.rootKind ≠ op.kind) →
      applyPartialConversion types target registry (fuel + 1) rewriter =
        ConversionResult.failure op.loc) ∧
    (∀ (registry : List Pattern) (rewriter rewritten : PatternRewriter) (op : Operation)
        (fuel : Nat),
      Op.tinygrad op ∈ rewriter.block →
      op.kind ≠ TinyGradKind.print →
      (∀ pattern ∈ registry, pattern.rootKind ≠ op.kind) →
      applyPartialConversion types target registry fuel rewriter ≠
        ConversionResult.success rewritten) ∧
    (∀ rewriter : PatternRewriter,
      rewriter.replaced = [] →
      convertible types [] rewriter.block = true →
      ∃ rewritten, runOnOperation types rewriter = ConversionResult.success rewritten) ∧
    (∀ rewriter : PatternRewriter,
      runOnOperation types rewriter ≠ ConversionResult.outOfFuel) := by
  refine ⟨?_, ?_, ?_, runOnOperation_terminates types⟩
  · intro registry rewriter done rest op fuel hblock hdone hop hnone
    rw [applyPartialConversion,
      legalizeStep_no_pattern types registry rewriter done rest op hblock hdone hop hnone]
  · intro registry rewriter rewritten op fuel hmem hkind hnone
    exact applyPartialConversion_not_success types registry op hkind hnone fuel rewriter
      rewritten hmem
  · intro rewriter hreplaced hconv
    unfold runOnOperation
    refine applyPartialConversion_succeeds types _ rewriter.block [] [] rewriter _ (le_refl _)
      (by simp) (by simp) hconv (by simp [hreplaced]) (by simp) ?_
    have := List.countP_le_length Op.isTinygrad (l := rewriter.block)
    omega

theorem conversion_fails_without_pattern_succeeds_on_convertible_witness :
    applyPartialConversion exampleTypes target [Pattern.print] 3 exampleRewriter =
        ConversionResult.failure exampleConstant.loc ∧
      (∃ rewritten, runOnOperation exampleTypes exampleBody = ConversionResult.success rewritten) :=
  ⟨(conversion_fails_without_pattern_succeeds_on_convertible exampleTypes).1 [Pattern.print]
      exampleRewriter [] [Op.other 0 []] exampleConstant 2 rfl (by simp) (by rfl)
      (by
        intro pattern hp
        simp only [List.mem_singleton] at hp
        subst hp
        decide),
   (conversion_fails_without_pattern_succeeds_on_convertible exampleTypes).2.2.1 exampleBody rfl
      (by rfl)⟩

/-- C14 fails as stated in the converse direction: in the body holding only the
print of a tensor that no operation of the body defines, the only illegal
operation is the print, its kind has a registered pattern and the print
pattern has no arity or shape precondition; yet the pass fails, at the
location of the print, because the operand of the print has no buffer
replacement and the print stays illegal. -/
theorem print_of_unconverted_tensor_fails :
    runOnOperation exampleTypes examplePrintOnly = ConversionResult.failure 7 ∧
      examplePrint.loc = 7 ∧
      examplePrintOnly.block = [Op.tinygrad examplePrint, Op.other 0 []] ∧
      target.isIllegal exampleTypes examplePrintOnly.block (Op.other 0 []) = false ∧
      Pattern.print ∈ patterns ∧
      Pattern.print.rootKind = examplePrint.kind ∧
      examplePrint.preconditions = true := by
  refine ⟨by rfl, by rfl, by rfl, by rfl, by decide, by rfl, by rfl⟩

/-! ## Execution of the comparison kinds -/

/-- C3 fails for the two comparison kinds: the code the pattern emits for the
equality comparison of two f64 buffers of shape (2,3), and for the positivity
test of an f64 buffer of shape (2), does not execute.  Its scalar operation is
`arith.cmpf`, whose result has type `i1`, and the store of that result into the
f64 result buffer is not a store `affine.store` admits, so no element of the
result buffer is written.  The same loop nests execute when the result buffer
holds `i1` elements. -/
theorem cmpf_code_does_not_execute :
    (CmpEqLowering.matchAndRewrite exampleCmpEq [0, 1] exampleCmpEqRewriter).map
        (fun r => r.block) = some exampleCmpEqLowered ∧
      execOps exampleSem (exampleCmpEqLowered.take 2) exampleMachine = none ∧
      (execOps exampleSem
        (Op.alloc 3 { shape := [2, 3], elementType := ElementType.i1 } ::
          (exampleCmpEqLowered.take 2).tail) exampleMachine).isSome = true ∧
      (Gt0OpLowering.matchAndRewrite exampleGt0 [0] exampleGt0Rewriter).map
        (fun r => r.block) = some exampleGt0Lowered ∧
      execOps exampleSem (exampleGt0Lowered.take 2) exampleVectorMachine = none ∧
      (execOps exampleSem
        (Op.alloc 2 { shape := [2], elementType := ElementType.i1 } ::
          (exampleGt0Lowered.take 2).tail) exampleVectorMachine).isSome = true :=
  ⟨by rfl, by rfl, by decide!, by rfl, by rfl, by decide!⟩

end TinyGrad
